import Mathlib

/-! # OpenHantek6022 log-tailing input (`openhantek/src/input/dsoinput.cpp`)

A shallow embedding of the telemetry-ingestion core: the tokenizer `LexicalParser`,
the record parser `DataParser`, the channel registry `DsoInput::GetSampleData`,
the sample buffers `SampleData::addData` / `SampleData::addEmptyData` and the
polling driver `DsoInput::restartSampling`.

Conventions of the embedding.

* A `QString` is the list of its `QChar`s.
* The functions of Qt and of the C++ runtime that the code calls (character
  classification, `QString::toFloat`, UTF-8 decoding, `float` arithmetic) are not part
  of the repository. They are the fields of `QtLib`, a parameter of every definition
  that calls them; `refLib` is one executable instance.
* Loops are structural recursions on a fuel counter that bounds the number of
  iterations. A function returns `none` when the fuel runs out before the loop
  condition fails, when an index is out of range or when an indeterminate value is
  read; the theorems prove that the result is `some _`.
* `SampleData*` pointers are addresses into a heap of `SampleData` objects.
-/

namespace OpenHantek

/-! ## Qt strings and the library parameter -/

/-- A `QString`: the sequence of its characters. -/
abbrev QString := List Char

/-- The library functions used by `dsoinput.cpp`. `F` is the type of `float` values.
Every `double` stored by the code is the widening of a `float`, so one type serves
for both. -/
structure QtLib (F : Type) where
  /-- Models `QChar::isSpace` -/
  isSpace : Char → Bool
  /-- Models `QChar::isLetter` -/
  isLetter : Char → Bool
  /-- Models `QChar::isDigit` -/
  isDigit : Char → Bool
  /-- Models `QChar::isLetterOrNumber` -/
  isLetterOrNumber : Char → Bool
  /-- Models `QString::toFloat(bool *ok)`: the value and the `ok` flag. -/
  toFloat : QString → F × Bool
  /-- Models `QString(const QByteArray &)`: decoding of the bytes of a line. -/
  fromUtf8 : List Char → QString
  /-- Conversion of an integer literal to `float` (`0.0f`, `1.0f`, `60.0f`). -/
  ofNat : Nat → F
  /-- Models `float` subtraction -/
  sub : F → F → F
  /-- Models `float` division -/
  div : F → F → F
  /-- Models `qRound` -/
  qRound : F → Int

/-! ## `SampleData` (dsoinput.h 11-20, dsoinput.cpp 304-331) -/

/-- Models `struct SampleData`. -/
structure SampleData (F : Type) where
  name : QString
  data : List F
  timeStamp : F
deriving DecidableEq

/-- Models `new SampleData()`: the member initialisers of the struct. -/
def SampleData.new {F : Type} (lib : QtLib F) : SampleData F :=
  { name := [], data := [], timeStamp := lib.ofNat 0 }

/-- Models `SampleData::addData` (dsoinput.cpp 304-322). The loop of the `count > 1` branch is
commented out in the source; only the local `last` is computed there. -/
def SampleData.addData {F : Type} (lib : QtLib F) (sd : SampleData F)
    (time value frameRate : F) : SampleData F :=
  let interval := lib.sub time sd.timeStamp
  let count := lib.qRound (lib.div interval frameRate)
  let sd1 : SampleData F :=
    if count > 1 then
      let _last : F := if sd.data.length > 0 then (sd.data.getLast?).getD (lib.ofNat 0)
        else lib.ofNat 0
      sd
    else if count < 1 then sd
    else sd
  { sd1 with data := sd1.data ++ [value], timeStamp := time }

/-- Models `static_cast<size_t>(num)` for an `int` argument, `size_t` being 64 bits wide. -/
def sizeCast (num : Int) : Nat := (num % 2 ^ 64).toNat

/-- The `while` loop of `SampleData::addEmptyData` (dsoinput.cpp 327-330). -/
def addEmptyDataLoop {F : Type} (lastValue : F) (target : Nat) :
    Nat → List F → Option (List F)
  | 0, data => if data.length + 1 < target then none else some data
  | fuel + 1, data =>
    if data.length + 1 < target then
      addEmptyDataLoop lastValue target fuel (data ++ [lastValue])
    else some data

/-- Models `SampleData::addEmptyData` (dsoinput.cpp 324-331). -/
def SampleData.addEmptyData {F : Type} (lib : QtLib F) (sd : SampleData F) (num : Int) :
    Option (SampleData F) :=
  let lastValue : F := match sd.data.getLast? with
    | none => lib.ofNat 0
    | some v => v
  match addEmptyDataLoop lastValue (sizeCast num) (sizeCast num) sd.data with
  | none => none
  | some data => some { sd with data := data }

/-! ## The tokenizer `LexicalParser` (dsoinput.cpp 21-84) -/

/-- Models `isSep` (dsoinput.cpp 21-28): membership in the set `':'`, `','`. -/
def isSep (ch : Char) : Bool := ch == ':' || ch == ','

/-- Models `isDot` (dsoinput.cpp 30-33). -/
def isDot (ch : Char) : Bool := ch == '.'

/-- Models `QString::mid(position, n)` for `0 ≤ position` and `0 ≤ n`, with the range checked:
`none` when the requested range is not inside the string (Qt would clamp it). -/
def midChecked (s : QString) (position n : Nat) : Option QString :=
  if position + n ≤ s.length then some ((s.drop position).take n) else none

/-- The inner loop of the identifier branch (dsoinput.cpp 49-50): advances `scanPos`
while `scanPos < maxLen && s[scanPos].isLetterOrNumber()`. -/
def scanLetterOrNumber {F : Type} (lib : QtLib F) (s : QString) (maxLen : Nat) :
    Nat → Nat → Option Nat
  | 0, scanPos => if scanPos < maxLen then none else some scanPos
  | fuel + 1, scanPos =>
    if scanPos < maxLen then
      match s[scanPos]? with
      | none => none
      | some c =>
        if lib.isLetterOrNumber c then scanLetterOrNumber lib s maxLen fuel (scanPos + 1)
        else some scanPos
    else some scanPos

/-- The inner loop of the number branch (dsoinput.cpp 58-73). -/
def scanNumber {F : Type} (lib : QtLib F) (s : QString) (maxLen : Nat) :
    Nat → Bool → Nat → Option Nat
  | 0, _, scanPos => if scanPos < maxLen then none else some scanPos
  | fuel + 1, hasDot, scanPos =>
    if scanPos < maxLen then
      match s[scanPos]? with
      | none => none
      | some c =>
        if isDot c then
          if hasDot then some scanPos
          else scanNumber lib s maxLen fuel true (scanPos + 1)
        else if !lib.isDigit c then some scanPos
        else scanNumber lib s maxLen fuel hasDot (scanPos + 1)
    else some scanPos

/-- The outer loop of `LexicalParser` (dsoinput.cpp 40-82). Each branch ends with the
`++startPos` of line 81; the two scanning branches first set `startPos = scanPos - 1`. -/
def lexLoop {F : Type} (lib : QtLib F) (s : QString) (maxLen : Nat) :
    Nat → Nat → List QString → Option (List QString)
  | 0, startPos, tokens => if startPos < maxLen then none else some tokens
  | fuel + 1, startPos, tokens =>
    if startPos < maxLen then
      match s[startPos]? with
      | none => none
      | some ch =>
        if lib.isSpace ch then
          lexLoop lib s maxLen fuel (startPos + 1) tokens
        else if lib.isLetter ch then
          match scanLetterOrNumber lib s maxLen (maxLen + 1) (startPos + 1) with
          | none => none
          | some scanPos =>
            match midChecked s startPos (scanPos - startPos) with
            | none => none
            | some tok => lexLoop lib s maxLen fuel (scanPos - 1 + 1) (tokens ++ [tok])
        else if lib.isDigit ch || isDot ch || ch == '-' then
          match scanNumber lib s maxLen (maxLen + 1) (isDot ch) (startPos + 1) with
          | none => none
          | some scanPos =>
            match midChecked s startPos (scanPos - startPos) with
            | none => none
            | some tok => lexLoop lib s maxLen fuel (scanPos - 1 + 1) (tokens ++ [tok])
        else if isSep ch then
          lexLoop lib s maxLen fuel (startPos + 1) (tokens ++ [[ch]])
        else
          lexLoop lib s maxLen fuel (startPos + 1) tokens
    else some tokens

/-- Models `LexicalParser` (dsoinput.cpp 35-84). -/
def LexicalParser {F : Type} (lib : QtLib F) (s : QString) : Option (List QString) :=
  lexLoop lib s s.length s.length 0 []

/-! ## The record parser `DataParser` (dsoinput.cpp 86-111) -/

/-- Models `struct AnalysedChannelData`. `sampleTime` is `none` as long as the member has not
been assigned (it has no initialiser). -/
structure AnalysedChannelData (F : Type) where
  sampleTime : Option F
  datas : List (QString × F)
deriving DecidableEq

/-- The `for` loop of `DataParser` (dsoinput.cpp 103-109). -/
def dataLoop {F : Type} (lib : QtLib F) (tokens : List QString) :
    Nat → Nat → AnalysedChannelData F → Option (AnalysedChannelData F)
  | 0, i, data => if i + 2 < tokens.length then none else some data
  | fuel + 1, i, data =>
    if i + 2 < tokens.length then
      match tokens[i + 2]? with
      | none => none
      | some tv =>
        if !(lib.toFloat tv).2 then some data
        else
          match tokens[i]? with
          | none => none
          | some tn =>
            dataLoop lib tokens fuel (i + 4)
              { data with datas := data.datas ++ [(tn, (lib.toFloat tv).1)] }
    else some data

/-- Models `DataParser` (dsoinput.cpp 92-111). -/
def DataParser {F : Type} (lib : QtLib F) (tokens : List QString) :
    Option (AnalysedChannelData F) :=
  if tokens.length > 2 then
    match tokens[2]? with
    | none => none
    | some t =>
      if !(lib.toFloat t).2 then some { sampleTime := some (lib.toFloat t).1, datas := [] }
      else dataLoop lib tokens (tokens.length + 1) 4
        { sampleTime := some (lib.toFloat t).1, datas := [] }
  else dataLoop lib tokens (tokens.length + 1) 4 { sampleTime := none, datas := [] }

/-! ## The record marker `isScopeData` (dsoinput.cpp 7-19) -/

/-- Models `KeyTemplate` (dsoinput.cpp 7). -/
def KeyTemplate : QString := "ScopeData: ".toList

/-- Models `QString::indexOf(pat)` searching from the position `i` of the first character of
the remaining text: the index of the first occurrence, `none` for the result `-1`. -/
def indexOfFrom (pat : QString) : QString → Nat → Option Nat
  | [], i => if pat.isEmpty then some i else none
  | c :: cs, i => if pat.isPrefixOf (c :: cs) then some i else indexOfFrom pat cs (i + 1)

/-- Models `QString::trimmed`: whitespace (`QChar::isSpace`) removed from both ends. -/
def trimmed {F : Type} (lib : QtLib F) (s : QString) : QString :=
  ((s.dropWhile lib.isSpace).reverse.dropWhile lib.isSpace).reverse

/-- Models `isScopeData` (dsoinput.cpp 9-19): the new value of the reference argument and the
returned flag. `QString::mid(position)` is `List.drop`, empty beyond the end. -/
def isScopeData {F : Type} (lib : QtLib F) (s : QString) : QString × Bool :=
  match indexOfFrom KeyTemplate s 0 with
  | some index => ((trimmed lib s).drop (index + KeyTemplate.length), true)
  | none => (s, false)

/-! ## `QMap<QString, SampleData*>` -/

/-- Models `operator<` of `QString`: lexicographic comparison of the code units. -/
def qstringLess : QString → QString → Bool
  | [], [] => false
  | [], _ :: _ => true
  | _ :: _, [] => false
  | a :: as, b :: bs =>
    if a.toNat < b.toNat then true
    else if b.toNat < a.toNat then false
    else qstringLess as bs

/-- A `QMap` keyed by `QString`: its entries in iteration order, which is ascending key
order. -/
structure QMap (V : Type) where
  entries : List (QString × V)
deriving DecidableEq

/-- Models `QMap::contains`. -/
def QMap.contains {V : Type} (m : QMap V) (key : QString) : Bool :=
  m.entries.any (fun e => e.1 == key)

/-- Models `QMap::operator[]` on a key that is present (`none` otherwise). -/
def QMap.value {V : Type} (m : QMap V) (key : QString) : Option V :=
  (m.entries.find? (fun e => e.1 == key)).map Prod.snd

/-- Insertion into the entry list at the position given by the key order. -/
def insertEntry {V : Type} (key : QString) (v : V) : List (QString × V) → List (QString × V)
  | [] => [(key, v)]
  | e :: rest =>
    if qstringLess key e.1 then (key, v) :: e :: rest
    else if qstringLess e.1 key then e :: insertEntry key v rest
    else (key, v) :: rest

/-- Models `QMap::insert`: the value of an equal key is replaced. -/
def QMap.insert {V : Type} (m : QMap V) (key : QString) (v : V) : QMap V :=
  ⟨insertEntry key v m.entries⟩

/-- Models `QMap::keys`: the keys in ascending order. -/
def QMap.keys {V : Type} (m : QMap V) : List QString := m.entries.map Prod.fst

/-- The keys of a map are in strictly ascending order. -/
def QMap.Ordered {V : Type} (m : QMap V) : Prop :=
  m.keys.Pairwise (fun a b => qstringLess a b = true)

/-! ## `DsoInput` (dsoinput.h 22-207, dsoinput.cpp 113-302) -/

/-- The members of `DsoSettingsScope::voltage[channel]` read by `dsoinput.cpp`. -/
structure DsoSettingsScopeVoltage where
  used : Bool
  selectedChannelName : QString
deriving DecidableEq

/-- The members of `DsoSettingsScope` (`dsoSettings->scope`) used by `dsoinput.cpp`;
the class is declared in `dsosettings.h`. -/
structure DsoSettingsScope where
  maxChannels : Nat
  voltage : List DsoSettingsScopeVoltage
  AvaliableChannelNames : List QString
deriving DecidableEq

/-- The signals emitted by `DsoInput`, and the timer request of line 301. The payload
of `newChannelData` is the name list of the scope it points to; the payload of
`samplesAvailable` is `result.data`. -/
inductive Signal where
  | newChannelData (names : List QString)
  | samplesAvailable (data : List (Option Nat))
  | singleShot (msec : Int)
deriving DecidableEq

/-- The members of `DsoInput` used by the tailer. `heap` holds the objects created by
`new SampleData()`, a pointer being the index of its object; `emitted` is the log of
signals; `filePos` is the position of the device `currFile`. -/
structure DsoInput (F : Type) where
  dsoSettings : Option DsoSettingsScope
  sampleDatas : QMap Nat
  heap : List (SampleData F)
  currFileReadable : Bool
  filePos : Nat
  cacheFilePosition : Int
  bQuit : Bool
  capturing : Bool
  acquireInterval : Int
  resultData : List (Option Nat)
  emitted : List Signal
deriving DecidableEq

/-- The state after the constructor (dsoinput.cpp 113-116) with the member initialisers
of dsoinput.h. -/
def DsoInput.init (F : Type) (settings : Option DsoSettingsScope) : DsoInput F :=
  { dsoSettings := settings, sampleDatas := ⟨[]⟩, heap := [], currFileReadable := false,
    filePos := 0, cacheFilePosition := 0, bQuit := false, capturing := true,
    acquireInterval := 3, resultData := [], emitted := [] }

/-- Models `DsoInput::quitSampling` (dsoinput.cpp 123-127). -/
def DsoInput.quitSampling {F : Type} (st : DsoInput F) : DsoInput F :=
  { st with bQuit := true, capturing := false }

/-- Models `DsoInput::GetSampleData` (dsoinput.cpp 134-147): the returned pointer and the new
state. -/
def DsoInput.GetSampleData {F : Type} (lib : QtLib F) (st : DsoInput F) (name : QString) :
    Option (Nat × DsoInput F) :=
  if st.sampleDatas.contains name then
    match st.sampleDatas.value name with
    | none => none
    | some p => some (p, st)
  else
    let newData := st.heap.length
    let heap1 := st.heap ++ [{ SampleData.new lib with name := name }]
    let map1 := st.sampleDatas.insert name newData
    match st.dsoSettings with
    | some settings =>
      some (newData,
        { st with
          heap := heap1, sampleDatas := map1,
          dsoSettings := some { settings with AvaliableChannelNames := map1.keys },
          emitted := st.emitted ++ [Signal.newChannelData map1.keys] })
    | none => some (newData, { st with heap := heap1, sampleDatas := map1 })

/-- Conversion of a 64-bit quantity to `int` (two's complement, 32 bits). -/
def toInt32 (n : Int) : Int := (n + 2 ^ 31) % 2 ^ 32 - 2 ^ 31

/-- The frame interval `1.0f / 60.0f` passed to `addData` (dsoinput.cpp 279). -/
def frameRate {F : Type} (lib : QtLib F) : F := lib.div (lib.ofNat 1) (lib.ofNat 60)

/-- The loop over `data.datas` (dsoinput.cpp 276-281), carrying the state and
`maxSize`. -/
def applyPairs {F : Type} (lib : QtLib F) (sampleTime : Option F) :
    List (QString × F) → DsoInput F × Int → Option (DsoInput F × Int)
  | [], acc => some acc
  | pair :: rest, (st, maxSize) =>
    match st.GetSampleData lib pair.1 with
    | none => none
    | some (p, st1) =>
      match st1.heap[p]?, sampleTime with
      | some sd, some t =>
        let sd2 := sd.addData lib t pair.2 (frameRate lib)
        applyPairs lib sampleTime rest
          ({ st1 with heap := st1.heap.set p sd2 }, max maxSize (toInt32 sd2.data.length))
      | _, _ => none

/-- The body of the read loop for one complete line (dsoinput.cpp 271-282). -/
def processLine {F : Type} (lib : QtLib F) (line : List Char) (acc : DsoInput F × Int) :
    Option (DsoInput F × Int) :=
  let r := isScopeData lib (lib.fromUtf8 line)
  if r.2 then
    match LexicalParser lib r.1 with
    | none => none
    | some tokens =>
      match DataParser lib tokens with
      | none => none
      | some data => applyPairs lib data.sampleTime data.datas acc
  else some acc

/-- The bytes up to and including the first newline, or all of them. -/
def takeLine : List Char → List Char
  | [] => []
  | c :: cs => if c = '\n' then [c] else c :: takeLine cs

/-- Models `QIODevice::readLine` at position `pos` of a file with the given content. -/
def readLine (content : List Char) (pos : Nat) : List Char := takeLine (content.drop pos)

/-- The read loop (dsoinput.cpp 264-283). `atEnd` holds when the device position is
not before the end of the content. -/
def readLoop {F : Type} (lib : QtLib F) (content : List Char) :
    Nat → DsoInput F × Int → Option (DsoInput F × Int)
  | 0, (st, maxSize) => if st.filePos < content.length then none else some (st, maxSize)
  | fuel + 1, (st, maxSize) =>
    if st.filePos < content.length then
      let line := readLine content st.filePos
      let st1 := { st with filePos := st.filePos + line.length }
      if line.getLast? != some '\n' then some (st1, maxSize)
      else
        match processLine lib line
            ({ st1 with cacheFilePosition := toInt32 st1.filePos }, maxSize) with
        | none => none
        | some acc => readLoop lib content fuel acc
    else some (st, maxSize)

/-- The padding loop over the map (dsoinput.cpp 285-288). -/
def padAll {F : Type} (lib : QtLib F) (maxSize : Int) :
    List (QString × Nat) → List (SampleData F) → Option (List (SampleData F))
  | [], heap => some heap
  | e :: rest, heap =>
    match heap[e.2]? with
    | none => none
    | some sd =>
      match sd.addEmptyData lib maxSize with
      | none => none
      | some sd2 => padAll lib maxSize rest (heap.set e.2 sd2)

/-- The loop over the configured channels (dsoinput.cpp 290-298); the first argument
counts the remaining iterations, `maxChannels - channel`. -/
def snapshotLoop {F : Type} (lib : QtLib F) : Nat → Nat → DsoInput F → Option (DsoInput F)
  | 0, _, st => some st
  | n + 1, channel, st =>
    match st.dsoSettings with
    | none => none
    | some settings =>
      match settings.voltage[channel]? with
      | none => none
      | some v =>
        if v.used then
          if !v.selectedChannelName.isEmpty then
            match st.GetSampleData lib v.selectedChannelName with
            | none => none
            | some (p, st1) =>
              if channel < st1.resultData.length then
                snapshotLoop lib n (channel + 1)
                  { st1 with resultData := st1.resultData.set channel (some p) }
              else none
          else snapshotLoop lib n (channel + 1) st
        else snapshotLoop lib n (channel + 1) st

/-- Models `std::vector::resize(n)` of the vector of pointers: null pointers are appended. -/
def resizeResult (data : List (Option Nat)) (n : Nat) : List (Option Nat) :=
  (data ++ List.replicate (n - data.length) none).take n

/-- The opening of the file when it is not readable (dsoinput.cpp 254-260). `file` is
the content of the log file at `filePath` during the tick, `none` when it cannot be
opened. -/
def openFile {F : Type} (st : DsoInput F) (file : Option (List Char)) : DsoInput F :=
  if !st.currFileReadable then
    { st with
      currFileReadable := file.isSome, filePos := 0, cacheFilePosition := 0,
      resultData := resizeResult st.resultData 4 }
  else st

/-- Models `currFile.seek(cacheFilePosition)` (dsoinput.cpp 261): fails, leaving the position,
on a closed device and on a negative offset. -/
def seekFile {F : Type} (st : DsoInput F) : DsoInput F :=
  if st.currFileReadable && decide (0 ≤ st.cacheFilePosition) then
    { st with filePos := st.cacheFilePosition.toNat }
  else st

/-- The bytes the device can deliver: those of the file when it is open. -/
def visibleContent {F : Type} (st : DsoInput F) (file : Option (List Char)) : List Char :=
  if st.currFileReadable then file.getD [] else []

/-- The signal `samplesAvailable(&result)` and the timer request for the next tick
(dsoinput.cpp 299-301). -/
def DsoInput.published {F : Type} (st : DsoInput F) : DsoInput F :=
  { st with
    emitted := st.emitted ++
      [Signal.samplesAvailable st.resultData, Signal.singleShot st.acquireInterval] }

/-- The end of a tick (dsoinput.cpp 285-301): padding, snapshot, the signal
`samplesAvailable` and the request for the next tick. -/
def finishTick {F : Type} (lib : QtLib F) (acc : DsoInput F × Int) : Option (DsoInput F) :=
  match padAll lib acc.2 acc.1.sampleDatas.entries acc.1.heap with
  | none => none
  | some heap4 =>
    match acc.1.dsoSettings with
    | none => none
    | some settings =>
      match snapshotLoop lib settings.maxChannels 0 { acc.1 with heap := heap4 } with
      | none => none
      | some st5 => some st5.published

/-- Models `DsoInput::restartSampling` (dsoinput.cpp 250-302), one tick. `file` is the content
of the log file at `filePath` during the tick, `none` when it cannot be opened. -/
def DsoInput.restartSampling {F : Type} (lib : QtLib F) (st : DsoInput F)
    (file : Option (List Char)) : Option (DsoInput F) :=
  if !st.capturing then some st
  else
    let st2 := seekFile (openFile st file)
    match readLoop lib (visibleContent st2 file) ((visibleContent st2 file).length + 1)
        (st2, 0) with
    | none => none
    | some acc => finishTick lib acc

/-! ## A reference instance of the library -/

/-- Exact fractions `num / den` in lowest terms, standing for `float` values in the
reference instance (rounding to the `float` format is not modelled). -/
structure Fx where
  num : Int
  den : Nat
deriving DecidableEq

/-- The fraction `n / d` in lowest terms; `0` when `d = 0`. -/
def Fx.make (n : Int) (d : Nat) : Fx :=
  if d = 0 then ⟨0, 1⟩
  else ⟨n / (Nat.gcd n.natAbs d : Nat), d / Nat.gcd n.natAbs d⟩

/-- Value of a string of decimal digits, most significant first. -/
def digitsValue (ds : List Char) : Nat :=
  ds.foldl (fun acc c => 10 * acc + (c.toNat - 48)) 0

/-- Decimal numerals `[-]digits[.digits]` with at least one digit, as accepted by
`QString::toFloat` in the C locale; everything else is rejected with value `0`. -/
def decimalToFloat (s : QString) : Fx × Bool :=
  let neg := s.head? == some '-'
  let body := if neg then s.drop 1 else s
  let ip := body.takeWhile Char.isDigit
  let rest := body.dropWhile Char.isDigit
  let fp := if rest.head? == some '.' then rest.drop 1 else []
  let wellFormed := (rest.isEmpty || (rest.head? == some '.' && fp.all Char.isDigit))
    && (!ip.isEmpty || !fp.isEmpty)
  if wellFormed then
    let m : Int := digitsValue (ip ++ fp)
    (Fx.make (if neg then -m else m) (10 ^ fp.length), true)
  else (⟨0, 1⟩, false)

/-- The reference library: ASCII character classes, decimal `toFloat`, identity
decoding and exact arithmetic. -/
def refLib : QtLib Fx where
  isSpace c := c == ' ' || (9 ≤ c.toNat && c.toNat ≤ 13)
  isLetter c := c.isAlpha
  isDigit c := c.isDigit
  isLetterOrNumber c := c.isAlphanum
  toFloat := decimalToFloat
  fromUtf8 bytes := bytes
  ofNat n := ⟨n, 1⟩
  sub a b := Fx.make (a.num * b.den - b.num * a.den) (a.den * b.den)
  div a b := if b.num < 0 then Fx.make (-(a.num * b.den)) (a.den * b.num.natAbs)
    else Fx.make (a.num * b.den) (a.den * b.num.natAbs)
  qRound a := (2 * a.num + a.den) / (2 * a.den)

/-! ## Example inputs -/

/-- Settings with two configured channels, used by the concrete instances below. -/
def exampleSettings : DsoSettingsScope :=
  { maxChannels := 2,
    voltage := [⟨true, "A".toList⟩, ⟨false, "B".toList⟩],
    AvaliableChannelNames := [] }

/-- A registry holding the single channel `abc`. -/
def exampleRegistry : DsoInput Fx :=
  { DsoInput.init Fx (some exampleSettings) with
    sampleDatas := ⟨[("abc".toList, 0)]⟩,
    heap := [⟨"abc".toList, [⟨3, 1⟩], ⟨0, 1⟩⟩],
    dsoSettings := some { exampleSettings with AvaliableChannelNames := ["abc".toList] } }

/-! ## Reading of a record, stated on the token list -/

/-- The `(name, value)` token pairs of the groups `name sep value sep`; the last group
may lack its final separator. -/
def tokenGroups : List QString → List (QString × QString)
  | n :: _ :: v :: _ :: rest => (n, v) :: tokenGroups rest
  | [n, _, v] => [(n, v)]
  | _ => []

/-- The pairs of the leading groups whose value token is accepted by `toFloat`. -/
def leadingPairs {F : Type} (lib : QtLib F) (groups : List (QString × QString)) :
    List (QString × F) :=
  (groups.takeWhile (fun g => (lib.toFloat g.2).2)).map (fun g => (g.1, (lib.toFloat g.2).1))

/-- The record read from a token list: the time stamp is token 2, the groups start at
token 4, and reading stops at the first value token that `toFloat` rejects. -/
def parsedRecord {F : Type} (lib : QtLib F) (tokens : List QString) :
    AnalysedChannelData F :=
  match tokens[2]? with
  | none => { sampleTime := none, datas := [] }
  | some t =>
    if (lib.toFloat t).2 then
      { sampleTime := some (lib.toFloat t).1,
        datas := leadingPairs lib (tokenGroups (tokens.drop 4)) }
    else { sampleTime := some (lib.toFloat t).1, datas := [] }

/-! ## The tokenizer, stated on the list of remaining characters -/

/-- The characters consumed by the number loop after the first character of a number
token: digits, and one dot unless `hasDot` is already set. -/
def numberRun {F : Type} (lib : QtLib F) : Bool → List Char → List Char
  | _, [] => []
  | hasDot, c :: cs =>
    if isDot c then
      if hasDot then [] else c :: numberRun lib true cs
    else if !lib.isDigit c then []
    else c :: numberRun lib hasDot cs

/-- The token list of the remaining characters, one character class at a time; the
first argument bounds the number of characters still to be read. -/
def lexList {F : Type} (lib : QtLib F) : Nat → List Char → List QString
  | 0, _ => []
  | _ + 1, [] => []
  | n + 1, ch :: rest =>
    if lib.isSpace ch then lexList lib n rest
    else if lib.isLetter ch then
      (ch :: rest.takeWhile lib.isLetterOrNumber)
        :: lexList lib n (rest.dropWhile lib.isLetterOrNumber)
    else if lib.isDigit ch || isDot ch || ch == '-' then
      (ch :: numberRun lib (isDot ch) rest)
        :: lexList lib n (rest.drop (numberRun lib (isDot ch) rest).length)
    else if isSep ch then [ch] :: lexList lib n rest
    else lexList lib n rest

/-! ## Assumptions on the library, and well-formed records -/

/-- Facts about the character classes of Qt used by the proofs: on ASCII the classes
are the usual ones, letters and digits are letters-or-numbers, and the classes
space, letter and digit are disjoint. -/
structure QtLib.Sound {F : Type} (lib : QtLib F) : Prop where
  ascii : ∀ c : Char, c.toNat < 128 →
    lib.isSpace c = (c == ' ' || (decide (9 ≤ c.toNat) && decide (c.toNat ≤ 13)))
      ∧ lib.isLetter c = c.isAlpha ∧ lib.isDigit c = c.isDigit
      ∧ lib.isLetterOrNumber c = c.isAlphanum
  letter : ∀ c : Char, lib.isLetter c = true →
    lib.isSpace c = false ∧ lib.isLetterOrNumber c = true
  digit : ∀ c : Char, lib.isDigit c = true →
    lib.isSpace c = false ∧ lib.isLetter c = false ∧ lib.isLetterOrNumber c = true

/-- An identifier lexeme: a letter followed by letters and digits. -/
def isIdentifier {F : Type} (lib : QtLib F) : QString → Bool
  | [] => false
  | c :: cs => lib.isLetter c && cs.all (fun x => lib.isLetter x || lib.isDigit x)

/-- The number of dots the number loop may still accept. -/
def dotBudget (hasDot : Bool) : Nat := if hasDot then 0 else 1

/-- The characters after the first one of a numeral: digits and dots, with no more
dots than the budget allows. -/
def isNumeralTail {F : Type} (lib : QtLib F) (hasDot : Bool) (cs : List Char) : Bool :=
  cs.all (fun x => lib.isDigit x || isDot x) && decide (cs.countP isDot ≤ dotBudget hasDot)

/-- A plain decimal numeral: an optional leading `-`, digits, and at most one `.` in
the whole lexeme. -/
def isNumeral {F : Type} (lib : QtLib F) : QString → Bool
  | [] => false
  | c :: cs => (lib.isDigit c || isDot c || c == '-') && isNumeralTail lib (isDot c) cs

/-- The text ` N1: v1, ... Nk: vk,` of the groups of a record. -/
def groupsText : List (QString × QString) → QString
  | [] => []
  | g :: gs => ' ' :: g.1 ++ ':' :: ' ' :: g.2 ++ ',' :: groupsText gs

/-- The record body `T: t, N1: v1, ..., Nk: vk,`. -/
def recordBody (T t : QString) (groups : List (QString × QString)) : QString :=
  T ++ ':' :: ' ' :: t ++ ',' :: groupsText groups

/-- The tokens of the groups of a record. -/
def groupsTokens : List (QString × QString) → List QString
  | [] => []
  | g :: gs => g.1 :: [':'] :: g.2 :: [','] :: groupsTokens gs

/-! ## The tick, stated on the batch of complete lines -/

/-- The newline-terminated lines of a text, each with its newline; `cur` holds the
characters of the line being read. A final segment without newline is left out. -/
def splitLines (cur : List Char) : List Char → List (List Char)
  | [] => []
  | c :: cs => if c = '\n' then (cur ++ [c]) :: splitLines [] cs else splitLines (cur ++ [c]) cs

/-- The complete lines of a text. -/
def completeLines (text : List Char) : List (List Char) := splitLines [] text

/-- One iteration of the read loop on a complete line: the positions advance past the
line, then the line is processed. -/
def lineStep {F : Type} (lib : QtLib F) (line : List Char) (acc : DsoInput F × Int) :
    Option (DsoInput F × Int) :=
  processLine lib line
    ({ acc.1 with
        filePos := acc.1.filePos + line.length,
        cacheFilePosition := toInt32 ((acc.1.filePos + line.length : Nat) : Int) }, acc.2)

/-- The read loop on a batch of complete lines. -/
def processLines {F : Type} (lib : QtLib F) :
    List (List Char) → DsoInput F × Int → Option (DsoInput F × Int)
  | [], acc => some acc
  | line :: rest, acc =>
    match lineStep lib line acc with
    | none => none
    | some acc2 => processLines lib rest acc2

/-- The batch of a tick: the complete lines of the file from the position reached by
`seek`. -/
def tickLines {F : Type} (st : DsoInput F) (file : Option (List Char)) : List (List Char) :=
  completeLines
    ((visibleContent (seekFile (openFile st file)) file).drop
      (seekFile (openFile st file)).filePos)

/-- The pairs a line contributes: those of its record when it carries the marker. -/
def linePairs {F : Type} (lib : QtLib F) (line : List Char) : List (QString × F) :=
  if (isScopeData lib (lib.fromUtf8 line)).2 then
    (parsedRecord lib
      (lexList lib (isScopeData lib (lib.fromUtf8 line)).1.length
        (isScopeData lib (lib.fromUtf8 line)).1)).datas
  else []

/-- The values of one channel among a list of pairs, in order. -/
def valuesOf {F : Type} (name : QString) (pairs : List (QString × F)) : List F :=
  (pairs.filter (fun pr => pr.1 == name)).map Prod.snd

/-- The sample buffer registered under a name, if any. -/
def DsoInput.buffer {F : Type} (st : DsoInput F) (name : QString) : Option (List F) :=
  match st.sampleDatas.value name with
  | none => none
  | some p => (st.heap[p]?).map (fun sd => sd.data)

/-- A buffer after more values have arrived: created on the first value. -/
def extendBuffer {F : Type} (b : Option (List F)) (vs : List F) : Option (List F) :=
  match vs with
  | [] => b
  | _ :: _ => some (b.getD [] ++ vs)

/-- The padding of `addEmptyData(num)` applied to a sample sequence. -/
def padded {F : Type} (lib : QtLib F) (num : Int) (data : List F) : List F :=
  data ++ List.replicate (num - 1 - data.length).toNat ((data.getLast?).getD (lib.ofNat 0))

/-- The registry is well formed: keys ascending, pointers inside the heap, no two keys
with the same pointer. -/
def DsoInput.RegWF {F : Type} (st : DsoInput F) : Prop :=
  st.sampleDatas.Ordered ∧ (∀ e ∈ st.sampleDatas.entries, e.2 < st.heap.length)
    ∧ (st.sampleDatas.entries.map Prod.snd).Nodup

/-- The cursor is well formed: the offset is not negative, it is `0` as long as the
file was never opened, and `result.data` has its four slots once it was. -/
def DsoInput.CursorWF {F : Type} (st : DsoInput F) : Prop :=
  0 ≤ st.cacheFilePosition ∧ (st.currFileReadable = false → st.cacheFilePosition = 0)
    ∧ (st.currFileReadable = true → st.resultData.length = 4)

/-- The settings are present and consistent: every configured channel has its
`voltage` entry and its slot in `result.data`. -/
def DsoInput.Configured {F : Type} (st : DsoInput F) : Prop :=
  ∃ s, st.dsoSettings = some s ∧ s.maxChannels ≤ s.voltage.length ∧ s.maxChannels ≤ 4

/-- The members the registry operations leave alone. -/
def DsoInput.SameFrame {F : Type} (a b : DsoInput F) : Prop :=
  a.currFileReadable = b.currFileReadable ∧ a.filePos = b.filePos
    ∧ a.cacheFilePosition = b.cacheFilePosition ∧ a.bQuit = b.bQuit
    ∧ a.capturing = b.capturing ∧ a.acquireInterval = b.acquireInterval
    ∧ a.resultData = b.resultData
    ∧ a.dsoSettings.map (fun s => (s.maxChannels, s.voltage))
        = b.dsoSettings.map (fun s => (s.maxChannels, s.voltage))

/-- The number of samples registered under a name (`0` for an unknown name). -/
def DsoInput.len {F : Type} (st : DsoInput F) (name : QString) : Nat :=
  ((st.buffer name).getD []).length

/-- No buffer reaches `2 ^ 31` samples when the pairs are applied. -/
def SizeBound {F : Type} (st : DsoInput F) (pairs : List (QString × F)) : Prop :=
  ∀ k, st.len k + (valuesOf k pairs).length < 2 ^ 31

/-- The effect of applying a list of pairs, from state `st` and maximum `m` to state
`st2` and maximum `m2`: every buffer is extended by its values, `m2` is an `int` not
below `m`, and, when no buffer reaches `2 ^ 31` samples, `m2` is the larger of `m` and
the largest length of a channel that received a value. -/
def PairsPost {F : Type} (st : DsoInput F) (m : Int) (pairs : List (QString × F))
    (st2 : DsoInput F) (m2 : Int) : Prop :=
  st2.RegWF
    ∧ (∀ k, st2.buffer k = extendBuffer (st.buffer k) (valuesOf k pairs))
    ∧ m ≤ m2
    ∧ (m < 2 ^ 31 → m2 < 2 ^ 31)
    ∧ (SizeBound st pairs →
        (∀ k ∈ pairs.map Prod.fst, (st2.len k : Int) ≤ m2)
          ∧ (m2 = m ∨ ∃ k ∈ pairs.map Prod.fst, (st2.len k : Int) = m2))

/-- The members that only `openFile` and the snapshot change. -/
def DsoInput.SameConfig {F : Type} (a b : DsoInput F) : Prop :=
  a.currFileReadable = b.currFileReadable ∧ a.bQuit = b.bQuit
    ∧ a.capturing = b.capturing ∧ a.acquireInterval = b.acquireInterval
    ∧ a.resultData = b.resultData
    ∧ a.dsoSettings.map (fun s => (s.maxChannels, s.voltage))
        = b.dsoSettings.map (fun s => (s.maxChannels, s.voltage))

/-- The selected channel names of the slots that are in use. -/
def slotNames (vs : List DsoSettingsScopeVoltage) : List QString :=
  (vs.filter (fun v => v.used && !v.selectedChannelName.isEmpty)).map
    (fun v => v.selectedChannelName)

/-- The effect of the snapshot loop over the slots `vs`, from `st` to `st2`: buffers
that exist are kept, new ones are empty, every selected name is registered, and
nothing but `result.data`, the registry and the published names changes. -/
def SnapshotPost {F : Type} (st : DsoInput F) (vs : List DsoSettingsScopeVoltage)
    (st2 : DsoInput F) : Prop :=
  st2.RegWF
    ∧ (∀ k b, st.buffer k = some b → st2.buffer k = some b)
    ∧ (∀ k, st.buffer k = none → st2.buffer k = none ∨ st2.buffer k = some [])
    ∧ (∀ k ∈ slotNames vs, ∃ b, st2.buffer k = some b)
    ∧ ((∀ k ∈ slotNames vs, ∃ b, st.buffer k = some b) →
        st2.sampleDatas = st.sampleDatas ∧ st2.heap = st.heap)
    ∧ st2.currFileReadable = st.currFileReadable ∧ st2.filePos = st.filePos
    ∧ st2.cacheFilePosition = st.cacheFilePosition ∧ st2.bQuit = st.bQuit
    ∧ st2.capturing = st.capturing ∧ st2.acquireInterval = st.acquireInterval
    ∧ st2.resultData.length = st.resultData.length
    ∧ st2.dsoSettings.map (fun s => (s.maxChannels, s.voltage))
        = st.dsoSettings.map (fun s => (s.maxChannels, s.voltage))

/-- The state with the device position replaced. -/
def DsoInput.setPos {F : Type} (st : DsoInput F) (pos : Nat) : DsoInput F :=
  { st with filePos := pos }

/-- A tick whose read loop is replaced by the processing of a given batch of lines:
each line of the batch is parsed and applied once, in order, then the tick ends as
usual. -/
def tickOnBatch {F : Type} (lib : QtLib F) (st : DsoInput F) (file : Option (List Char))
    (batch : List (List Char)) : Option (DsoInput F) :=
  if !st.capturing then some st
  else
    match processLines lib batch (seekFile (openFile st file), 0) with
    | none => none
    | some acc =>
      finishTick lib
        (acc.1.setPos (max (seekFile (openFile st file)).filePos
          (visibleContent (seekFile (openFile st file)) file).length), acc.2)

/-- Successive ticks, one for each content of the growing file. -/
def runTicks {F : Type} (lib : QtLib F) : DsoInput F → List (List Char) → Option (DsoInput F)
  | st, [] => some st
  | st, c :: cs =>
    match st.restartSampling lib (some c) with
    | none => none
    | some st1 => runTicks lib st1 cs

/-- The same ticks, each one processing its batch `tickLines`. -/
def runBatches {F : Type} (lib : QtLib F) :
    DsoInput F → List (List Char) → Option (DsoInput F)
  | st, [] => some st
  | st, c :: cs =>
    match tickOnBatch lib st (some c) (tickLines st (some c)) with
    | none => none
    | some st1 => runBatches lib st1 cs

/-- The batches of successive ticks. -/
def tickBatches {F : Type} (lib : QtLib F) :
    DsoInput F → List (List Char) → List (List (List Char))
  | _, [] => []
  | st, c :: cs =>
    tickLines st (some c) ::
      (match st.restartSampling lib (some c) with
        | none => []
        | some st1 => tickBatches lib st1 cs)

/-- Each content of the list extends the one before it by appended bytes. -/
def Growing : List Char → List (List Char) → Prop
  | _, [] => True
  | c, c2 :: cs => (∃ g, c2 = c ++ g) ∧ Growing c2 cs

/-- The effect of the end of a tick with padding target `m`, from `st` to `st5` (before
the signal is recorded): registered buffers are padded, the selected names are
registered, new buffers are empty, and the cursor is kept. -/
def FinishPost {F : Type} (lib : QtLib F) (s : DsoSettingsScope) (st : DsoInput F) (m : Int)
    (st5 : DsoInput F) : Prop :=
  st5.RegWF
    ∧ (∀ k b, st.buffer k = some b → st5.buffer k = some (padded lib m b))
    ∧ (∀ k, st.buffer k = none → st5.buffer k = none ∨ st5.buffer k = some [])
    ∧ (∀ k ∈ slotNames (s.voltage.take s.maxChannels), ∃ b, st5.buffer k = some b)
    ∧ (m = 0 → (∀ k ∈ slotNames (s.voltage.take s.maxChannels), ∃ b, st.buffer k = some b) →
        st5.sampleDatas = st.sampleDatas ∧ st5.heap = st.heap)
    ∧ st5.currFileReadable = st.currFileReadable ∧ st5.filePos = st.filePos
    ∧ st5.cacheFilePosition = st.cacheFilePosition ∧ st5.capturing = st.capturing
    ∧ st5.resultData.length = st.resultData.length
    ∧ st5.dsoSettings.map (fun s => (s.maxChannels, s.voltage))
        = some (s.maxChannels, s.voltage)

/-- Settings whose first slot selects a channel `X` that no log line mentions. -/
def snapshotSettings : DsoSettingsScope :=
  { maxChannels := 2,
    voltage := [⟨true, "X".toList⟩, ⟨false, []⟩],
    AvaliableChannelNames := [] }

/-- A log of two complete records on the channels `A` and `B`. -/
def exampleLog : List Char :=
  "ScopeData: Time: 0.0, A: 1.0,\nScopeData: Time: 1.0, B: 2.0,\n".toList

/-- A log of two complete records on the channel `A`. -/
def exampleLogA : List Char :=
  "ScopeData: Time: 0.0, A: 1.0,\nScopeData: Time: 1.0, A: 2.0,\n".toList

/-- The last content of a growing file: `c` followed by the contents `cs`. -/
def lastContent : List Char → List (List Char) → List Char
  | c, [] => c
  | _, c2 :: cs => lastContent c2 cs

/-- The first record line of `exampleLog`. -/
def exampleLine1 : List Char := "ScopeData: Time: 0.0, A: 1.0,\n".toList

/-- The second record line of `exampleLog`. -/
def exampleLine2 : List Char := "ScopeData: Time: 1.0, B: 2.0,\n".toList

/-- The beginning of a record line, without newline. -/
def examplePartial : List Char := "ScopeData: Tim".toList

/-- The heap only grows from `h1` to `h2`: every object keeps its address and its
samples are a leading part of the new ones. -/
def HeapGrows {F : Type} (h1 h2 : List (SampleData F)) : Prop :=
  ∀ (p : Nat) (sd : SampleData F), h1[p]? = some sd →
    ∃ (sd2 : SampleData F) (t : List F), h2[p]? = some sd2 ∧ sd2.data = sd.data ++ t

/-- The registry only grows from `a` to `b`: every registered name keeps its pointer,
and the samples of its object in `a` are a leading part of its samples in `b`. -/
def DsoInput.Grows {F : Type} (a b : DsoInput F) : Prop :=
  ∀ (k : QString) (p : Nat), a.sampleDatas.value k = some p →
    b.sampleDatas.value k = some p
      ∧ ∀ sd : SampleData F, a.heap[p]? = some sd →
          ∃ (sd2 : SampleData F) (t : List F), b.heap[p]? = some sd2 ∧ sd2.data = sd.data ++ t

/-- A log of three complete records on the channel `A`. -/
def alignmentLog1 : List Char :=
  ("ScopeData: Time: 0.0, A: 1.0,\nScopeData: Time: 1.0, A: 2.0,\n"
    ++ "ScopeData: Time: 2.0, A: 3.0,\n").toList

/-- The log `alignmentLog1` grown by one record on the channel `B`. -/
def alignmentLog2 : List Char := alignmentLog1 ++ "ScopeData: Time: 3.0, B: 9.0,\n".toList

/-- The lexemes joined by single spaces. -/
def joinSpaces : List QString → QString
  | [] => []
  | [w] => w
  | w :: w2 :: ws => w ++ ' ' :: joinSpaces (w2 :: ws)

/-- The first character of the text, if any, is a digit or a dot: it would be consumed
by the number loop after a `-`. -/
def continuesNumber {F : Type} (lib : QtLib F) : List Char → Bool
  | [] => false
  | x :: _ => lib.isDigit x || isDot x

/-- The character U+00BD, VULGAR FRACTION ONE HALF, of Unicode category `Number_Other`. -/
def oneHalf : Char := Char.ofNat 189

/-- The reference library with `QChar::isLetterOrNumber` extended to `oneHalf`, as in
Qt: `isLetterOrNumber` holds for the categories `Letter_*` and `Number_*`, `isLetter`
for `Letter_*` only and `isDigit` for `Number_DecimalDigit` only. -/
def fractionLib : QtLib Fx :=
  { refLib with isLetterOrNumber := fun c => c.isAlphanum || c == oneHalf }

/-- A token of the identifier branch: a letter followed by letters-or-numbers. -/
def isWordToken {F : Type} (lib : QtLib F) : QString → Bool
  | [] => false
  | c :: cs => lib.isLetter c && cs.all lib.isLetterOrNumber

/-- A separator token: the single character `:` or `,`. -/
def isSepToken (t : QString) : Bool := t == [':'] || t == [',']

/-- A character that the tokenizer drops when it meets it between two tokens:
whitespace, or a character that starts no token. -/
def isSkipped {F : Type} (lib : QtLib F) (c : Char) : Bool :=
  lib.isSpace c || !(lib.isLetter c || lib.isDigit c || isDot c || c == '-' || isSep c)

/-- The token `t`, followed by `rest` in the input, belongs to the class and is maximal
there: with the next character of the input appended it is not in the class. -/
def maximalIn (cls : QString → Bool) (t rest : List Char) : Bool :=
  cls t && match rest with
    | [] => true
    | x :: _ => !cls (t ++ [x])

/-- The text `s` is cut into the tokens `toks`: before each token come dropped
characters only, each token is maximal in one of the three classes, and only dropped
characters follow the last token. -/
def Segmented {F : Type} (lib : QtLib F) : List Char → List QString → Prop
  | s, [] => ∀ c ∈ s, isSkipped lib c = true
  | s, t :: ts =>
    ∃ gap rest, s = gap ++ t ++ rest ∧ (∀ c ∈ gap, isSkipped lib c = true)
      ∧ (maximalIn (isWordToken lib) t rest = true ∨ maximalIn (isNumeral lib) t rest = true
          ∨ maximalIn isSepToken t rest = true)
      ∧ Segmented lib rest ts

/-- The operations of the driver on the tailer: a tick with the log file as it is at
that time (`none` when it cannot be opened), and the stop request. -/
inductive TailerOp where
  | tick (file : Option (List Char))
  | quit
deriving DecidableEq

/-- A sequence of operations, in order. -/
def runOps {F : Type} (lib : QtLib F) : DsoInput F → List TailerOp → Option (DsoInput F)
  | st, [] => some st
  | st, TailerOp.tick file :: ops =>
    match st.restartSampling lib file with
    | none => none
    | some st1 => runOps lib st1 ops
  | st, TailerOp.quit :: ops => runOps lib st.quitSampling ops

/-- One iteration of the outer loop of `LexicalParser` (dsoinput.cpp 42-81) at
`startPos < maxLen`: the next value of `startPos` and the tokens. -/
def lexStep {F : Type} (lib : QtLib F) (s : QString) (maxLen startPos : Nat)
    (tokens : List QString) : Option (Nat × List QString) :=
  match s[startPos]? with
  | none => none
  | some ch =>
    if lib.isSpace ch then some (startPos + 1, tokens)
    else if lib.isLetter ch then
      match scanLetterOrNumber lib s maxLen (maxLen + 1) (startPos + 1) with
      | none => none
      | some scanPos =>
        match midChecked s startPos (scanPos - startPos) with
        | none => none
        | some tok => some (scanPos - 1 + 1, tokens ++ [tok])
    else if lib.isDigit ch || isDot ch || ch == '-' then
      match scanNumber lib s maxLen (maxLen + 1) (isDot ch) (startPos + 1) with
      | none => none
      | some scanPos =>
        match midChecked s startPos (scanPos - startPos) with
        | none => none
        | some tok => some (scanPos - 1 + 1, tokens ++ [tok])
    else if isSep ch then some (startPos + 1, tokens ++ [[ch]])
    else some (startPos + 1, tokens)

/-- A character of one of the classes that tokens are made of: a letter, a digit, or
one of `.`, `-`, `:` and `,`. -/
def isTokenChar {F : Type} (lib : QtLib F) (c : Char) : Bool :=
  lib.isLetter c || lib.isDigit c || isDot c || c == '-' || isSep c

/-- The handler of the check box `usedCheckBox` of a channel (VoltageDock.cpp 130-131),
which writes `scope->voltage[channel].used` of the settings the tailer reads. -/
def DsoInput.usedToggled {F : Type} (st : DsoInput F) (channel : Nat) (checked : Bool) :
    DsoInput F :=
  match st.dsoSettings with
  | none => st
  | some s =>
    match s.voltage[channel]? with
    | none => st
    | some v =>
      { st with dsoSettings := some { s with voltage := s.voltage.set channel ⟨checked, v.selectedChannelName⟩ } }

/-- The lines processed by a sequence of operations: the batch of every tick that runs
with capture enabled. -/
def opsLines {F : Type} (lib : QtLib F) : DsoInput F → List TailerOp → List (List Char)
  | _, [] => []
  | st, TailerOp.tick file :: ops =>
    (if st.capturing then tickLines st file else []) ++
      (match st.restartSampling lib file with
        | none => []
        | some st1 => opsLines lib st1 ops)
  | st, TailerOp.quit :: ops => opsLines lib st.quitSampling ops

/-- The size of the file an operation reads. -/
def TailerOp.fileLength : TailerOp → Nat
  | TailerOp.tick file => (file.getD []).length
  | TailerOp.quit => 0

/-! ## Theorems -/

theorem addEmptyDataLoop_eq {F : Type} (v : F) (target : Nat) :
    ∀ (fuel : Nat) (data : List F), target ≤ fuel + (data.length + 1) →
      addEmptyDataLoop v target fuel data
        = some (data ++ List.replicate (target - 1 - data.length) v) := by
  intro fuel
  induction fuel with
  | zero =>
    intro data h
    have h0 : target - 1 - data.length = 0 := by omega
    have h1 : ¬ (data.length + 1 < target) := by omega
    simp [addEmptyDataLoop, h0, h1]
  | succ n ih =>
    intro data h
    by_cases hc : data.length + 1 < target
    · have hstep : target - 1 - data.length = (target - 1 - (data.length + 1)) + 1 := by omega
      rw [addEmptyDataLoop, if_pos hc, ih (data ++ [v]) (by simp; omega)]
      simp only [List.length_append, List.length_singleton]
      rw [hstep, List.replicate_succ]
      simp
    · have h0 : target - 1 - data.length = 0 := by omega
      simp [addEmptyDataLoop, h0, hc]

theorem sizeCast_of_nonneg (num : Int) (h0 : 0 ≤ num) (h1 : num < 2 ^ 31) :
    sizeCast num = num.toNat := by
  unfold sizeCast
  rw [Int.emod_eq_of_lt h0 (by omega)]

theorem addData_eq {F : Type} (lib : QtLib F) (sd : SampleData F) (time value fr : F) :
    sd.addData lib time value fr
      = { name := sd.name, data := sd.data ++ [value], timeStamp := time } := by
  unfold SampleData.addData
  simp only []
  split_ifs <;> rfl

/-- C9. `SampleData::addData` keeps the stored samples as a prefix, appends exactly the
one new value and sets `timeStamp` to `time`; the result is the same whatever the
library computes for the elapsed time and the step count, and whatever frame rate is
passed. -/
theorem addData_appends_one {F : Type} (lib lib2 : QtLib F) (sd : SampleData F)
    (time value frameRate frameRate2 : F) :
    sd.addData lib time value frameRate
        = { name := sd.name, data := sd.data ++ [value], timeStamp := time }
      ∧ sd.addData lib2 time value frameRate2 = sd.addData lib time value frameRate := by
  refine ⟨addData_eq lib sd time value frameRate, ?_⟩
  rw [addData_eq lib2 sd time value frameRate2, addData_eq lib sd time value frameRate]

theorem addEmptyData_eq {F : Type} (lib : QtLib F) (sd : SampleData F) (num : Int)
    (h0 : 0 ≤ num) (h1 : num < 2 ^ 31) :
    sd.addEmptyData lib num
      = some { name := sd.name, data := padded lib num sd.data, timeStamp := sd.timeStamp } := by
  have hc := sizeCast_of_nonneg num h0 h1
  have hk : (num - 1 - (sd.data.length : Int)).toNat = num.toNat - 1 - sd.data.length := by
    omega
  have hv : (match sd.data.getLast? with
      | none => lib.ofNat 0
      | some v => v) = (sd.data.getLast?).getD (lib.ofNat 0) := by
    cases sd.data.getLast? <;> rfl
  unfold SampleData.addEmptyData padded
  simp only [hv, hc]
  rw [addEmptyDataLoop_eq _ _ _ _ (by omega), hk]

/-- C10. For a target `0 ≤ num` (an `int`), `SampleData::addEmptyData` returns, and the
buffer becomes the old samples followed by `max(0, num - 1 - n)` copies of the last
sample before the call (`0` for an empty buffer); its length is `max(n, num - 1)`. -/
theorem addEmptyData_pads {F : Type} (lib : QtLib F) (sd : SampleData F) (num : Int)
    (h0 : 0 ≤ num) (h1 : num < 2 ^ 31) :
    ∃ sd2 : SampleData F, sd.addEmptyData lib num = some sd2
      ∧ sd2.data = sd.data ++ List.replicate (num - 1 - sd.data.length).toNat
          ((sd.data.getLast?).getD (lib.ofNat 0))
      ∧ (sd2.data.length : Int) = max (sd.data.length : Int) (num - 1)
      ∧ sd2.name = sd.name ∧ sd2.timeStamp = sd.timeStamp := by
  refine ⟨_, addEmptyData_eq lib sd num h0 h1, rfl, ?_, rfl, rfl⟩
  simp only [padded, List.length_append, List.length_replicate]
  omega

/-! ### The key order and the map -/

theorem char_toNat_inj {a b : Char} (h : a.toNat = b.toNat) : a = b := by
  rw [← Char.ofNat_toNat a, ← Char.ofNat_toNat b, h]

theorem qstringLess_irrefl : ∀ a : QString, qstringLess a a = false
  | [] => rfl
  | c :: cs => by simp [qstringLess, qstringLess_irrefl cs]

theorem qstringLess_trichotomy : ∀ a b : QString,
    qstringLess a b = false → qstringLess b a = false → a = b
  | [], [], _, _ => rfl
  | [], _ :: _, h, _ => by simp [qstringLess] at h
  | _ :: _, [], _, h => by simp [qstringLess] at h
  | a :: as, b :: bs, h1, h2 => by
    unfold qstringLess at h1 h2
    by_cases hab : a.toNat < b.toNat
    · simp [hab] at h1
    · by_cases hba : b.toNat < a.toNat
      · simp [hba] at h2
      · simp only [hab, hba, if_false] at h1 h2
        have hc : a = b := char_toNat_inj (by omega)
        rw [hc, qstringLess_trichotomy as bs h1 h2]

theorem qstringLess_trans : ∀ a b c : QString,
    qstringLess a b = true → qstringLess b c = true → qstringLess a c = true
  | [], [], _, h, _ => by simp [qstringLess] at h
  | [], _ :: _, [], _, h => by simp [qstringLess] at h
  | [], _ :: _, _ :: _, _, _ => by simp [qstringLess]
  | _ :: _, [], _, h, _ => by simp [qstringLess] at h
  | _ :: _, _ :: _, [], _, h => by simp [qstringLess] at h
  | a :: as, b :: bs, c :: cs, h1, h2 => by
    unfold qstringLess at h1 h2 ⊢
    by_cases hab : a.toNat < b.toNat
    · by_cases hbc : b.toNat < c.toNat
      · have : a.toNat < c.toNat := by omega
        simp [this]
      · by_cases hcb : c.toNat < b.toNat
        · simp [hbc, hcb] at h2
        · have : a.toNat < c.toNat := by omega
          simp [this]
    · by_cases hba : b.toNat < a.toNat
      · simp [hab, hba] at h1
      · simp only [hab, hba, if_false] at h1
        by_cases hbc : b.toNat < c.toNat
        · have : a.toNat < c.toNat := by omega
          simp [this]
        · by_cases hcb : c.toNat < b.toNat
          · simp [hbc, hcb] at h2
          · simp only [hbc, hcb, if_false] at h2
            have h3 : ¬ a.toNat < c.toNat := by omega
            have h4 : ¬ c.toNat < a.toNat := by omega
            simp only [h3, h4, if_false]
            exact qstringLess_trans as bs cs h1 h2

theorem qstringLess_ne {a b : QString} (h : qstringLess a b = true) : a ≠ b := by
  intro hab
  rw [hab, qstringLess_irrefl] at h
  exact Bool.false_ne_true h

theorem contains_eq_true_iff {V : Type} (m : QMap V) (key : QString) :
    m.contains key = true ↔ key ∈ m.keys := by
  unfold QMap.contains QMap.keys
  simp only [List.any_eq_true, List.mem_map, beq_iff_eq]

theorem contains_eq_false_iff {V : Type} (m : QMap V) (key : QString) :
    m.contains key = false ↔ key ∉ m.keys := by
  rw [← contains_eq_true_iff]
  cases m.contains key <;> simp

theorem value_isSome_of_contains {V : Type} (m : QMap V) (key : QString)
    (h : m.contains key = true) : ∃ p, m.value key = some p := by
  obtain ⟨entries⟩ := m
  unfold QMap.contains at h
  unfold QMap.value
  simp only at h ⊢
  induction entries with
  | nil => simp at h
  | cons e rest ih =>
    by_cases he : e.1 = key
    · refine ⟨e.2, ?_⟩
      rw [List.find?_cons_of_pos _ (by simpa using he)]
      rfl
    · have hr : rest.any (fun e => e.1 == key) = true := by
        rw [List.any_cons] at h
        have hb : (e.1 == key) = false := by simpa using he
        rw [hb, Bool.false_or] at h
        exact h
      obtain ⟨p, hp⟩ := ih hr
      refine ⟨p, ?_⟩
      rw [List.find?_cons_of_neg _ (by simpa using he)]
      exact hp

/-- Shape of the entry list after inserting a key that is not present. -/
theorem insertEntry_split {V : Type} (key : QString) (v : V) (entries : List (QString × V)) :
    key ∉ entries.map Prod.fst →
      ∃ l1 l2, entries = l1 ++ l2 ∧ insertEntry key v entries = l1 ++ (key, v) :: l2
        ∧ (∀ e ∈ l1, qstringLess e.1 key = true)
        ∧ (∀ e, l2.head? = some e → qstringLess key e.1 = true) := by
  induction entries with
  | nil =>
    intro _
    exact ⟨[], [], rfl, rfl, by simp, by simp⟩
  | cons e rest ih =>
    intro h
    have hne : key ≠ e.1 := by
      intro hk
      exact h (by simp only [List.map_cons, List.mem_cons]; exact Or.inl hk)
    have hrest : key ∉ rest.map Prod.fst := by
      intro hk
      exact h (by simp only [List.map_cons, List.mem_cons]; exact Or.inr hk)
    by_cases h1 : qstringLess key e.1 = true
    · refine ⟨[], e :: rest, rfl, by simp [insertEntry, h1], by simp, ?_⟩
      intro e2 he2
      simp only [List.head?_cons, Option.some.injEq] at he2
      rw [← he2]
      exact h1
    · have h1f : qstringLess key e.1 = false := by simpa using h1
      have h2 : qstringLess e.1 key = true := by
        by_contra hc
        have h2f : qstringLess e.1 key = false := by simpa using hc
        exact hne (qstringLess_trichotomy key e.1 h1f h2f)
      obtain ⟨l1, l2, hsplit, hins, hl1, hl2⟩ := ih hrest
      refine ⟨e :: l1, l2, by simp [hsplit], by simp [insertEntry, h1f, h2, hins], ?_, hl2⟩
      intro e2 he2
      rcases List.mem_cons.mp he2 with rfl | hm
      · exact h2
      · exact hl1 e2 hm

theorem ordered_split_right {V : Type} (key : QString) (l1 l2 : List (QString × V))
    (hord : ((l1 ++ l2).map Prod.fst).Pairwise (fun a b => qstringLess a b = true))
    (hl2 : ∀ e, l2.head? = some e → qstringLess key e.1 = true) :
    ∀ e ∈ l2, qstringLess key e.1 = true := by
  cases l2 with
  | nil => simp
  | cons e0 rest =>
    intro e he
    have h0 : qstringLess key e0.1 = true := hl2 e0 rfl
    rcases List.mem_cons.mp he with rfl | hm
    · exact h0
    · rw [List.map_append, List.pairwise_append] at hord
      have hp := hord.2.1
      simp only [List.map_cons, List.pairwise_cons] at hp
      exact qstringLess_trans key e0.1 e.1 h0 (hp.1 e.1 (List.mem_map_of_mem Prod.fst hm))

theorem ordered_insert {V : Type} (key : QString) (v : V) (l1 l2 : List (QString × V))
    (hord : ((l1 ++ l2).map Prod.fst).Pairwise (fun a b => qstringLess a b = true))
    (hl1 : ∀ e ∈ l1, qstringLess e.1 key = true)
    (hl2 : ∀ e ∈ l2, qstringLess key e.1 = true) :
    ((l1 ++ (key, v) :: l2).map Prod.fst).Pairwise (fun a b => qstringLess a b = true) := by
  rw [List.map_append, List.pairwise_append] at hord ⊢
  obtain ⟨h1, h2, h3⟩ := hord
  refine ⟨h1, ?_, ?_⟩
  · simp only [List.map_cons, List.pairwise_cons]
    refine ⟨?_, h2⟩
    intro b hb
    obtain ⟨e, he, rfl⟩ := List.mem_map.mp hb
    exact hl2 e he
  · intro a ha b hb
    simp only [List.map_cons, List.mem_cons] at hb
    rcases hb with rfl | hb
    · obtain ⟨e, he, rfl⟩ := List.mem_map.mp ha
      exact hl1 e he
    · exact h3 a ha b hb

theorem ordered_nodup {V : Type} (m : QMap V) (h : m.Ordered) : m.keys.Nodup := by
  unfold QMap.Ordered at h
  exact h.imp (fun hab => qstringLess_ne hab)

theorem find_insert_self {V : Type} (key : QString) (v : V) (l1 l2 : List (QString × V))
    (hl1 : ∀ e ∈ l1, qstringLess e.1 key = true) :
    ((l1 ++ (key, v) :: l2).find? (fun e => e.1 == key)).map Prod.snd = some v := by
  induction l1 with
  | nil =>
    rw [List.nil_append, List.find?_cons_of_pos _ (by simp)]
    rfl
  | cons e rest ih =>
    have hne : e.1 ≠ key := qstringLess_ne (hl1 e (List.mem_cons_self _ _))
    rw [List.cons_append, List.find?_cons_of_neg _ (by simpa using hne)]
    exact ih (fun e2 he2 => hl1 e2 (List.mem_cons_of_mem _ he2))

theorem find_insert_other {V : Type} (key k : QString) (v : V) (hk : k ≠ key)
    (l1 l2 : List (QString × V)) :
    (l1 ++ (key, v) :: l2).find? (fun e => e.1 == k) = (l1 ++ l2).find? (fun e => e.1 == k) := by
  induction l1 with
  | nil =>
    rw [List.nil_append, List.nil_append,
      List.find?_cons_of_neg _ (by simpa using (Ne.symm hk))]
  | cons e rest ih =>
    by_cases he : e.1 = k
    · rw [List.cons_append, List.cons_append, List.find?_cons_of_pos _ (by simpa using he),
        List.find?_cons_of_pos _ (by simpa using he)]
    · rw [List.cons_append, List.cons_append, List.find?_cons_of_neg _ (by simpa using he),
        List.find?_cons_of_neg _ (by simpa using he)]
      exact ih

/-! ### The channel registry -/

theorem getSampleData_of_new {F : Type} (lib : QtLib F) (st : DsoInput F) (name : QString)
    (s : DsoSettingsScope) (hnew : st.sampleDatas.contains name = false)
    (hs : st.dsoSettings = some s) :
    st.GetSampleData lib name = some (st.heap.length,
      { st with
        heap := st.heap ++ [⟨name, [], lib.ofNat 0⟩],
        sampleDatas := st.sampleDatas.insert name st.heap.length,
        dsoSettings := some
          { s with AvaliableChannelNames := (st.sampleDatas.insert name st.heap.length).keys },
        emitted := st.emitted ++
          [Signal.newChannelData (st.sampleDatas.insert name st.heap.length).keys] }) := by
  unfold DsoInput.GetSampleData
  simp only [hnew, hs, SampleData.new]
  rfl

theorem getSampleData_of_old {F : Type} (lib : QtLib F) (st : DsoInput F) (name : QString)
    (h : st.sampleDatas.contains name = true) :
    ∃ p, st.sampleDatas.value name = some p ∧ st.GetSampleData lib name = some (p, st) := by
  obtain ⟨p, hp⟩ := value_isSome_of_contains st.sampleDatas name h
  refine ⟨p, hp, ?_⟩
  unfold DsoInput.GetSampleData
  simp only [h, hp, if_true]

theorem insert_spec {V : Type} (m : QMap V) (key : QString) (v : V)
    (hnew : m.contains key = false) :
    ∃ l1 l2, m.entries = l1 ++ l2 ∧ (m.insert key v).entries = l1 ++ (key, v) :: l2
      ∧ (∀ e ∈ l1, qstringLess e.1 key = true)
      ∧ (∀ e, l2.head? = some e → qstringLess key e.1 = true) := by
  have hk : key ∉ m.entries.map Prod.fst := (contains_eq_false_iff m key).mp hnew
  exact insertEntry_split key v m.entries hk

theorem insert_value_self {V : Type} (m : QMap V) (key : QString) (v : V)
    (hnew : m.contains key = false) : (m.insert key v).value key = some v := by
  obtain ⟨l1, l2, _, h2, h3, _⟩ := insert_spec m key v hnew
  unfold QMap.value
  rw [h2]
  exact find_insert_self key v l1 l2 h3

theorem insert_value_other {V : Type} (m : QMap V) (key k : QString) (v : V)
    (hnew : m.contains key = false) (hk : k ≠ key) :
    (m.insert key v).value k = m.value k := by
  obtain ⟨l1, l2, h1, h2, _, _⟩ := insert_spec m key v hnew
  unfold QMap.value
  rw [h2, h1, find_insert_other key k v hk]

theorem insert_keys {V : Type} (m : QMap V) (key : QString) (v : V)
    (hnew : m.contains key = false) :
    ∃ k1 k2, m.keys = k1 ++ k2 ∧ (m.insert key v).keys = k1 ++ key :: k2
      ∧ (∀ k ∈ k1, qstringLess k key = true)
      ∧ (m.Ordered → (∀ k ∈ k2, qstringLess key k = true) ∧ (m.insert key v).Ordered) := by
  obtain ⟨l1, l2, h1, h2, h3, h4⟩ := insert_spec m key v hnew
  refine ⟨l1.map Prod.fst, l2.map Prod.fst, ?_, ?_, ?_, ?_⟩
  · unfold QMap.keys
    rw [h1, List.map_append]
  · unfold QMap.keys
    rw [h2, List.map_append, List.map_cons]
  · intro k hk
    obtain ⟨e, he, rfl⟩ := List.mem_map.mp hk
    exact h3 e he
  · intro hord
    unfold QMap.Ordered QMap.keys at hord
    rw [h1] at hord
    have hr := ordered_split_right key l1 l2 hord h4
    refine ⟨?_, ?_⟩
    · intro k hk
      obtain ⟨e, he, rfl⟩ := List.mem_map.mp hk
      exact hr e he
    · unfold QMap.Ordered QMap.keys
      rw [h2]
      exact ordered_insert key v l1 l2 hord h3 hr

theorem insert_contains {V : Type} (m : QMap V) (key k : QString) (v : V)
    (hnew : m.contains key = false) :
    (m.insert key v).contains k = true ↔ (k = key ∨ m.contains k = true) := by
  obtain ⟨k1, k2, h1, h2, _, _⟩ := insert_keys m key v hnew
  rw [contains_eq_true_iff, contains_eq_true_iff, h1, h2]
  simp only [List.mem_append, List.mem_cons]
  tauto

/-- C6 (as amended). Resolving a name that is not yet registered publishes the keys of
the map in ascending key order: the previous list with the new name inserted after the
names smaller than it and before the names larger than it. -/
theorem getSampleData_publishes_sorted {F : Type} (lib : QtLib F) (st : DsoInput F)
    (name : QString) (s : DsoSettingsScope) (hord : st.sampleDatas.Ordered)
    (hnew : st.sampleDatas.contains name = false) (hs : st.dsoSettings = some s) :
    ∃ p st2 k1 k2, st.GetSampleData lib name = some (p, st2)
      ∧ st.sampleDatas.keys = k1 ++ k2
      ∧ st2.sampleDatas.keys = k1 ++ name :: k2
      ∧ st2.dsoSettings = some { s with AvaliableChannelNames := k1 ++ name :: k2 }
      ∧ st2.emitted = st.emitted ++ [Signal.newChannelData (k1 ++ name :: k2)]
      ∧ (∀ k ∈ k1, qstringLess k name = true)
      ∧ (∀ k ∈ k2, qstringLess name k = true)
      ∧ st2.sampleDatas.Ordered := by
  obtain ⟨k1, k2, h1, h2, h3, h4⟩ := insert_keys st.sampleDatas name st.heap.length hnew
  obtain ⟨h5, h6⟩ := h4 hord
  refine ⟨_, _, k1, k2, getSampleData_of_new lib st name s hnew hs, h1, h2, ?_, ?_, h3, h5, h6⟩
  · simp only [h2]
  · simp only [h2]

/-- C6, witness of the amended statement: resolving `ABC` in a registry that holds `abc`
publishes `[ABC, abc]`. -/
theorem getSampleData_publishes_sorted_witness :
    ∃ p st2 k1 k2, exampleRegistry.GetSampleData refLib "ABC".toList = some (p, st2)
      ∧ exampleRegistry.sampleDatas.keys = k1 ++ k2
      ∧ st2.sampleDatas.keys = k1 ++ "ABC".toList :: k2
      ∧ st2.dsoSettings = some
          { ({ exampleSettings with AvaliableChannelNames := ["abc".toList] } :
              DsoSettingsScope) with AvaliableChannelNames := k1 ++ "ABC".toList :: k2 }
      ∧ st2.emitted = exampleRegistry.emitted
          ++ [Signal.newChannelData (k1 ++ "ABC".toList :: k2)]
      ∧ (∀ k ∈ k1, qstringLess k "ABC".toList = true)
      ∧ (∀ k ∈ k2, qstringLess "ABC".toList k = true)
      ∧ st2.sampleDatas.Ordered :=
  getSampleData_publishes_sorted refLib exampleRegistry "ABC".toList
    { exampleSettings with AvaliableChannelNames := ["abc".toList] }
    (by unfold QMap.Ordered; decide) (by decide) (by rfl)

/-- C6, counterexample to the claim as stated: from the empty registry, resolving `B`
and then `A` publishes `[A, B]`, not `[B, A]`. -/
theorem discovery_order_counterexample :
    (((DsoInput.init Fx (some exampleSettings)).GetSampleData refLib "B".toList).bind
        (fun r => (r.2.GetSampleData refLib "A".toList).bind
          (fun r2 => r2.2.dsoSettings.map (fun s => s.AvaliableChannelNames))))
      = some ["A".toList, "B".toList]
    ∧ (((DsoInput.init Fx (some exampleSettings)).GetSampleData refLib "B".toList).bind
        (fun r => (r.2.GetSampleData refLib "A".toList).bind
          (fun r2 => r2.2.dsoSettings.map (fun s => s.AvaliableChannelNames))))
      ≠ some ["B".toList, "A".toList] := by
  decide

/-- C7. Resolving a registered name returns the pointer stored under it and leaves the
whole state unchanged (key set, name list, heap of buffers, log of emitted signals);
and for every state and name, a second resolution returns the pointer of the first
and changes nothing. -/
theorem getSampleData_idempotent {F : Type} (lib : QtLib F) (st : DsoInput F)
    (name : QString) (h : st.sampleDatas.contains name = true) :
    (∃ p, st.sampleDatas.value name = some p ∧ st.GetSampleData lib name = some (p, st))
      ∧ ∀ (st0 : DsoInput F) (n : QString), ∃ p st1,
          st0.GetSampleData lib n = some (p, st1) ∧ st1.GetSampleData lib n = some (p, st1) := by
  refine ⟨getSampleData_of_old lib st name h, ?_⟩
  intro st0 n
  by_cases hc : st0.sampleDatas.contains n = true
  · obtain ⟨p, _, hp⟩ := getSampleData_of_old lib st0 n hc
    exact ⟨p, st0, hp, hp⟩
  · have hnew : st0.sampleDatas.contains n = false := by simpa using hc
    have hv := insert_value_self st0.sampleDatas n st0.heap.length hnew
    have hin : (st0.sampleDatas.insert n st0.heap.length).contains n = true :=
      (insert_contains st0.sampleDatas n n st0.heap.length hnew).mpr (Or.inl rfl)
    cases hs : st0.dsoSettings with
    | none =>
      refine ⟨st0.heap.length,
        { st0 with
          heap := st0.heap ++ [⟨n, [], lib.ofNat 0⟩],
          sampleDatas := st0.sampleDatas.insert n st0.heap.length }, ?_, ?_⟩
      · unfold DsoInput.GetSampleData
        simp only [hnew, hs, SampleData.new]
        rfl
      · unfold DsoInput.GetSampleData
        simp only [hin, hv, if_true]
    | some s =>
      refine ⟨st0.heap.length, _, getSampleData_of_new lib st0 n s hnew hs, ?_⟩
      unfold DsoInput.GetSampleData
      simp only [hin, hv, if_true]

/-- C7, witness: resolving `abc` in a registry that holds it. -/
theorem getSampleData_idempotent_witness :
    exampleRegistry.GetSampleData refLib "abc".toList = some (0, exampleRegistry) := by
  obtain ⟨⟨p, hp, hr⟩, _⟩ :=
    getSampleData_idempotent refLib exampleRegistry "abc".toList (by decide)
  have h0 : exampleRegistry.sampleDatas.value "abc".toList = some 0 := by decide
  rw [h0] at hp
  rw [hr, ← Option.some.inj hp]

/-- C8. With settings present, resolving a name that is not registered allocates one
new object with no samples and the name as its `name` member, stores its pointer under
the name, leaves every other key, pointer and object as it was, and emits exactly one
`newChannelData` signal whose list holds every registered name, the new one included,
exactly once (it has no duplicates). Any other name, one differing only in case included, keeps its own
entry or stays unregistered. -/
theorem getSampleData_creates {F : Type} (lib : QtLib F) (st : DsoInput F)
    (name : QString) (s : DsoSettingsScope) (hord : st.sampleDatas.Ordered)
    (hnew : st.sampleDatas.contains name = false) (hs : st.dsoSettings = some s) :
    ∃ st2 names, st.GetSampleData lib name = some (st.heap.length, st2)
      ∧ st2.heap = st.heap ++ [⟨name, [], lib.ofNat 0⟩]
      ∧ st2.sampleDatas.value name = some st.heap.length
      ∧ st2.sampleDatas.entries.length = st.sampleDatas.entries.length + 1
      ∧ (∀ k, k ≠ name → st2.sampleDatas.value k = st.sampleDatas.value k
          ∧ st2.sampleDatas.contains k = st.sampleDatas.contains k)
      ∧ st2.emitted = st.emitted ++ [Signal.newChannelData names]
      ∧ names = st2.sampleDatas.keys
      ∧ (∀ k, k ∈ names ↔ (k = name ∨ st.sampleDatas.contains k = true))
      ∧ names.Nodup := by
  have hget := getSampleData_of_new lib st name s hnew hs
  obtain ⟨k1, k2, h1, h2, _, h4⟩ := insert_keys st.sampleDatas name st.heap.length hnew
  obtain ⟨l1, l2, e1, e2, _, _⟩ := insert_spec st.sampleDatas name st.heap.length hnew
  have hmem : ∀ k, k ∈ (st.sampleDatas.insert name st.heap.length).keys
      ↔ (k = name ∨ st.sampleDatas.contains k = true) := by
    intro k
    rw [← contains_eq_true_iff]
    exact insert_contains st.sampleDatas name k st.heap.length hnew
  refine ⟨_, (st.sampleDatas.insert name st.heap.length).keys, hget, rfl, ?_, ?_, ?_, rfl,
    rfl, hmem, ?_⟩
  · exact insert_value_self st.sampleDatas name st.heap.length hnew
  · show (st.sampleDatas.insert name st.heap.length).entries.length = _
    rw [e2, e1]
    simp only [List.length_append, List.length_cons]
    omega
  · intro k hk
    refine ⟨insert_value_other st.sampleDatas name k st.heap.length hnew hk, ?_⟩
    show (st.sampleDatas.insert name st.heap.length).contains k = st.sampleDatas.contains k
    have hiff := insert_contains st.sampleDatas name k st.heap.length hnew
    cases hc : st.sampleDatas.contains k with
    | true => exact hiff.mpr (Or.inr hc)
    | false =>
      cases hc2 : (st.sampleDatas.insert name st.heap.length).contains k with
      | false => rfl
      | true =>
        rcases hiff.mp hc2 with hk2 | hk2
        · exact absurd hk2 hk
        · rw [hc] at hk2
          exact absurd hk2 (by decide)
  · exact ordered_nodup _ (h4 hord).2

/-- C8, witness: `ABC` is created next to `abc`, which keeps its entry. -/
theorem getSampleData_creates_witness :
    ∃ st2 names, exampleRegistry.GetSampleData refLib "ABC".toList = some (1, st2)
      ∧ st2.heap = exampleRegistry.heap ++ [⟨"ABC".toList, [], ⟨0, 1⟩⟩]
      ∧ st2.sampleDatas.value "ABC".toList = some 1
      ∧ st2.sampleDatas.entries.length = 2
      ∧ (∀ k, k ≠ "ABC".toList
          → st2.sampleDatas.value k = exampleRegistry.sampleDatas.value k
          ∧ st2.sampleDatas.contains k = exampleRegistry.sampleDatas.contains k)
      ∧ st2.emitted = exampleRegistry.emitted ++ [Signal.newChannelData names]
      ∧ names = st2.sampleDatas.keys
      ∧ (∀ k, k ∈ names
          ↔ (k = "ABC".toList ∨ exampleRegistry.sampleDatas.contains k = true))
      ∧ names.Nodup :=
  getSampleData_creates refLib exampleRegistry "ABC".toList
    { exampleSettings with AvaliableChannelNames := ["abc".toList] }
    (by unfold QMap.Ordered; decide) (by decide) (by rfl)

/-! ### The record parser -/

theorem tokenGroups_cons3 (a b c : QString) (rest : List QString) :
    tokenGroups (a :: b :: c :: rest) = (a, c) :: tokenGroups (rest.drop 1) := by
  cases rest with
  | nil => simp [tokenGroups]
  | cons d rest2 => simp [tokenGroups]

theorem tokenGroups_short (l : List QString) (h : l.length < 3) : tokenGroups l = [] := by
  match l, h with
  | [], _ => rfl
  | [_], _ => rfl
  | [_, _], _ => rfl

theorem dataLoop_eq {F : Type} (lib : QtLib F) (tokens : List QString) :
    ∀ (fuel i : Nat) (data : AnalysedChannelData F), tokens.length ≤ i + fuel + 2 →
      dataLoop lib tokens fuel i data
        = some { data with
            datas := data.datas ++ leadingPairs lib (tokenGroups (tokens.drop i)) } := by
  intro fuel
  induction fuel with
  | zero =>
    intro i data h
    have hc : ¬ (i + 2 < tokens.length) := by omega
    have hs : tokenGroups (tokens.drop i) = [] :=
      tokenGroups_short _ (by rw [List.length_drop]; omega)
    simp [dataLoop, hc, hs, leadingPairs]
  | succ n ih =>
    intro i data h
    by_cases hc : i + 2 < tokens.length
    · have hdrop : tokens.drop i
          = tokens[i] :: tokens[i + 1] :: tokens[i + 2] :: tokens.drop (i + 3) := by
        rw [List.drop_eq_getElem_cons (by omega), List.drop_eq_getElem_cons (by omega),
          List.drop_eq_getElem_cons (by omega)]
      have h2 : tokens[i + 2]? = some tokens[i + 2] := List.getElem?_eq_getElem hc
      have h0 : tokens[i]? = some tokens[i] := List.getElem?_eq_getElem (by omega)
      rw [dataLoop, if_pos hc]
      simp only [h2, h0]
      rw [hdrop, tokenGroups_cons3, List.drop_drop]
      by_cases hok : (lib.toFloat tokens[i + 2]).2 = true
      · have hfuel : tokens.length ≤ (i + 4) + n + 2 := by omega
        have h4 : i + 3 + 1 = i + 4 := by omega
        simp only [hok, Bool.not_true, Bool.false_eq_true, if_false]
        rw [ih (i + 4) _ hfuel, h4]
        simp [leadingPairs, List.takeWhile_cons, hok]
      · have hf : (lib.toFloat tokens[i + 2]).2 = false := by simpa using hok
        simp [leadingPairs, List.takeWhile_cons, hf]
    · have hs : tokenGroups (tokens.drop i) = [] :=
        tokenGroups_short _ (by rw [List.length_drop]; omega)
      simp [dataLoop, hc, hs, leadingPairs]

/-- The function `DataParser` returns for every token list, and returns the record `parsedRecord`. -/
theorem dataParser_eq {F : Type} (lib : QtLib F) (tokens : List QString) :
    DataParser lib tokens = some (parsedRecord lib tokens) := by
  unfold DataParser parsedRecord
  by_cases h : tokens.length > 2
  · have h2 : tokens[2]? = some tokens[2] := List.getElem?_eq_getElem h
    simp only [h, if_true, h2]
    by_cases hok : (lib.toFloat tokens[2]).2 = true
    · simp only [hok, Bool.not_true, Bool.false_eq_true, if_false, if_true]
      rw [dataLoop_eq lib tokens _ 4 _ (by omega)]
      simp
    · have hf : (lib.toFloat tokens[2]).2 = false := by simpa using hok
      simp [hf]
  · have h2 : tokens[2]? = none := List.getElem?_eq_none (by omega)
    have hs : tokenGroups (tokens.drop 4) = [] :=
      tokenGroups_short _ (by rw [List.length_drop]; omega)
    simp only [h, if_false, h2]
    rw [dataLoop_eq lib tokens _ 4 _ (by omega), hs]
    simp [leadingPairs]

/-! ### The tokenizer -/

theorem drop_eq_cons_of_lt (s : QString) (i : Nat) (h : i < s.length) :
    s[i]? = some s[i] ∧ s.drop i = s[i] :: s.drop (i + 1) :=
  ⟨List.getElem?_eq_getElem h, List.drop_eq_getElem_cons h⟩

theorem scanLetterOrNumber_eq {F : Type} (lib : QtLib F) (s : QString) :
    ∀ (fuel scanPos : Nat), s.length ≤ scanPos + fuel →
      scanLetterOrNumber lib s s.length fuel scanPos
        = some (scanPos + ((s.drop scanPos).takeWhile lib.isLetterOrNumber).length) := by
  intro fuel
  induction fuel with
  | zero =>
    intro scanPos h
    have hc : ¬ (scanPos < s.length) := by omega
    have hd : s.drop scanPos = [] := List.drop_eq_nil_of_le (by omega)
    simp [scanLetterOrNumber, hc, hd]
  | succ n ih =>
    intro scanPos h
    by_cases hc : scanPos < s.length
    · obtain ⟨h1, h2⟩ := drop_eq_cons_of_lt s scanPos hc
      rw [scanLetterOrNumber, if_pos hc]
      simp only [h1]
      rw [h2]
      by_cases hl : lib.isLetterOrNumber s[scanPos] = true
      · simp only [hl, if_true, List.takeWhile_cons_of_pos, List.length_cons]
        rw [ih (scanPos + 1) (by omega)]
        congr 1
        omega
      · have hf : lib.isLetterOrNumber s[scanPos] = false := by simpa using hl
        simp [hf]
    · have hd : s.drop scanPos = [] := List.drop_eq_nil_of_le (by omega)
      simp [scanLetterOrNumber, hc, hd]

theorem scanNumber_eq {F : Type} (lib : QtLib F) (s : QString) :
    ∀ (fuel : Nat) (hasDot : Bool) (scanPos : Nat), s.length ≤ scanPos + fuel →
      scanNumber lib s s.length fuel hasDot scanPos
        = some (scanPos + (numberRun lib hasDot (s.drop scanPos)).length) := by
  intro fuel
  induction fuel with
  | zero =>
    intro hasDot scanPos h
    have hc : ¬ (scanPos < s.length) := by omega
    have hd : s.drop scanPos = [] := List.drop_eq_nil_of_le (by omega)
    simp [scanNumber, hc, hd, numberRun]
  | succ n ih =>
    intro hasDot scanPos h
    by_cases hc : scanPos < s.length
    · obtain ⟨h1, h2⟩ := drop_eq_cons_of_lt s scanPos hc
      rw [scanNumber, if_pos hc]
      simp only [h1]
      rw [h2, numberRun]
      by_cases hdot : isDot s[scanPos] = true
      · cases hasDot with
        | true => simp [hdot]
        | false =>
          simp only [hdot, if_true, Bool.false_eq_true, if_false, List.length_cons]
          rw [ih true (scanPos + 1) (by omega)]
          congr 1
          omega
      · have hdf : isDot s[scanPos] = false := by simpa using hdot
        by_cases hdig : lib.isDigit s[scanPos] = true
        · simp only [hdf, hdig, Bool.false_eq_true, if_false, Bool.not_true, List.length_cons]
          rw [ih hasDot (scanPos + 1) (by omega)]
          congr 1
          omega
        · have hgf : lib.isDigit s[scanPos] = false := by simpa using hdig
          simp [hdf, hgf]
    · have hd : s.drop scanPos = [] := List.drop_eq_nil_of_le (by omega)
      simp [scanNumber, hc, hd, numberRun]

theorem numberRun_length_le {F : Type} (lib : QtLib F) :
    ∀ (l : List Char) (hasDot : Bool), (numberRun lib hasDot l).length ≤ l.length := by
  intro l
  induction l with
  | nil => intro hasDot; simp [numberRun]
  | cons c cs ih =>
    intro hasDot
    rw [numberRun]
    split_ifs
    · simp
    · simp only [List.length_cons]
      exact Nat.succ_le_succ (ih true)
    · simp
    · simp only [List.length_cons]
      exact Nat.succ_le_succ (ih hasDot)

theorem numberRun_take {F : Type} (lib : QtLib F) :
    ∀ (l : List Char) (hasDot : Bool),
      l.take (numberRun lib hasDot l).length = numberRun lib hasDot l := by
  intro l
  induction l with
  | nil => intro hasDot; simp [numberRun]
  | cons c cs ih =>
    intro hasDot
    rw [numberRun]
    split_ifs
    · simp
    · simp only [List.length_cons, List.take_succ_cons, ih true]
    · simp
    · simp only [List.length_cons, List.take_succ_cons, ih hasDot]

theorem takeWhile_take {α : Type} (p : α → Bool) (l : List α) :
    l.take (l.takeWhile p).length = l.takeWhile p := by
  induction l with
  | nil => simp
  | cons c cs ih =>
    by_cases hp : p c = true
    · simp [List.takeWhile_cons, hp, ih]
    · simp [List.takeWhile_cons, hp]

theorem takeWhile_drop {α : Type} (p : α → Bool) (l : List α) :
    l.drop (l.takeWhile p).length = l.dropWhile p := by
  induction l with
  | nil => simp
  | cons c cs ih =>
    by_cases hp : p c = true
    · simp [List.takeWhile_cons, List.dropWhile_cons, hp, ih]
    · simp [List.takeWhile_cons, List.dropWhile_cons, hp]

theorem takeWhile_length_le {α : Type} (p : α → Bool) (l : List α) :
    (l.takeWhile p).length ≤ l.length := by
  induction l with
  | nil => simp
  | cons c cs ih =>
    by_cases hp : p c = true
    · simp only [List.takeWhile_cons, hp, if_true, List.length_cons]
      omega
    · simp [List.takeWhile_cons, hp]

theorem dropWhile_length_le {α : Type} (p : α → Bool) (l : List α) :
    (l.dropWhile p).length ≤ l.length := by
  rw [← takeWhile_drop, List.length_drop]
  omega

theorem midChecked_eq (s : QString) (startPos k : Nat) (ch : Char) (rest : List Char)
    (hd : s.drop startPos = ch :: rest) (hk : k ≤ rest.length) :
    midChecked s startPos (startPos + 1 + k - startPos) = some (ch :: rest.take k) := by
  have hlen : (s.drop startPos).length = rest.length + 1 := by rw [hd]; simp
  rw [List.length_drop] at hlen
  have h1 : startPos + 1 + k - startPos = k + 1 := by omega
  unfold midChecked
  rw [h1, if_pos (by omega), hd]
  simp

theorem lexLoop_eq {F : Type} (lib : QtLib F) (s : QString) :
    ∀ (fuel startPos : Nat) (tokens : List QString), s.length ≤ startPos + fuel →
      lexLoop lib s s.length fuel startPos tokens
        = some (tokens ++ lexList lib fuel (s.drop startPos)) := by
  intro fuel
  induction fuel with
  | zero =>
    intro startPos tokens h
    have hc : ¬ (startPos < s.length) := by omega
    simp [lexLoop, hc, lexList]
  | succ n ih =>
    intro startPos tokens h
    by_cases hc : startPos < s.length
    · obtain ⟨h1, h2⟩ := drop_eq_cons_of_lt s startPos hc
      have hrest : ∀ k, s.drop (startPos + 1 + k) = (s.drop (startPos + 1)).drop k := by
        intro k
        rw [List.drop_drop]
      rw [lexLoop, if_pos hc]
      simp only [h1]
      rw [h2, lexList]
      by_cases hsp : lib.isSpace s[startPos] = true
      · simp only [hsp, if_true]
        exact ih (startPos + 1) tokens (by omega)
      · have hspf : lib.isSpace s[startPos] = false := by simpa using hsp
        simp only [hspf, Bool.false_eq_true, if_false]
        by_cases hle : lib.isLetter s[startPos] = true
        · simp only [hle, if_true]
          rw [scanLetterOrNumber_eq lib s _ _ (by omega)]
          simp only []
          rw [midChecked_eq s startPos _ s[startPos] (s.drop (startPos + 1)) h2
            (takeWhile_length_le _ _)]
          simp only []
          rw [show startPos + 1
              + ((s.drop (startPos + 1)).takeWhile lib.isLetterOrNumber).length - 1 + 1
            = startPos + 1
              + ((s.drop (startPos + 1)).takeWhile lib.isLetterOrNumber).length by omega]
          rw [ih _ _ (by omega), hrest, takeWhile_take, takeWhile_drop]
          simp
        · have hlef : lib.isLetter s[startPos] = false := by simpa using hle
          simp only [hlef, Bool.false_eq_true, if_false]
          by_cases hnum : (lib.isDigit s[startPos] || isDot s[startPos]
              || s[startPos] == '-') = true
          · simp only [hnum, if_true]
            rw [scanNumber_eq lib s _ _ _ (by omega)]
            simp only []
            rw [midChecked_eq s startPos _ s[startPos] (s.drop (startPos + 1)) h2
              (numberRun_length_le lib _ _)]
            simp only []
            rw [show startPos + 1
                + (numberRun lib (isDot s[startPos]) (s.drop (startPos + 1))).length - 1 + 1
              = startPos + 1
                + (numberRun lib (isDot s[startPos]) (s.drop (startPos + 1))).length by omega]
            rw [ih _ _ (by omega), hrest, numberRun_take]
            simp
          · have hnumf : (lib.isDigit s[startPos] || isDot s[startPos]
                || s[startPos] == '-') = false := by simpa using hnum
            simp only [hnumf, Bool.false_eq_true, if_false]
            by_cases hsep : isSep s[startPos] = true
            · simp only [hsep, if_true]
              rw [ih (startPos + 1) _ (by omega)]
              simp
            · have hsepf : isSep s[startPos] = false := by simpa using hsep
              simp only [hsepf, Bool.false_eq_true, if_false]
              exact ih (startPos + 1) tokens (by omega)
    · have hd : s.drop startPos = [] := List.drop_eq_nil_of_le (by omega)
      simp [lexLoop, hc, hd, lexList]

theorem lexList_fuel {F : Type} (lib : QtLib F) :
    ∀ (fuel1 fuel2 : Nat) (l : List Char), l.length ≤ fuel1 → l.length ≤ fuel2 →
      lexList lib fuel1 l = lexList lib fuel2 l := by
  intro fuel1
  induction fuel1 with
  | zero =>
    intro fuel2 l h1 _
    have hl : l = [] := List.length_eq_zero.mp (by omega)
    subst hl
    cases fuel2 <;> rfl
  | succ n ih =>
    intro fuel2 l h1 h2
    cases fuel2 with
    | zero =>
      have hl : l = [] := List.length_eq_zero.mp (by omega)
      subst hl
      rfl
    | succ m =>
      cases l with
      | nil => rfl
      | cons ch rest =>
        simp only [List.length_cons] at h1 h2
        have hdw := dropWhile_length_le lib.isLetterOrNumber rest
        have hdr : (rest.drop (numberRun lib (isDot ch) rest).length).length ≤ rest.length := by
          rw [List.length_drop]
          omega
        rw [lexList, lexList, ih m rest (by omega) (by omega),
          ih m (rest.dropWhile lib.isLetterOrNumber) (by omega) (by omega),
          ih m (rest.drop (numberRun lib (isDot ch) rest).length) (by omega) (by omega)]

/-- The function `LexicalParser` returns for every string, and returns the tokens `lexList`. -/
theorem lexicalParser_eq {F : Type} (lib : QtLib F) (s : QString) :
    LexicalParser lib s = some (lexList lib s.length s) := by
  unfold LexicalParser
  rw [lexLoop_eq lib s s.length 0 [] (by omega)]
  simp

theorem char_isDigit_iff (c : Char) : c.isDigit = true ↔ 48 ≤ c.toNat ∧ c.toNat ≤ 57 := by
  unfold Char.isDigit Char.toNat
  simp only [Bool.and_eq_true, decide_eq_true_eq, UInt32.le_def, Fin.le_def]
  rfl

theorem char_isAlpha_iff (c : Char) : c.isAlpha = true ↔
    (65 ≤ c.toNat ∧ c.toNat ≤ 90) ∨ (97 ≤ c.toNat ∧ c.toNat ≤ 122) := by
  unfold Char.isAlpha Char.isUpper Char.isLower Char.toNat
  simp only [Bool.or_eq_true, Bool.and_eq_true, decide_eq_true_eq, UInt32.le_def, Fin.le_def]
  rfl

theorem char_isAlphanum_iff (c : Char) :
    c.isAlphanum = true ↔ (c.isAlpha = true ∨ c.isDigit = true) := by
  unfold Char.isAlphanum
  simp only [Bool.or_eq_true]

theorem bool_eq_false_of_not {b : Bool} (h : ¬ b = true) : b = false := by
  cases b
  · rfl
  · exact absurd rfl h

theorem refSpace_eq_false (c : Char) (h : 32 < c.toNat) :
    (c == ' ' || (decide (9 ≤ c.toNat) && decide (c.toNat ≤ 13))) = false := by
  apply bool_eq_false_of_not
  intro ht
  simp only [Bool.or_eq_true, beq_iff_eq, Bool.and_eq_true, decide_eq_true_eq] at ht
  rcases ht with h1 | h1
  · rw [h1] at h
    exact absurd h (by decide)
  · omega

theorem refLib_sound : refLib.Sound := by
  refine ⟨fun c _ => ⟨rfl, rfl, rfl, rfl⟩, ?_, ?_⟩
  · intro c hc
    have hc2 : c.isAlpha = true := hc
    have hb := (char_isAlpha_iff c).mp hc2
    refine ⟨refSpace_eq_false c (by omega), ?_⟩
    exact (char_isAlphanum_iff c).mpr (Or.inl hc2)
  · intro c hc
    have hc2 : c.isDigit = true := hc
    have hb := (char_isDigit_iff c).mp hc2
    refine ⟨refSpace_eq_false c (by omega), ?_, ?_⟩
    · apply bool_eq_false_of_not
      intro ha
      have := (char_isAlpha_iff c).mp ha
      omega
    · exact (char_isAlphanum_iff c).mpr (Or.inr hc2)

theorem sound_space {F : Type} (lib : QtLib F) (hs : lib.Sound) : lib.isSpace ' ' = true := by
  rw [(hs.ascii ' ' (by decide)).1]
  decide

theorem sound_colon {F : Type} (lib : QtLib F) (hs : lib.Sound) :
    lib.isSpace ':' = false ∧ lib.isLetter ':' = false ∧ lib.isDigit ':' = false
      ∧ lib.isLetterOrNumber ':' = false := by
  obtain ⟨h1, h2, h3, h4⟩ := hs.ascii ':' (by decide)
  rw [h1, h2, h3, h4]
  decide

theorem sound_comma {F : Type} (lib : QtLib F) (hs : lib.Sound) :
    lib.isSpace ',' = false ∧ lib.isLetter ',' = false ∧ lib.isDigit ',' = false
      ∧ lib.isLetterOrNumber ',' = false := by
  obtain ⟨h1, h2, h3, h4⟩ := hs.ascii ',' (by decide)
  rw [h1, h2, h3, h4]
  decide

theorem sound_dot {F : Type} (lib : QtLib F) (hs : lib.Sound) :
    lib.isSpace '.' = false ∧ lib.isLetter '.' = false ∧ lib.isDigit '.' = false
      ∧ lib.isLetterOrNumber '.' = false := by
  obtain ⟨h1, h2, h3, h4⟩ := hs.ascii '.' (by decide)
  rw [h1, h2, h3, h4]
  decide

theorem sound_minus {F : Type} (lib : QtLib F) (hs : lib.Sound) :
    lib.isSpace '-' = false ∧ lib.isLetter '-' = false ∧ lib.isDigit '-' = false
      ∧ lib.isLetterOrNumber '-' = false := by
  obtain ⟨h1, h2, h3, h4⟩ := hs.ascii '-' (by decide)
  rw [h1, h2, h3, h4]
  decide

theorem isDot_iff (c : Char) : isDot c = true ↔ c = '.' := by
  unfold isDot
  exact beq_iff_eq

theorem takeWhile_append_stop {α : Type} (p : α → Bool) (cs : List α) (x : α)
    (rest : List α) (hcs : ∀ c ∈ cs, p c = true) (hx : p x = false) :
    (cs ++ x :: rest).takeWhile p = cs ∧ (cs ++ x :: rest).dropWhile p = x :: rest := by
  induction cs with
  | nil => simp [List.takeWhile_cons, List.dropWhile_cons, hx]
  | cons c cs ih =>
    have hc : p c = true := hcs c (List.mem_cons_self _ _)
    obtain ⟨h1, h2⟩ := ih (fun d hd => hcs d (List.mem_cons_of_mem _ hd))
    simp [List.takeWhile_cons, List.dropWhile_cons, hc, h1, h2]

theorem numberRun_append_stop {F : Type} (lib : QtLib F) (x : Char) (rest : List Char)
    (hx1 : isDot x = false) (hx2 : lib.isDigit x = false) :
    ∀ (cs : List Char) (hasDot : Bool), isNumeralTail lib hasDot cs = true →
      numberRun lib hasDot (cs ++ x :: rest) = cs := by
  intro cs
  induction cs with
  | nil =>
    intro hasDot _
    simp [numberRun, hx1, hx2]
  | cons c cs ih =>
    intro hasDot h
    unfold isNumeralTail at h
    simp only [List.all_cons, Bool.and_eq_true, Bool.or_eq_true, decide_eq_true_eq,
      List.countP_cons] at h
    obtain ⟨⟨hc, hall⟩, hcount⟩ := h
    rw [List.cons_append, numberRun]
    by_cases hdot : isDot c = true
    · simp only [hdot, if_true] at hcount ⊢
      cases hasDot with
      | true =>
        unfold dotBudget at hcount
        simp at hcount
      | false =>
        have ht : isNumeralTail lib true cs = true := by
          unfold isNumeralTail dotBudget
          unfold dotBudget at hcount
          simp only [Bool.false_eq_true, if_false] at hcount
          simp only [hall, Bool.true_and, if_true, decide_eq_true_eq]
          omega
        simp only [Bool.false_eq_true, if_false]
        rw [ih true ht]
    · have hdf : isDot c = false := bool_eq_false_of_not hdot
      have hdig : lib.isDigit c = true := by
        rcases hc with h1 | h1
        · exact h1
        · exact absurd h1 hdot
      have ht : isNumeralTail lib hasDot cs = true := by
        unfold isNumeralTail
        simp only [hdf, Bool.false_eq_true, if_false, Nat.add_zero] at hcount
        simp only [hall, Bool.true_and, decide_eq_true_eq]
        exact hcount
      simp only [hdf, hdig, Bool.false_eq_true, if_false, Bool.not_true]
      rw [ih hasDot ht]

/-- A space is skipped. -/
theorem lexList_space {F : Type} (lib : QtLib F) (hs : lib.Sound) (rest : List Char) :
    lexList lib (' ' :: rest).length (' ' :: rest) = lexList lib rest.length rest := by
  rw [List.length_cons, lexList]
  simp only [sound_space lib hs, if_true]

/-- A colon is a token of its own. -/
theorem lexList_colon {F : Type} (lib : QtLib F) (hs : lib.Sound) (rest : List Char) :
    lexList lib (':' :: rest).length (':' :: rest) = [':'] :: lexList lib rest.length rest := by
  obtain ⟨h1, h2, h3, _⟩ := sound_colon lib hs
  rw [List.length_cons, lexList]
  simp only [h1, h2, h3, Bool.false_eq_true, if_false]
  rfl

/-- A comma is a token of its own. -/
theorem lexList_comma {F : Type} (lib : QtLib F) (hs : lib.Sound) (rest : List Char) :
    lexList lib (',' :: rest).length (',' :: rest) = [','] :: lexList lib rest.length rest := by
  obtain ⟨h1, h2, h3, _⟩ := sound_comma lib hs
  rw [List.length_cons, lexList]
  simp only [h1, h2, h3, Bool.false_eq_true, if_false]
  rfl

/-- An identifier followed by a character that is no letter or number is one token. -/
theorem lexList_identifier {F : Type} (lib : QtLib F) (hs : lib.Sound) (w : QString)
    (x : Char) (rest : List Char) (hw : isIdentifier lib w = true)
    (hx : lib.isLetterOrNumber x = false) :
    lexList lib (w ++ x :: rest).length (w ++ x :: rest)
      = w :: lexList lib (x :: rest).length (x :: rest) := by
  cases w with
  | nil => simp [isIdentifier] at hw
  | cons c cs =>
    unfold isIdentifier at hw
    simp only [Bool.and_eq_true, List.all_eq_true, Bool.or_eq_true] at hw
    obtain ⟨hc, hcs⟩ := hw
    have hlon : ∀ d ∈ cs, lib.isLetterOrNumber d = true := by
      intro d hd
      rcases hcs d hd with h | h
      · exact (hs.letter d h).2
      · exact (hs.digit d h).2.2
    obtain ⟨ht, hdw⟩ := takeWhile_append_stop lib.isLetterOrNumber cs x rest hlon hx
    rw [List.cons_append, List.length_cons, lexList]
    simp only [(hs.letter c hc).1, hc, Bool.false_eq_true, if_false, if_true, ht, hdw]
    rw [lexList_fuel lib (cs ++ x :: rest).length (x :: rest).length (x :: rest)
      (by simp) (le_refl _)]

/-- A numeral followed by a character that is neither a dot nor a digit is one token. -/
theorem lexList_numeral {F : Type} (lib : QtLib F) (hs : lib.Sound) (w : QString)
    (x : Char) (rest : List Char) (hw : isNumeral lib w = true)
    (hx1 : isDot x = false) (hx2 : lib.isDigit x = false) :
    lexList lib (w ++ x :: rest).length (w ++ x :: rest)
      = w :: lexList lib (x :: rest).length (x :: rest) := by
  cases w with
  | nil => simp [isNumeral] at hw
  | cons c cs =>
    unfold isNumeral at hw
    simp only [Bool.and_eq_true] at hw
    obtain ⟨hc, hcs⟩ := hw
    have hrun := numberRun_append_stop lib x rest hx1 hx2 cs (isDot c) hcs
    have hsp : lib.isSpace c = false ∧ lib.isLetter c = false := by
      simp only [Bool.or_eq_true] at hc
      rcases hc with (h | h) | h
      · exact ⟨(hs.digit c h).1, (hs.digit c h).2.1⟩
      · rw [(isDot_iff c).mp h]
        exact ⟨(sound_dot lib hs).1, (sound_dot lib hs).2.1⟩
      · rw [beq_iff_eq.mp h]
        exact ⟨(sound_minus lib hs).1, (sound_minus lib hs).2.1⟩
    rw [List.cons_append, List.length_cons, lexList]
    simp only [hsp.1, hsp.2, hc, Bool.false_eq_true, if_false, if_true, hrun]
    rw [List.drop_left, lexList_fuel lib (cs ++ x :: rest).length (x :: rest).length (x :: rest)
      (by simp) (le_refl _)]

theorem lexList_groupsText {F : Type} (lib : QtLib F) (hs : lib.Sound) :
    ∀ groups : List (QString × QString),
      (∀ g ∈ groups, isIdentifier lib g.1 = true ∧ isNumeral lib g.2 = true) →
      lexList lib (groupsText groups).length (groupsText groups) = groupsTokens groups := by
  intro groups
  induction groups with
  | nil =>
    intro _
    rfl
  | cons g gs ih =>
    intro h
    obtain ⟨hid, hnum⟩ := h g (List.mem_cons_self _ _)
    have hrest := ih (fun g2 hg2 => h g2 (List.mem_cons_of_mem _ hg2))
    have e : groupsText (g :: gs)
        = ' ' :: (g.1 ++ ':' :: (' ' :: (g.2 ++ ',' :: groupsText gs))) := by
      simp only [groupsText, List.cons_append, List.append_assoc]
    rw [e, lexList_space lib hs,
      lexList_identifier lib hs g.1 ':' _ hid (sound_colon lib hs).2.2.2,
      lexList_colon lib hs, lexList_space lib hs,
      lexList_numeral lib hs g.2 ',' _ hnum (by decide) (sound_comma lib hs).2.2.1,
      lexList_comma lib hs, hrest]
    rfl

theorem lexList_recordBody {F : Type} (lib : QtLib F) (hs : lib.Sound) (T t : QString)
    (groups : List (QString × QString)) (hT : isIdentifier lib T = true)
    (ht : isNumeral lib t = true)
    (hg : ∀ g ∈ groups, isIdentifier lib g.1 = true ∧ isNumeral lib g.2 = true) :
    lexList lib (recordBody T t groups).length (recordBody T t groups)
      = T :: [':'] :: t :: [','] :: groupsTokens groups := by
  have e : recordBody T t groups = T ++ ':' :: (' ' :: (t ++ ',' :: groupsText groups)) := by
    simp only [recordBody, List.cons_append, List.append_assoc]
  rw [e, lexList_identifier lib hs T ':' _ hT (sound_colon lib hs).2.2.2,
    lexList_colon lib hs, lexList_space lib hs,
    lexList_numeral lib hs t ',' _ ht (by decide) (sound_comma lib hs).2.2.1,
    lexList_comma lib hs, lexList_groupsText lib hs groups hg]

theorem tokenGroups_groupsTokens :
    ∀ groups : List (QString × QString), tokenGroups (groupsTokens groups) = groups := by
  intro groups
  induction groups with
  | nil => rfl
  | cons g gs ih =>
    rw [groupsTokens, tokenGroups, ih]

theorem leadingPairs_all {F : Type} (lib : QtLib F) :
    ∀ groups : List (QString × QString), (∀ g ∈ groups, (lib.toFloat g.2).2 = true) →
      leadingPairs lib groups = groups.map (fun g => (g.1, (lib.toFloat g.2).1)) := by
  intro groups h
  unfold leadingPairs
  rw [List.takeWhile_eq_self_iff.mpr]
  intro g hg
  exact h g hg

/-- C1. For every well-formed record body `T: t, N1: v1, ..., Nk: vk,` whose numerals
are accepted by `toFloat`, `LexicalParser` returns its tokens and `DataParser` returns
on them the time stamp `toFloat t` and exactly the pairs `(Ni, toFloat vi)` in their
order, the names copied verbatim. -/
theorem record_roundtrip {F : Type} (lib : QtLib F) (hs : lib.Sound) (T t : QString)
    (groups : List (QString × QString)) (hT : isIdentifier lib T = true)
    (ht : isNumeral lib t = true)
    (hg : ∀ g ∈ groups, isIdentifier lib g.1 = true ∧ isNumeral lib g.2 = true)
    (htv : (lib.toFloat t).2 = true)
    (hgv : ∀ g ∈ groups, (lib.toFloat g.2).2 = true) :
    ∃ tokens, LexicalParser lib (recordBody T t groups) = some tokens
      ∧ tokens = T :: [':'] :: t :: [','] :: groupsTokens groups
      ∧ DataParser lib tokens = some
          { sampleTime := some (lib.toFloat t).1,
            datas := groups.map (fun g => (g.1, (lib.toFloat g.2).1)) } := by
  refine ⟨_, lexicalParser_eq lib _, lexList_recordBody lib hs T t groups hT ht hg, ?_⟩
  rw [lexList_recordBody lib hs T t groups hT ht hg, dataParser_eq]
  unfold parsedRecord
  simp only [List.getElem?_cons_succ, List.getElem?_cons_zero, htv, if_true, List.drop_succ_cons,
    List.drop_zero]
  rw [tokenGroups_groupsTokens, leadingPairs_all lib groups hgv]

/-- C1, witnesses: the two record bodies of the specification. -/
theorem record_roundtrip_witness :
    (∃ tokens, LexicalParser refLib "Time: 12.5, A: 1.0, B: 2.0,".toList = some tokens
      ∧ tokens = ["Time".toList, ":".toList, "12.5".toList, ",".toList, "A".toList,
          ":".toList, "1.0".toList, ",".toList, "B".toList, ":".toList, "2.0".toList,
          ",".toList]
      ∧ DataParser refLib tokens = some
          { sampleTime := some ⟨25, 2⟩,
            datas := [("A".toList, ⟨1, 1⟩), ("B".toList, ⟨2, 1⟩)] })
    ∧ (∃ tokens,
        LexicalParser refLib "Time: 12.500, EngineRPM: 3400.0, Speed: 88.2,".toList
          = some tokens
      ∧ tokens = ["Time".toList, ":".toList, "12.500".toList, ",".toList,
          "EngineRPM".toList, ":".toList, "3400.0".toList, ",".toList, "Speed".toList,
          ":".toList, "88.2".toList, ",".toList]
      ∧ DataParser refLib tokens = some
          { sampleTime := some ⟨25, 2⟩,
            datas := [("EngineRPM".toList, ⟨3400, 1⟩), ("Speed".toList, ⟨441, 5⟩)] }) :=
  ⟨record_roundtrip refLib refLib_sound "Time".toList "12.5".toList
      [("A".toList, "1.0".toList), ("B".toList, "2.0".toList)]
      (by decide) (by decide) (by decide) (by decide) (by decide),
    record_roundtrip refLib refLib_sound "Time".toList "12.500".toList
      [("EngineRPM".toList, "3400.0".toList), ("Speed".toList, "88.2".toList)]
      (by decide) (by decide) (by decide) (by decide) (by decide)⟩

/-- C2 (as amended). When the time stamp parses and the groups of a token list are
`good ++ bad :: more` with every value token of `good` accepted and that of `bad`
rejected, `DataParser` returns the pairs of `good`, in order: the pairs collected
before the failing value are kept, and no pair of `bad` or `more` is returned. -/
theorem dataParser_keeps_leading_pairs {F : Type} (lib : QtLib F) (tokens : List QString)
    (t : QString) (good more : List (QString × QString)) (bad : QString × QString)
    (ht : tokens[2]? = some t) (htv : (lib.toFloat t).2 = true)
    (hgroups : tokenGroups (tokens.drop 4) = good ++ bad :: more)
    (hgood : ∀ g ∈ good, (lib.toFloat g.2).2 = true)
    (hbad : (lib.toFloat bad.2).2 = false) :
    DataParser lib tokens = some
      { sampleTime := some (lib.toFloat t).1,
        datas := good.map (fun g => (g.1, (lib.toFloat g.2).1)) } := by
  rw [dataParser_eq]
  unfold parsedRecord
  simp only [ht, htv, if_true, hgroups]
  unfold leadingPairs
  have htw : (good ++ bad :: more).takeWhile (fun g => (lib.toFloat g.2).2) = good :=
    (takeWhile_append_stop (fun g => (lib.toFloat g.2).2) good bad more hgood hbad).1
  rw [htw]

/-- C2, witness of the amended statement: the tokens of `Time: 1.0, A: 1.0, B: xx,`. -/
theorem dataParser_keeps_leading_pairs_witness :
    DataParser refLib ["Time".toList, ":".toList, "1.0".toList, ",".toList, "A".toList,
        ":".toList, "1.0".toList, ",".toList, "B".toList, ":".toList, "xx".toList,
        ",".toList]
      = some { sampleTime := some ⟨1, 1⟩, datas := [("A".toList, ⟨1, 1⟩)] } :=
  dataParser_keeps_leading_pairs refLib _ "1.0".toList [("A".toList, "1.0".toList)] []
    ("B".toList, "xx".toList) (by decide) (by decide) (by decide) (by decide) (by decide)

/-- C2, counterexample to the claim as stated: for the line
`ScopeData: Time: 1.0, A: 1.0, B: xx,` the value token `xx` at index 10 is rejected,
yet `DataParser` returns the pair `(A, 1.0)` collected before it, and the tick appends
`1.0` to channel `A`. -/
theorem all_or_nothing_counterexample :
    LexicalParser refLib "Time: 1.0, A: 1.0, B: xx,".toList
      = some ["Time".toList, ":".toList, "1.0".toList, ",".toList, "A".toList,
          ":".toList, "1.0".toList, ",".toList, "B".toList, ":".toList, "xx".toList,
          ",".toList]
    ∧ (refLib.toFloat "xx".toList).2 = false
    ∧ ((LexicalParser refLib "Time: 1.0, A: 1.0, B: xx,".toList).bind
        (fun tokens => (DataParser refLib tokens).map (fun r => r.datas)))
      = some [("A".toList, ⟨1, 1⟩)]
    ∧ (((DsoInput.init Fx (some exampleSettings)).restartSampling refLib
          (some "ScopeData: Time: 1.0, A: 1.0, B: xx,\n".toList)).map
        (fun st => st.heap.map (fun sd => (sd.name, sd.data))))
      = some [("A".toList, [⟨1, 1⟩])] := by
  decide

/-- C10, witness: padding a buffer of two samples to the target 5. -/
theorem addEmptyData_pads_witness :
    ∃ sd2 : SampleData Fx,
      (⟨"A".toList, [⟨1, 1⟩, ⟨7, 2⟩], ⟨0, 1⟩⟩ : SampleData Fx).addEmptyData refLib 5 = some sd2
      ∧ sd2.data = [⟨1, 1⟩, ⟨7, 2⟩] ++ List.replicate 2 ⟨7, 2⟩
      ∧ (sd2.data.length : Int) = max 2 4
      ∧ sd2.name = "A".toList ∧ sd2.timeStamp = ⟨0, 1⟩ :=
  addEmptyData_pads refLib ⟨"A".toList, [⟨1, 1⟩, ⟨7, 2⟩], ⟨0, 1⟩⟩ 5 (by decide) (by decide)

/-! ### Lines of a text -/

theorem split_at_newline (l : List Char) :
    '\n' ∉ l ∨ ∃ a b, l = a ++ '\n' :: b ∧ '\n' ∉ a := by
  induction l with
  | nil => exact Or.inl (by simp)
  | cons c cs ih =>
    by_cases hc : c = '\n'
    · exact Or.inr ⟨[], cs, by simp [hc], by simp⟩
    · rcases ih with h | ⟨a, b, hab, ha⟩
      · left
        intro hm
        rcases List.mem_cons.mp hm with h1 | h1
        · exact hc h1.symm
        · exact h h1
      · right
        refine ⟨c :: a, b, by simp [hab], ?_⟩
        intro hm
        rcases List.mem_cons.mp hm with h1 | h1
        · exact hc h1.symm
        · exact ha h1

theorem takeLine_no_newline (l : List Char) (h : '\n' ∉ l) : takeLine l = l := by
  induction l with
  | nil => rfl
  | cons c cs ih =>
    have hc : c ≠ '\n' := fun e => h (by simp [e])
    have hcs : '\n' ∉ cs := fun e => h (List.mem_cons_of_mem _ e)
    simp [takeLine, hc, ih hcs]

theorem takeLine_newline (a b : List Char) (h : '\n' ∉ a) :
    takeLine (a ++ '\n' :: b) = a ++ ['\n'] := by
  induction a with
  | nil => simp [takeLine]
  | cons c cs ih =>
    have hc : c ≠ '\n' := fun e => h (by simp [e])
    have hcs : '\n' ∉ cs := fun e => h (List.mem_cons_of_mem _ e)
    simp [takeLine, hc, ih hcs]

theorem splitLines_no_newline (l : List Char) (h : '\n' ∉ l) :
    ∀ cur, splitLines cur l = [] := by
  induction l with
  | nil => intro cur; rfl
  | cons c cs ih =>
    intro cur
    have hc : c ≠ '\n' := fun e => h (by simp [e])
    have hcs : '\n' ∉ cs := fun e => h (List.mem_cons_of_mem _ e)
    simp [splitLines, hc, ih hcs]

theorem splitLines_newline (a b : List Char) (h : '\n' ∉ a) :
    ∀ cur, splitLines cur (a ++ '\n' :: b) = (cur ++ a ++ ['\n']) :: splitLines [] b := by
  induction a with
  | nil => intro cur; simp [splitLines]
  | cons c cs ih =>
    intro cur
    have hc : c ≠ '\n' := fun e => h (by simp [e])
    have hcs : '\n' ∉ cs := fun e => h (List.mem_cons_of_mem _ e)
    simp [splitLines, hc, ih hcs]

theorem completeLines_no_newline (l : List Char) (h : '\n' ∉ l) : completeLines l = [] :=
  splitLines_no_newline l h []

theorem completeLines_newline (a b : List Char) (h : '\n' ∉ a) :
    completeLines (a ++ '\n' :: b) = (a ++ ['\n']) :: completeLines b := by
  unfold completeLines
  rw [splitLines_newline a b h]
  simp

theorem completeLines_flatten_aux (n : Nat) :
    ∀ l : List Char, l.length ≤ n → ∃ r, l = (completeLines l).flatten ++ r ∧ '\n' ∉ r := by
  induction n with
  | zero =>
    intro l hl
    have hnil : l = [] := List.length_eq_zero.mp (by omega)
    subst hnil
    exact ⟨[], by simp [completeLines, splitLines], by simp⟩
  | succ n ih =>
    intro l hl
    rcases split_at_newline l with h | ⟨a, b, hab, ha⟩
    · exact ⟨l, by simp [completeLines_no_newline l h], h⟩
    · have hlen : b.length ≤ n := by
        rw [hab] at hl
        simp only [List.length_append, List.length_cons] at hl
        omega
      obtain ⟨r, hr1, hr2⟩ := ih b hlen
      refine ⟨r, ?_, hr2⟩
      rw [hab, completeLines_newline a b ha]
      simp only [List.flatten_cons, List.append_assoc, List.singleton_append, List.cons_append,
        List.nil_append]
      rw [← hr1]

/-- A text is its complete lines followed by a segment without newline. -/
theorem completeLines_flatten (l : List Char) :
    ∃ r, l = (completeLines l).flatten ++ r ∧ '\n' ∉ r :=
  completeLines_flatten_aux l.length l (le_refl _)

theorem completeLines_drop_flatten (l : List Char) :
    ∃ r, l.drop (completeLines l).flatten.length = r ∧ '\n' ∉ r
      ∧ l = (completeLines l).flatten ++ r := by
  obtain ⟨r, hr1, hr2⟩ := completeLines_flatten l
  refine ⟨r, ?_, hr2, hr1⟩
  generalize (completeLines l).flatten = J at hr1
  rw [hr1, List.drop_left]

theorem completeLines_append_aux (g : List Char) (n : Nat) :
    ∀ l : List Char, l.length ≤ n →
      completeLines (l ++ g) = completeLines l
        ++ completeLines ((l ++ g).drop (completeLines l).flatten.length) := by
  induction n with
  | zero =>
    intro l hl
    have hnil : l = [] := List.length_eq_zero.mp (by omega)
    subst hnil
    simp [completeLines, splitLines]
  | succ n ih =>
    intro l hl
    rcases split_at_newline l with h | ⟨a, b, hab, ha⟩
    · simp [completeLines_no_newline l h]
    · have hlen : b.length ≤ n := by
        rw [hab] at hl
        simp only [List.length_append, List.length_cons] at hl
        omega
      have hb := ih b hlen
      have e1 : a ++ '\n' :: b ++ g = a ++ '\n' :: (b ++ g) := by simp
      have e2 : a ++ '\n' :: (b ++ g) = (a ++ ['\n']) ++ (b ++ g) := by simp
      rw [hab, completeLines_newline a b ha, e1, completeLines_newline a (b ++ g) ha, hb]
      simp only [List.cons_append, List.flatten_cons, List.length_append, List.cons.injEq,
        true_and, List.append_cancel_left_eq]
      rw [e2, ← List.drop_drop, ← List.length_append, List.drop_left]

/-- Appending text to a file: the lines read so far, then the lines of the rest. -/
theorem completeLines_append (l g : List Char) :
    completeLines (l ++ g) = completeLines l
      ++ completeLines ((l ++ g).drop (completeLines l).flatten.length) :=
  completeLines_append_aux g l.length l (le_refl _)

theorem completeLines_drop_flatten_nil (l : List Char) :
    completeLines (l.drop (completeLines l).flatten.length) = [] := by
  obtain ⟨r, hr1, hr2, _⟩ := completeLines_drop_flatten l
  rw [hr1]
  exact completeLines_no_newline r hr2

theorem completeLines_append_no_newline (l t : List Char) (ht : '\n' ∉ t) :
    completeLines (l ++ t) = completeLines l := by
  obtain ⟨r, hr1, hr2, hr3⟩ := completeLines_drop_flatten l
  have hd : (l ++ t).drop (completeLines l).flatten.length = r ++ t := by
    rw [List.drop_append_of_le_length (by
      have := congrArg List.length hr3
      simp only [List.length_append] at this
      omega), hr1]
  rw [completeLines_append, hd, completeLines_no_newline (r ++ t)]
  · simp
  · intro hm
    rcases List.mem_append.mp hm with h | h
    · exact hr2 h
    · exact ht h

theorem completeLines_flatten_length_le (l : List Char) :
    (completeLines l).flatten.length ≤ l.length := by
  obtain ⟨r, _, _, hr3⟩ := completeLines_drop_flatten l
  have := congrArg List.length hr3
  simp only [List.length_append] at this
  omega

/-! ### Buffers of the registry -/

theorem value_mem {V : Type} (m : QMap V) (k : QString) (p : V) (h : m.value k = some p) :
    (k, p) ∈ m.entries := by
  unfold QMap.value at h
  cases hf : m.entries.find? (fun e => e.1 == k) with
  | none => rw [hf] at h; exact absurd h (by simp)
  | some e =>
    rw [hf] at h
    have hp : e.2 = p := by simpa using h
    have hk : e.1 = k := by simpa using List.find?_some hf
    have hm := List.mem_of_find?_eq_some hf
    rw [← hp, ← hk]
    exact hm

theorem value_none_of_not_contains {V : Type} (m : QMap V) (k : QString)
    (h : m.contains k = false) : m.value k = none := by
  cases hv : m.value k with
  | none => rfl
  | some p =>
    have hm := value_mem m k p hv
    have hk : k ∈ m.keys := List.mem_map.mpr ⟨(k, p), hm, rfl⟩
    rw [(contains_eq_true_iff m k).mpr hk] at h
    exact absurd h (by decide)

theorem contains_of_value {V : Type} (m : QMap V) (k : QString) (p : V)
    (h : m.value k = some p) : m.contains k = true :=
  (contains_eq_true_iff m k).mpr (List.mem_map.mpr ⟨(k, p), value_mem m k p h, rfl⟩)

theorem regwf_value_lt {F : Type} (st : DsoInput F) (hwf : st.RegWF) (k : QString) (p : Nat)
    (h : st.sampleDatas.value k = some p) : p < st.heap.length :=
  hwf.2.1 (k, p) (value_mem _ k p h)

theorem regwf_value_inj {F : Type} (st : DsoInput F) (hwf : st.RegWF) (k1 k2 : QString)
    (p : Nat) (h1 : st.sampleDatas.value k1 = some p) (h2 : st.sampleDatas.value k2 = some p) :
    k1 = k2 := by
  have hm1 := value_mem _ k1 p h1
  have hm2 := value_mem _ k2 p h2
  have hinj := List.inj_on_of_nodup_map hwf.2.2 hm1 hm2 rfl
  exact congrArg Prod.fst hinj

theorem sameFrame_refl {F : Type} (st : DsoInput F) : st.SameFrame st :=
  ⟨rfl, rfl, rfl, rfl, rfl, rfl, rfl, rfl⟩

theorem sameFrame_trans {F : Type} {a b c : DsoInput F} (h1 : a.SameFrame b)
    (h2 : b.SameFrame c) : a.SameFrame c := by
  obtain ⟨a1, a2, a3, a4, a5, a6, a7, a8⟩ := h1
  obtain ⟨b1, b2, b3, b4, b5, b6, b7, b8⟩ := h2
  exact ⟨a1.trans b1, a2.trans b2, a3.trans b3, a4.trans b4, a5.trans b5, a6.trans b6,
    a7.trans b7, a8.trans b8⟩

/-- Shape of the state after the creation of a channel, with or without settings. -/
theorem getSampleData_new_shape {F : Type} (lib : QtLib F) (st : DsoInput F)
    (name : QString) (hnew : st.sampleDatas.contains name = false) :
    ∃ st1, st.GetSampleData lib name = some (st.heap.length, st1)
      ∧ st1.heap = st.heap ++ [⟨name, [], lib.ofNat 0⟩]
      ∧ st1.sampleDatas = st.sampleDatas.insert name st.heap.length
      ∧ st.SameFrame st1 := by
  cases hs : st.dsoSettings with
  | none =>
    refine ⟨{ st with
        heap := st.heap ++ [⟨name, [], lib.ofNat 0⟩],
        sampleDatas := st.sampleDatas.insert name st.heap.length }, ?_, rfl, rfl, ?_⟩
    · unfold DsoInput.GetSampleData
      simp only [hnew, hs, SampleData.new]
      rfl
    · exact ⟨rfl, rfl, rfl, rfl, rfl, rfl, rfl, rfl⟩
  | some s =>
    refine ⟨_, getSampleData_of_new lib st name s hnew hs, rfl, rfl, ?_⟩
    refine ⟨rfl, rfl, rfl, rfl, rfl, rfl, rfl, ?_⟩
    simp only [hs, Option.map_some']

theorem buffer_eq_of_value {F : Type} (st : DsoInput F) (k : QString) (p : Nat)
    (h : st.sampleDatas.value k = some p) :
    st.buffer k = (st.heap[p]?).map (fun sd => sd.data) := by
  unfold DsoInput.buffer
  rw [h]

theorem buffer_eq_none_of_value {F : Type} (st : DsoInput F) (k : QString)
    (h : st.sampleDatas.value k = none) : st.buffer k = none := by
  unfold DsoInput.buffer
  rw [h]

/-- Resolving a name: the pointer returned is registered under the name, its object
holds the samples the channel had (none for a new channel), and no other channel
changes. -/
theorem getSampleData_buffer {F : Type} (lib : QtLib F) (st : DsoInput F) (name : QString)
    (hwf : st.RegWF) :
    ∃ p st1 sd, st.GetSampleData lib name = some (p, st1) ∧ st1.RegWF ∧ st.SameFrame st1
      ∧ st1.sampleDatas.value name = some p ∧ st1.heap[p]? = some sd
      ∧ sd.data = (st.buffer name).getD []
      ∧ (∀ k, k ≠ name → st1.buffer k = st.buffer k)
      ∧ (st.buffer name = none → sd.data = []) := by
  by_cases hc : st.sampleDatas.contains name = true
  · obtain ⟨p, hp, hget⟩ := getSampleData_of_old lib st name hc
    have hlt := regwf_value_lt st hwf name p hp
    have hsd : st.heap[p]? = some st.heap[p] := List.getElem?_eq_getElem hlt
    have hb : st.buffer name = some st.heap[p].data := by
      rw [buffer_eq_of_value st name p hp, hsd]
      rfl
    refine ⟨p, st, st.heap[p], hget, hwf, sameFrame_refl st, hp, hsd, ?_, fun _ _ => rfl, ?_⟩
    · rw [hb]
      rfl
    · intro hn
      rw [hb] at hn
      exact absurd hn (by simp)
  · have hnew : st.sampleDatas.contains name = false := bool_eq_false_of_not hc
    obtain ⟨st1, hget, hheap, hmap, hframe⟩ := getSampleData_new_shape lib st name hnew
    obtain ⟨l1, l2, e1, e2, _, _⟩ := insert_spec st.sampleDatas name st.heap.length hnew
    obtain ⟨_, _, _, _, _, hk4⟩ := insert_keys st.sampleDatas name st.heap.length hnew
    have hval : st1.sampleDatas.value name = some st.heap.length := by
      rw [hmap]
      exact insert_value_self st.sampleDatas name st.heap.length hnew
    have hsd : st1.heap[st.heap.length]? = some ⟨name, [], lib.ofNat 0⟩ := by
      rw [hheap]
      simp
    have hbn : st.buffer name = none :=
      buffer_eq_none_of_value st name (value_none_of_not_contains _ name hnew)
    have hwf1 : st1.RegWF := by
      refine ⟨?_, ?_, ?_⟩
      · rw [hmap]
        exact (hk4 hwf.1).2
      · intro e he
        rw [hmap] at he
        have he2 : e ∈ l1 ++ (name, st.heap.length) :: l2 := by
          rw [← e2]
          exact he
        rw [hheap, List.length_append, List.length_singleton]
        rcases List.mem_append.mp he2 with h | h
        · have := hwf.2.1 e (by rw [e1]; exact List.mem_append_left _ h)
          omega
        · rcases List.mem_cons.mp h with h | h
          · rw [h]
            simp
          · have := hwf.2.1 e (by rw [e1]; exact List.mem_append_right _ h)
            omega
      · rw [hmap]
        show ((st.sampleDatas.insert name st.heap.length).entries.map Prod.snd).Nodup
        rw [e2]
        have hnd := hwf.2.2
        rw [e1, List.map_append] at hnd
        rw [List.map_append, List.map_cons]
        have hfresh : ∀ q ∈ (l1 ++ l2).map Prod.snd, q ≠ st.heap.length := by
          intro q hq
          obtain ⟨e, he, rfl⟩ := List.mem_map.mp hq
          have := hwf.2.1 e (by rw [e1]; exact he)
          omega
        rw [List.nodup_append] at hnd ⊢
        obtain ⟨n1, n2, n3⟩ := hnd
        refine ⟨n1, ?_, ?_⟩
        · rw [List.nodup_cons]
          refine ⟨?_, n2⟩
          intro hm
          exact hfresh _ (by rw [List.map_append]; exact List.mem_append_right _ hm) rfl
        · intro q hq1 hq2
          rcases List.mem_cons.mp hq2 with h | h
          · exact hfresh q (by rw [List.map_append]; exact List.mem_append_left _ hq1) h
          · exact n3 hq1 h
    refine ⟨st.heap.length, st1, ⟨name, [], lib.ofNat 0⟩, hget, hwf1, hframe, hval, hsd, ?_, ?_,
      fun _ => rfl⟩
    · rw [hbn]
      rfl
    · intro k hk
      have hv : st1.sampleDatas.value k = st.sampleDatas.value k := by
        rw [hmap]
        exact insert_value_other st.sampleDatas name k st.heap.length hnew hk
      cases hvk : st.sampleDatas.value k with
      | none =>
        rw [buffer_eq_none_of_value st k hvk, buffer_eq_none_of_value st1 k (by rw [hv, hvk])]
      | some q =>
        have hq := regwf_value_lt st hwf k q hvk
        rw [buffer_eq_of_value st k q hvk, buffer_eq_of_value st1 k q (by rw [hv, hvk]), hheap,
          List.getElem?_append_left hq]

/-- Storing a changed object through a registered pointer changes the buffer of its
name only. -/
theorem set_buffer {F : Type} (st : DsoInput F) (name : QString) (p : Nat) (sd2 : SampleData F)
    (hwf : st.RegWF) (hp : st.sampleDatas.value name = some p) :
    ({ st with heap := st.heap.set p sd2 } : DsoInput F).RegWF
      ∧ st.SameFrame { st with heap := st.heap.set p sd2 }
      ∧ ({ st with heap := st.heap.set p sd2 } : DsoInput F).buffer name = some sd2.data
      ∧ (∀ k, k ≠ name →
          ({ st with heap := st.heap.set p sd2 } : DsoInput F).buffer k = st.buffer k) := by
  have hlt := regwf_value_lt st hwf name p hp
  refine ⟨⟨hwf.1, ?_, hwf.2.2⟩, ⟨rfl, rfl, rfl, rfl, rfl, rfl, rfl, rfl⟩, ?_, ?_⟩
  · intro e he
    show e.2 < (st.heap.set p sd2).length
    rw [List.length_set]
    exact hwf.2.1 e he
  · unfold DsoInput.buffer
    simp only [hp]
    rw [List.getElem?_set_self hlt]
    rfl
  · intro k hk
    unfold DsoInput.buffer
    simp only
    cases hvk : st.sampleDatas.value k with
    | none => rfl
    | some q =>
      have hne : p ≠ q := by
        intro hpq
        rw [← hpq] at hvk
        exact hk (regwf_value_inj st hwf k name p hvk hp)
      simp only
      rw [List.getElem?_set_ne hne]

/-! ### Applying pairs -/

theorem valuesOf_cons_same {F : Type} (n : QString) (v : F) (rest : List (QString × F)) :
    valuesOf n ((n, v) :: rest) = v :: valuesOf n rest := by
  unfold valuesOf
  simp [List.filter_cons]

theorem valuesOf_cons_other {F : Type} (k n : QString) (v : F) (rest : List (QString × F))
    (h : k ≠ n) : valuesOf k ((n, v) :: rest) = valuesOf k rest := by
  unfold valuesOf
  have hb : (n == k) = false := by simpa using (Ne.symm h)
  simp [List.filter_cons, hb]

theorem valuesOf_append {F : Type} (k : QString) (p1 p2 : List (QString × F)) :
    valuesOf k (p1 ++ p2) = valuesOf k p1 ++ valuesOf k p2 := by
  unfold valuesOf
  simp [List.filter_append]

theorem valuesOf_of_not_mem {F : Type} (k : QString) (pairs : List (QString × F))
    (h : k ∉ pairs.map Prod.fst) : valuesOf k pairs = [] := by
  induction pairs with
  | nil => rfl
  | cons pr rest ih =>
    obtain ⟨n, v⟩ := pr
    have hne : k ≠ n := fun e =>
      h (by simp only [List.map_cons, List.mem_cons]; exact Or.inl e)
    rw [valuesOf_cons_other k n v rest hne]
    exact ih (fun hm => h (by simp only [List.map_cons, List.mem_cons]; exact Or.inr hm))

theorem extendBuffer_nil {F : Type} (b : Option (List F)) : extendBuffer b [] = b := rfl

theorem extendBuffer_getD {F : Type} (b : Option (List F)) (vs : List F) :
    (extendBuffer b vs).getD [] = b.getD [] ++ vs := by
  cases vs with
  | nil => simp [extendBuffer]
  | cons v vs => simp [extendBuffer]

theorem extendBuffer_append {F : Type} (b : Option (List F)) (vs ws : List F) :
    extendBuffer (extendBuffer b vs) ws = extendBuffer b (vs ++ ws) := by
  cases vs with
  | nil => simp [extendBuffer]
  | cons v vs =>
    cases ws with
    | nil => simp [extendBuffer]
    | cons w ws => simp [extendBuffer]

theorem pairsPost_len {F : Type} {st : DsoInput F} {m : Int} {pairs : List (QString × F)}
    {st2 : DsoInput F} {m2 : Int} (h : PairsPost st m pairs st2 m2) (k : QString) :
    st2.len k = st.len k + (valuesOf k pairs).length := by
  unfold DsoInput.len
  rw [h.2.1 k, extendBuffer_getD, List.length_append]

theorem pairsPost_nil {F : Type} (st : DsoInput F) (m : Int) (hwf : st.RegWF) :
    PairsPost st m [] st m :=
  ⟨hwf, fun _ => rfl, le_refl m, fun h => h, fun _ => ⟨by simp, Or.inl rfl⟩⟩

theorem sizeBound_left {F : Type} (st : DsoInput F) (p1 p2 : List (QString × F))
    (h : SizeBound st (p1 ++ p2)) : SizeBound st p1 := by
  intro k
  have := h k
  rw [valuesOf_append, List.length_append] at this
  omega

theorem sizeBound_right {F : Type} {st st1 : DsoInput F} {m m1 : Int}
    (p1 p2 : List (QString × F)) (h : SizeBound st (p1 ++ p2))
    (hp : PairsPost st m p1 st1 m1) : SizeBound st1 p2 := by
  intro k
  have := h k
  rw [valuesOf_append, List.length_append] at this
  rw [pairsPost_len hp k]
  omega

theorem pairsPost_trans {F : Type} {st st1 st2 : DsoInput F} {m m1 m2 : Int}
    {p1 p2 : List (QString × F)} (h1 : PairsPost st m p1 st1 m1)
    (h2 : PairsPost st1 m1 p2 st2 m2) : PairsPost st m (p1 ++ p2) st2 m2 := by
  have hlen := pairsPost_len h2
  have hsb := fun hb => sizeBound_right p1 p2 hb h1
  obtain ⟨_, b1, c1, r1, de1⟩ := h1
  obtain ⟨a2, b2, c2, r2, de2⟩ := h2
  refine ⟨a2, ?_, le_trans c1 c2, fun h => r2 (r1 h), ?_⟩
  · intro k
    rw [b2 k, b1 k, extendBuffer_append, valuesOf_append]
  · intro hb
    obtain ⟨d1, e1⟩ := de1 (sizeBound_left st p1 p2 hb)
    obtain ⟨d2, e2⟩ := de2 (hsb hb)
    have hub : ∀ k ∈ (p1 ++ p2).map Prod.fst, (st2.len k : Int) ≤ m2 := by
      intro k hk
      by_cases hk2 : k ∈ p2.map Prod.fst
      · exact d2 k hk2
      · have hk1 : k ∈ p1.map Prod.fst := by
          rw [List.map_append] at hk
          rcases List.mem_append.mp hk with h | h
          · exact h
          · exact absurd h hk2
        have := d1 k hk1
        have hl := hlen k
        rw [valuesOf_of_not_mem k p2 hk2] at hl
        simp only [List.length_nil, Nat.add_zero] at hl
        rw [hl]
        omega
    refine ⟨hub, ?_⟩
    rcases e2 with h | ⟨k, hk, hkm⟩
    · rcases e1 with h1 | ⟨k, hk, hkm⟩
      · left
        rw [h, h1]
      · right
        have hk' : k ∈ (p1 ++ p2).map Prod.fst := by
          rw [List.map_append]
          exact List.mem_append_left _ hk
        refine ⟨k, hk', ?_⟩
        have h3 := hub k hk'
        have h4 := hlen k
        omega
    · right
      refine ⟨k, ?_, hkm⟩
      rw [List.map_append]
      exact List.mem_append_right _ hk

theorem toInt32_of_lt (n : Nat) (h : n < 2 ^ 31) : toInt32 (n : Int) = (n : Int) := by
  unfold toInt32
  have h1 : (0 : Int) ≤ (n : Int) + 2 ^ 31 := by omega
  have h2 : (n : Int) + 2 ^ 31 < 2 ^ 32 := by omega
  rw [Int.emod_eq_of_lt h1 h2]
  omega

theorem toInt32_lt (x : Int) : toInt32 x < 2 ^ 31 := by
  unfold toInt32
  have := Int.emod_lt_of_pos (x + 2 ^ 31) (show (0 : Int) < 2 ^ 32 by decide)
  omega

/-- One iteration of the loop over the pairs of a record. -/
theorem applyPair_step {F : Type} (lib : QtLib F) (t : F) (st : DsoInput F) (m : Int)
    (n : QString) (v : F) (hwf : st.RegWF) :
    ∃ p st1 sd, st.GetSampleData lib n = some (p, st1) ∧ st1.heap[p]? = some sd
      ∧ st.SameFrame { st1 with heap := st1.heap.set p (sd.addData lib t v (frameRate lib)) }
      ∧ PairsPost st m [(n, v)]
          { st1 with heap := st1.heap.set p (sd.addData lib t v (frameRate lib)) }
          (max m (toInt32 ((sd.addData lib t v (frameRate lib)).data.length : Nat))) := by
  obtain ⟨p, st1, sd, hget, hwf1, hframe, hval, hsd, hdata, hother, _⟩ :=
    getSampleData_buffer lib st n hwf
  have hadd := addData_eq lib sd t v (frameRate lib)
  obtain ⟨s1, s2, s3, s4⟩ := set_buffer st1 n p (sd.addData lib t v (frameRate lib)) hwf1 hval
  have hnew : (sd.addData lib t v (frameRate lib)).data = (st.buffer n).getD [] ++ [v] := by
    rw [hadd, hdata]
  have hlen2 : ({ st1 with heap := st1.heap.set p (sd.addData lib t v (frameRate lib)) } :
      DsoInput F).len n = st.len n + 1 := by
    unfold DsoInput.len
    rw [s3, hnew]
    simp
  refine ⟨p, st1, sd, hget, hsd, sameFrame_trans hframe s2, s1, ?_, le_max_left _ _, ?_, ?_⟩
  · intro k
    by_cases hk : k = n
    · rw [hk, s3, hnew, valuesOf_cons_same]
      rfl
    · rw [s4 k hk, hother k hk, valuesOf_cons_other k n v [] hk]
      rfl
  · intro hm
    exact max_lt hm (toInt32_lt _)
  · intro hb
    have hsmall : st.len n + 1 < 2 ^ 31 := by
      have := hb n
      rw [valuesOf_cons_same] at this
      simpa using this
    have hcast : toInt32 ((sd.addData lib t v (frameRate lib)).data.length : Nat)
        = ((st.len n + 1 : Nat) : Int) := by
      rw [hnew]
      simp only [List.length_append, List.length_singleton]
      exact toInt32_of_lt _ hsmall
    refine ⟨?_, ?_⟩
    · intro k hk
      simp only [List.map_cons, List.map_nil, List.mem_singleton] at hk
      rw [hk, hlen2, hcast]
      exact le_max_right _ _
    · rw [hcast]
      by_cases hle : ((st.len n + 1 : Nat) : Int) ≤ m
      · left
        exact max_eq_left hle
      · right
        refine ⟨n, by simp, ?_⟩
        rw [hlen2]
        exact (max_eq_right (by omega)).symm

/-- The loop over the pairs of a record returns and has the effect `PairsPost`. -/
theorem applyPairs_spec {F : Type} (lib : QtLib F) (t : F) :
    ∀ (pairs : List (QString × F)) (st : DsoInput F) (m : Int), st.RegWF →
      ∃ st2 m2, applyPairs lib (some t) pairs (st, m) = some (st2, m2)
        ∧ st.SameFrame st2 ∧ PairsPost st m pairs st2 m2 := by
  intro pairs
  induction pairs with
  | nil =>
    intro st m hwf
    exact ⟨st, m, rfl, sameFrame_refl st, pairsPost_nil st m hwf⟩
  | cons pr rest ih =>
    intro st m hwf
    obtain ⟨n, v⟩ := pr
    obtain ⟨p, st1, sd, hget, hsd, hframe, hpost⟩ := applyPair_step lib t st m n v hwf
    obtain ⟨st2, m2, hrun, hframe2, hpost2⟩ := ih _ _ hpost.1
    have hcons : (n, v) :: rest = [(n, v)] ++ rest := rfl
    refine ⟨st2, m2, ?_, sameFrame_trans hframe hframe2, ?_⟩
    · rw [applyPairs]
      simp only [hget, hsd]
      exact hrun
    · rw [hcons]
      exact pairsPost_trans hpost hpost2

theorem parsedRecord_time {F : Type} (lib : QtLib F) (tokens : List QString)
    (h : (parsedRecord lib tokens).datas ≠ []) :
    ∃ t, (parsedRecord lib tokens).sampleTime = some t := by
  unfold parsedRecord at h ⊢
  cases h2 : tokens[2]? with
  | none => simp [h2] at h
  | some tk =>
    simp only [h2] at h ⊢
    split_ifs with hok
    · exact ⟨_, rfl⟩
    · simp [hok] at h

theorem applyPairs_nil {F : Type} (lib : QtLib F) (time : Option F)
    (acc : DsoInput F × Int) : applyPairs lib time [] acc = some acc := by
  rw [applyPairs]

/-- The processing of one line returns and has the effect of its pairs. -/
theorem processLine_spec {F : Type} (lib : QtLib F) (line : List Char) (st : DsoInput F)
    (m : Int) (hwf : st.RegWF) :
    ∃ st2 m2, processLine lib line (st, m) = some (st2, m2)
      ∧ st.SameFrame st2 ∧ PairsPost st m (linePairs lib line) st2 m2 := by
  unfold processLine
  unfold linePairs
  by_cases hflag : (isScopeData lib (lib.fromUtf8 line)).2 = true
  · simp only [hflag, if_true]
    rw [lexicalParser_eq]
    simp only [dataParser_eq]
    by_cases hnil : (parsedRecord lib
        (lexList lib (isScopeData lib (lib.fromUtf8 line)).1.length
          (isScopeData lib (lib.fromUtf8 line)).1)).datas = []
    · rw [hnil, applyPairs_nil]
      exact ⟨st, m, rfl, sameFrame_refl st, pairsPost_nil st m hwf⟩
    · obtain ⟨t, ht⟩ := parsedRecord_time lib _ hnil
      rw [ht]
      exact applyPairs_spec lib t _ st m hwf
  · have hf : (isScopeData lib (lib.fromUtf8 line)).2 = false := bool_eq_false_of_not hflag
    simp only [hf, Bool.false_eq_true, if_false]
    exact ⟨st, m, rfl, sameFrame_refl st, pairsPost_nil st m hwf⟩

/-- The pairs of a batch of lines, in file order. -/
theorem linesPairs_cons {F : Type} (lib : QtLib F) (line : List Char)
    (rest : List (List Char)) :
    (line :: rest).flatMap (linePairs lib) = linePairs lib line ++ rest.flatMap (linePairs lib) := by
  simp [List.flatMap_cons]

/-- The read loop on a batch of lines returns; its effect on the registry is that of
the pairs of the lines, the device position advances past the lines and the offset
follows it. -/
theorem processLines_spec {F : Type} (lib : QtLib F) :
    ∀ (lines : List (List Char)) (st : DsoInput F) (m : Int), st.RegWF →
      ∃ st2 m2, processLines lib lines (st, m) = some (st2, m2)
        ∧ st.SameConfig st2
        ∧ st2.filePos = st.filePos + lines.flatten.length
        ∧ st2.cacheFilePosition
            = (if lines = [] then st.cacheFilePosition
                else toInt32 ((st.filePos + lines.flatten.length : Nat) : Int))
        ∧ PairsPost st m (lines.flatMap (linePairs lib)) st2 m2 := by
  intro lines
  induction lines with
  | nil =>
    intro st m hwf
    exact ⟨st, m, rfl, ⟨rfl, rfl, rfl, rfl, rfl, rfl⟩, by simp, by simp,
      pairsPost_nil st m hwf⟩
  | cons line rest ih =>
    intro st m hwf
    rw [linesPairs_cons]
    obtain ⟨st1, m1, hrun1, hframe1, hpost1⟩ := processLine_spec lib line
      { st with
        filePos := st.filePos + line.length,
        cacheFilePosition := toInt32 ((st.filePos + line.length : Nat) : Int) } m hwf
    have hpost1' : PairsPost st m (linePairs lib line) st1 m1 := hpost1
    obtain ⟨st2, m2, hrun2, hconf2, hpos2, hcache2, hpost2⟩ := ih st1 m1 hpost1.1
    obtain ⟨f1, f2, f3, f4, f5, f6, f7, f8⟩ := hframe1
    obtain ⟨g1, g2, g3, g4, g5, g6⟩ := hconf2
    have f2' : st.filePos + line.length = st1.filePos := f2
    have f3' : toInt32 ((st.filePos + line.length : Nat) : Int) = st1.cacheFilePosition := f3
    refine ⟨st2, m2, ?_, ⟨f1.trans g1, f4.trans g2, f5.trans g3, f6.trans g4, f7.trans g5,
      f8.trans g6⟩, ?_, ?_, pairsPost_trans hpost1' hpost2⟩
    · rw [processLines, lineStep]
      simp only [hrun1]
      exact hrun2
    · rw [hpos2]
      simp only [List.flatten_cons, List.length_append]
      omega
    · have hsum : st1.filePos + rest.flatten.length
          = st.filePos + (line :: rest).flatten.length := by
        simp only [List.flatten_cons, List.length_append]
        omega
      rw [hcache2, if_neg (List.cons_ne_nil line rest)]
      split_ifs with hr
      · have hone : (line :: rest).flatten.length = line.length := by
          rw [hr]
          simp
        rw [hone]
        exact f3'.symm
      · rw [hsum]

/-! ### The read loop -/

theorem getLast_ne_newline (l : List Char) (h : '\n' ∉ l) :
    (l.getLast? != some '\n') = true := by
  cases hl : l.getLast? with
  | none => rfl
  | some x =>
    have hx : x ∈ l := List.mem_of_getLast?_eq_some hl
    have hne : x ≠ '\n' := fun e => h (e ▸ hx)
    simp [hne]

theorem with_filePos_self {F : Type} (st : DsoInput F) :
    ({ st with filePos := st.filePos } : DsoInput F) = st := rfl

/-- The read loop returns: it processes the complete lines found from the device
position on, and leaves the device at the end of the content. -/
theorem readLoop_spec {F : Type} (lib : QtLib F) (content : List Char) :
    ∀ (fuel : Nat) (st : DsoInput F) (m : Int), st.RegWF →
      content.length ≤ st.filePos + fuel →
      ∃ st2 m2,
        readLoop lib content fuel (st, m)
          = some ({ st2 with filePos := max st.filePos content.length }, m2)
        ∧ processLines lib (completeLines (content.drop st.filePos)) (st, m)
          = some (st2, m2) := by
  intro fuel
  induction fuel with
  | zero =>
    intro st m _ h
    have hc : ¬ (st.filePos < content.length) := by omega
    have hd : content.drop st.filePos = [] := List.drop_eq_nil_of_le (by omega)
    have hmax : max st.filePos content.length = st.filePos := max_eq_left (by omega)
    refine ⟨st, m, ?_, ?_⟩
    · rw [readLoop, if_neg hc, hmax]
    · rw [hd]
      rfl
  | succ n ih =>
    intro st m hwf h
    by_cases hc : st.filePos < content.length
    · have hmax : max st.filePos content.length = content.length := max_eq_right (by omega)
      rw [readLoop, if_pos hc]
      simp only [readLine]
      rcases split_at_newline (content.drop st.filePos) with hno | ⟨a, b, hab, ha⟩
      · have hlen : (content.drop st.filePos).length = content.length - st.filePos :=
          List.length_drop _ _
        refine ⟨st, m, ?_, ?_⟩
        · rw [takeLine_no_newline _ hno, if_pos (getLast_ne_newline _ hno), hlen, hmax]
          congr 3
          omega
        · rw [completeLines_no_newline _ hno]
          rfl
      · have hlast : ((a ++ ['\n']).getLast? != some '\n') = false := by simp
        have hlen : (content.drop st.filePos).length = a.length + 1 + b.length := by
          rw [hab]
          simp
          omega
        rw [List.length_drop] at hlen
        have hb : content.drop (st.filePos + (a ++ ['\n']).length) = b := by
          rw [← List.drop_drop, hab]
          simp
        obtain ⟨st1, m1, hrun1, hframe1, hpost1⟩ := processLine_spec lib (a ++ ['\n'])
          { st with
            filePos := st.filePos + (a ++ ['\n']).length,
            cacheFilePosition := toInt32 ((st.filePos + (a ++ ['\n']).length : Nat) : Int) }
          m hwf
        have hpos1 : st.filePos + (a ++ ['\n']).length = st1.filePos := hframe1.2.1
        have hfuel : content.length ≤ st1.filePos + n := by
          rw [← hpos1]
          simp only [List.length_append, List.length_singleton]
          omega
        obtain ⟨st2, m2, hloop, hlines⟩ := ih st1 m1 hpost1.1 hfuel
        have hmax1 : max st1.filePos content.length = content.length := by
          apply max_eq_right
          rw [← hpos1]
          simp only [List.length_append, List.length_singleton]
          omega
        refine ⟨st2, m2, ?_, ?_⟩
        · rw [hab, takeLine_newline a b ha]
          simp only [hlast, Bool.false_eq_true, if_false]
          rw [hrun1]
          simp only []
          rw [hloop, hmax1, hmax]
        · rw [hab, completeLines_newline a b ha, processLines, lineStep]
          simp only []
          rw [hrun1]
          simp only []
          rw [← hb, hpos1]
          exact hlines
    · have hd : content.drop st.filePos = [] := List.drop_eq_nil_of_le (by omega)
      have hmax : max st.filePos content.length = st.filePos := max_eq_left (by omega)
      refine ⟨st, m, ?_, ?_⟩
      · rw [readLoop, if_neg hc, hmax]
      · rw [hd]
        rfl

/-! ### Padding and snapshot -/

/-- The padding loop returns: the objects of the map are padded, the others untouched. -/
theorem padAll_spec {F : Type} (lib : QtLib F) (m : Int) (h0 : 0 ≤ m) (h1 : m < 2 ^ 31) :
    ∀ (entries : List (QString × Nat)) (heap : List (SampleData F)),
      (∀ e ∈ entries, e.2 < heap.length) → (entries.map Prod.snd).Nodup →
      ∃ heap2, padAll lib m entries heap = some heap2 ∧ heap2.length = heap.length
        ∧ (∀ q, q ∉ entries.map Prod.snd → heap2[q]? = heap[q]?)
        ∧ (∀ e ∈ entries, ∃ sd, heap[e.2]? = some sd
            ∧ heap2[e.2]? = some ⟨sd.name, padded lib m sd.data, sd.timeStamp⟩) := by
  intro entries
  induction entries with
  | nil =>
    intro heap _ _
    exact ⟨heap, rfl, rfl, fun _ _ => rfl, by simp⟩
  | cons e rest ih =>
    intro heap hlt hnd
    have he : e.2 < heap.length := hlt e (List.mem_cons_self _ _)
    have hsd : heap[e.2]? = some heap[e.2] := List.getElem?_eq_getElem he
    rw [List.map_cons, List.nodup_cons] at hnd
    obtain ⟨hfresh, hnd2⟩ := hnd
    have hlt2 : ∀ e2 ∈ rest, e2.2 < (heap.set e.2
        ⟨heap[e.2].name, padded lib m heap[e.2].data, heap[e.2].timeStamp⟩).length := by
      intro e2 he2
      rw [List.length_set]
      exact hlt e2 (List.mem_cons_of_mem _ he2)
    obtain ⟨heap2, hrun, hlen, hout, hin⟩ := ih _ hlt2 hnd2
    refine ⟨heap2, ?_, ?_, ?_, ?_⟩
    · rw [padAll]
      simp only [hsd, addEmptyData_eq lib heap[e.2] m h0 h1]
      exact hrun
    · rw [hlen, List.length_set]
    · intro q hq
      have hq1 : q ≠ e.2 := fun h => hq (by simp [h])
      have hq2 : q ∉ rest.map Prod.snd := fun h => hq (by
        simp only [List.map_cons, List.mem_cons]
        exact Or.inr h)
      rw [hout q hq2, List.getElem?_set_ne (Ne.symm hq1)]
    · intro e2 he2
      rcases List.mem_cons.mp he2 with h | h
      · rw [h]
        refine ⟨heap[e.2], hsd, ?_⟩
        rw [hout e.2 hfresh, List.getElem?_set_self he]
      · obtain ⟨sd, hsd2, hres⟩ := hin e2 h
        have hne : e.2 ≠ e2.2 := by
          intro heq
          exact hfresh (heq ▸ List.mem_map_of_mem Prod.snd h)
        rw [List.getElem?_set_ne hne] at hsd2
        exact ⟨sd, hsd2, hres⟩

theorem buffer_some_iff {F : Type} (st : DsoInput F) (hwf : st.RegWF) (k : QString) :
    (∃ b, st.buffer k = some b) ↔ st.sampleDatas.contains k = true := by
  constructor
  · rintro ⟨b, hb⟩
    cases hv : st.sampleDatas.value k with
    | none =>
      rw [buffer_eq_none_of_value st k hv] at hb
      exact absurd hb (by simp)
    | some p => exact contains_of_value _ k p hv
  · intro hc
    obtain ⟨p, hp⟩ := value_isSome_of_contains _ k hc
    have hlt := regwf_value_lt st hwf k p hp
    refine ⟨st.heap[p].data, ?_⟩
    rw [buffer_eq_of_value st k p hp, List.getElem?_eq_getElem hlt]
    rfl

/-- The registry after the padding loop: every registered buffer is padded. -/
theorem padAll_buffers {F : Type} (lib : QtLib F) (st : DsoInput F) (m : Int) (hwf : st.RegWF)
    (h0 : 0 ≤ m) (h1 : m < 2 ^ 31) :
    ∃ heap2, padAll lib m st.sampleDatas.entries st.heap = some heap2
      ∧ ({ st with heap := heap2 } : DsoInput F).RegWF
      ∧ ∀ k, ({ st with heap := heap2 } : DsoInput F).buffer k
          = (st.buffer k).map (padded lib m) := by
  obtain ⟨heap2, hrun, hlen, _, hin⟩ :=
    padAll_spec lib m h0 h1 st.sampleDatas.entries st.heap hwf.2.1 hwf.2.2
  refine ⟨heap2, hrun, ⟨hwf.1, ?_, hwf.2.2⟩, ?_⟩
  · intro e he
    show e.2 < heap2.length
    rw [hlen]
    exact hwf.2.1 e he
  · intro k
    unfold DsoInput.buffer
    simp only
    cases hv : st.sampleDatas.value k with
    | none => rfl
    | some p =>
      obtain ⟨sd, hsd, hres⟩ := hin (k, p) (value_mem _ k p hv)
      simp only [hsd, hres, Option.map_some']

theorem slotNames_cons_used (v : DsoSettingsScopeVoltage) (rest : List DsoSettingsScopeVoltage)
    (h1 : v.used = true) (h2 : v.selectedChannelName.isEmpty = false) :
    slotNames (v :: rest) = v.selectedChannelName :: slotNames rest := by
  unfold slotNames
  simp [List.filter_cons, h1, h2]

theorem slotNames_cons_skip (v : DsoSettingsScopeVoltage) (rest : List DsoSettingsScopeVoltage)
    (h : (v.used && !v.selectedChannelName.isEmpty) = false) :
    slotNames (v :: rest) = slotNames rest := by
  unfold slotNames
  simp only [List.filter_cons, h, Bool.false_eq_true, if_false]

theorem snapshotPost_refl {F : Type} (st : DsoInput F) (hwf : st.RegWF) :
    SnapshotPost st [] st :=
  ⟨hwf, fun _ _ h => h, fun _ h => Or.inl h, by simp [slotNames], fun _ => ⟨rfl, rfl⟩,
    rfl, rfl, rfl, rfl, rfl, rfl, rfl, rfl⟩

theorem drop_take_succ {α : Type} (vs : List α) (channel n : Nat) (h : channel < vs.length) :
    (vs.drop channel).take (n + 1) = vs[channel] :: (vs.drop (channel + 1)).take n := by
  rw [List.drop_eq_getElem_cons h, List.take_succ_cons]

/-- The loop over the configured channels returns and has the effect `SnapshotPost`. -/
theorem snapshotLoop_spec {F : Type} (lib : QtLib F) (mc : Nat)
    (vs : List DsoSettingsScopeVoltage) :
    ∀ (n channel : Nat) (st : DsoInput F), st.RegWF →
      st.dsoSettings.map (fun s => (s.maxChannels, s.voltage)) = some (mc, vs) →
      channel + n ≤ vs.length → channel + n ≤ st.resultData.length →
      ∃ st2, snapshotLoop lib n channel st = some st2
        ∧ SnapshotPost st ((vs.drop channel).take n) st2 := by
  intro n
  induction n with
  | zero =>
    intro channel st hwf _ _ _
    refine ⟨st, rfl, ?_⟩
    rw [List.take_zero]
    exact snapshotPost_refl st hwf
  | succ n ih =>
    intro channel st hwf hs hv hr
    have hch : channel < vs.length := by omega
    cases hset : st.dsoSettings with
    | none =>
      rw [hset] at hs
      exact absurd hs (by simp)
    | some s =>
      have hvs : s.voltage = vs := by
        rw [hset] at hs
        simp only [Option.map_some', Option.some.injEq, Prod.mk.injEq] at hs
        exact hs.2
      have hvc : s.voltage[channel]? = some vs[channel] := by
        rw [hvs]
        exact List.getElem?_eq_getElem hch
      rw [drop_take_succ vs channel n hch, snapshotLoop]
      simp only [hset, hvc]
      by_cases hu : vs[channel].used = true
      · by_cases hne : vs[channel].selectedChannelName.isEmpty = false
        · simp only [hu, hne, if_true, Bool.not_false]
          obtain ⟨p, st1, sd, hget, hwf1, hframe, hval, hsd, hdata, hother, _⟩ :=
            getSampleData_buffer lib st vs[channel].selectedChannelName hwf
          obtain ⟨f1, f2, f3, f4, f5, f6, f7, f8⟩ := hframe
          have hb1 : st1.buffer vs[channel].selectedChannelName = some sd.data := by
            rw [buffer_eq_of_value st1 _ p hval, hsd]
            rfl
          have hlt : channel < st1.resultData.length := by
            rw [← f7]
            omega
          obtain ⟨st2, hrun, hpost⟩ := ih (channel + 1)
            { st1 with resultData := st1.resultData.set channel (some p) } hwf1
            (by rw [← hs]; exact f8.symm)
            (by omega)
            (by
              show channel + 1 + n ≤ (st1.resultData.set channel (some p)).length
              rw [List.length_set, ← f7]
              omega)
          obtain ⟨q1, q2, q3, q4, q5, q6, q7, q8, q9, q10, q11, q12, q13⟩ := hpost
          refine ⟨st2, ?_, q1, ?_, ?_, ?_, ?_, q6.trans f1.symm, q7.trans f2.symm,
            q8.trans f3.symm, q9.trans f4.symm, q10.trans f5.symm, q11.trans f6.symm, ?_,
            q13.trans f8.symm⟩
          · simp only [hget, hlt, if_true]
            exact hrun
          · intro k b hb
            apply q2
            by_cases hk : k = vs[channel].selectedChannelName
            · rw [hk] at hb ⊢
              show st1.buffer vs[channel].selectedChannelName = some b
              rw [hb1, hdata, hb]
              rfl
            · show st1.buffer k = some b
              rw [hother k hk]
              exact hb
          · intro k hb
            by_cases hk : k = vs[channel].selectedChannelName
            · right
              rw [hk] at hb ⊢
              apply q2
              show st1.buffer vs[channel].selectedChannelName = some []
              rw [hb1, hdata, hb]
              rfl
            · apply q3
              show st1.buffer k = none
              rw [hother k hk]
              exact hb
          · intro k hk
            rw [slotNames_cons_used _ _ hu hne] at hk
            rcases List.mem_cons.mp hk with h | h
            · rw [h]
              exact ⟨sd.data, q2 _ _ hb1⟩
            · exact q4 k h
          · intro hall
            rw [slotNames_cons_used _ _ hu hne] at hall
            have hreg := (buffer_some_iff st hwf _).mp (hall _ (List.mem_cons_self _ _))
            obtain ⟨p2, _, hget2⟩ := getSampleData_of_old lib st _ hreg
            rw [hget2] at hget
            have hst : st = st1 := by
              have := Option.some.inj hget
              exact congrArg Prod.snd this
            have := q5 (by
              intro k hk
              show ∃ b, st1.buffer k = some b
              rw [← hst]
              exact hall k (List.mem_cons_of_mem _ hk))
            rw [hst]
            exact this
          · rw [q12]
            show (st1.resultData.set channel (some p)).length = st.resultData.length
            rw [List.length_set, f7]
        · have hne2 : vs[channel].selectedChannelName.isEmpty = true := by
            cases h : vs[channel].selectedChannelName.isEmpty
            · exact absurd h hne
            · rfl
          simp only [hu, hne2, if_true, Bool.not_true, Bool.false_eq_true, if_false]
          obtain ⟨st2, hrun, hpost⟩ := ih (channel + 1) st hwf hs (by omega) (by omega)
          refine ⟨st2, hrun, ?_⟩
          rw [SnapshotPost, slotNames_cons_skip _ _ (by simp [hne2])]
          exact hpost
      · have hu2 : vs[channel].used = false := bool_eq_false_of_not hu
        simp only [hu2, Bool.false_eq_true, if_false]
        obtain ⟨st2, hrun, hpost⟩ := ih (channel + 1) st hwf hs (by omega) (by omega)
        refine ⟨st2, hrun, ?_⟩
        rw [SnapshotPost, slotNames_cons_skip _ _ (by simp [hu2])]
        exact hpost

/-! ### One tick -/

theorem resizeResult_length (data : List (Option Nat)) (n : Nat) :
    (resizeResult data n).length = n := by
  unfold resizeResult
  simp only [List.length_take, List.length_append, List.length_replicate]
  omega

/-- The state after `open` and `seek`: the registry and the settings are untouched, the
offset is kept, the device stands at the offset. -/
theorem openSeek_spec {F : Type} (st : DsoInput F) (file : Option (List Char))
    (hcur : st.CursorWF) :
    (seekFile (openFile st file)).sampleDatas = st.sampleDatas
      ∧ (seekFile (openFile st file)).heap = st.heap
      ∧ (seekFile (openFile st file)).dsoSettings = st.dsoSettings
      ∧ (seekFile (openFile st file)).capturing = st.capturing
      ∧ (seekFile (openFile st file)).cacheFilePosition = st.cacheFilePosition
      ∧ (seekFile (openFile st file)).resultData.length = 4
      ∧ (seekFile (openFile st file)).currFileReadable = (st.currFileReadable || file.isSome)
      ∧ ((seekFile (openFile st file)).currFileReadable = true →
          (seekFile (openFile st file)).filePos = st.cacheFilePosition.toNat)
      ∧ ((seekFile (openFile st file)).currFileReadable = false →
          visibleContent (seekFile (openFile st file)) file = []) := by
  obtain ⟨h0, h1, h2⟩ := hcur
  cases hr : st.currFileReadable with
  | true =>
    have hl := h2 hr
    simp [openFile, seekFile, hr, h0, hl]
  | false =>
    have hz := h1 hr
    cases file with
    | none => simp [openFile, seekFile, hr, hz, resizeResult_length, visibleContent]
    | some c => simp [openFile, seekFile, hr, hz, resizeResult_length]

/-- A tick is the tick on its batch of complete lines. -/
theorem restartSampling_eq_tickOnBatch {F : Type} (lib : QtLib F) (st : DsoInput F)
    (file : Option (List Char)) (hwf : st.RegWF) (hcur : st.CursorWF) :
    st.restartSampling lib file = tickOnBatch lib st file (tickLines st file) := by
  unfold DsoInput.restartSampling tickOnBatch tickLines
  by_cases hcap : st.capturing = true
  · simp only [hcap, Bool.not_true, Bool.false_eq_true, if_false]
    obtain ⟨e1, e2, _⟩ := openSeek_spec st file hcur
    have hwf2 : (seekFile (openFile st file)).RegWF := by
      unfold DsoInput.RegWF
      rw [e1, e2]
      exact hwf
    obtain ⟨st3, m, hloop, hlines⟩ := readLoop_spec lib
      (visibleContent (seekFile (openFile st file)) file)
      ((visibleContent (seekFile (openFile st file)) file).length + 1)
      (seekFile (openFile st file)) 0 hwf2 (by omega)
    rw [hloop, hlines]
    rfl
  · have hf : st.capturing = false := bool_eq_false_of_not hcap
    simp only [hf, Bool.not_false, if_true]

theorem set_same {α : Type} (l : List α) (i : Nat) (a : α) (h : l[i]? = some a) :
    l.set i a = l := by
  apply List.ext_getElem?
  intro j
  by_cases hj : i = j
  · subst hj
    have hlt : i < l.length := by
      by_contra hc
      rw [List.getElem?_eq_none (by omega)] at h
      exact absurd h (by simp)
    rw [List.getElem?_set_self hlt, h]
  · rw [List.getElem?_set_ne hj]

theorem padded_zero {F : Type} (lib : QtLib F) (data : List F) : padded lib 0 data = data := by
  unfold padded
  have h : (0 - 1 - (data.length : Int)).toNat = 0 := by omega
  rw [h]
  simp

/-- With the target `0` the padding loop changes nothing. -/
theorem padAll_zero {F : Type} (lib : QtLib F) :
    ∀ (entries : List (QString × Nat)) (heap : List (SampleData F)),
      (∀ e ∈ entries, e.2 < heap.length) → padAll lib 0 entries heap = some heap := by
  intro entries
  induction entries with
  | nil =>
    intro heap _
    rfl
  | cons e rest ih =>
    intro heap hlt
    have he : e.2 < heap.length := hlt e (List.mem_cons_self _ _)
    have hsd : heap[e.2]? = some heap[e.2] := List.getElem?_eq_getElem he
    rw [padAll]
    simp only [hsd, addEmptyData_eq lib heap[e.2] 0 (le_refl 0) (by decide), padded_zero]
    rw [set_same heap e.2 _ hsd]
    exact ih heap (fun e2 he2 => hlt e2 (List.mem_cons_of_mem _ he2))

/-- The end of a tick returns: it pads every registered buffer, registers the selected
names with empty buffers, and keeps the offset. -/
theorem finishTick_spec {F : Type} (lib : QtLib F) (st : DsoInput F) (m : Int)
    (s : DsoSettingsScope) (hwf : st.RegWF) (h0 : 0 ≤ m) (h1 : m < 2 ^ 31)
    (hs : st.dsoSettings = some s) (hv : s.maxChannels ≤ s.voltage.length)
    (hr : s.maxChannels ≤ st.resultData.length) :
    ∃ st5 : DsoInput F, finishTick lib (st, m) = some st5.published
      ∧ FinishPost lib s st m st5 := by
  unfold FinishPost
  obtain ⟨heap2, hpad, hwf2, hbuf⟩ := padAll_buffers lib st m hwf h0 h1
  have hcore : ({ st with heap := heap2 } : DsoInput F).dsoSettings.map
      (fun s => (s.maxChannels, s.voltage)) = some (s.maxChannels, s.voltage) := by
    show st.dsoSettings.map (fun s => (s.maxChannels, s.voltage)) = _
    rw [hs]
    rfl
  obtain ⟨st5, hrun, hpost⟩ := snapshotLoop_spec lib s.maxChannels s.voltage s.maxChannels 0
    { st with heap := heap2 } hwf2 hcore (by omega) (by
      show 0 + s.maxChannels ≤ st.resultData.length
      omega)
  rw [List.drop_zero] at hpost
  obtain ⟨q1, q2, q3, q4, q5, q6, q7, q8, _, q10, _, q12, q13⟩ := hpost
  refine ⟨st5, ?_, q1, ?_, ?_, q4, ?_, q6, q7, q8, q10, q12, q13.trans hcore⟩
  · unfold finishTick
    simp only [hpad, hs]
    rw [hs] at hrun
    simp only [hrun]
  · intro k b hb
    apply q2
    rw [hbuf k, hb]
    rfl
  · intro k hb
    apply q3
    rw [hbuf k, hb]
    rfl
  · intro hm hall
    have hz : padAll lib 0 st.sampleDatas.entries st.heap = some st.heap :=
      padAll_zero lib _ _ hwf.2.1
    rw [hm, hz] at hpad
    have hh : heap2 = st.heap := (Option.some.inj hpad).symm
    have := q5 (by
      intro k hk
      obtain ⟨b, hb⟩ := hall k hk
      refine ⟨padded lib m b, ?_⟩
      rw [hbuf k, hb]
      rfl)
    rw [hh] at this
    exact this

theorem sameConfig_settings {F : Type} {a b : DsoInput F} (h : a.SameConfig b)
    (s : DsoSettingsScope) (hs : a.dsoSettings = some s) :
    ∃ s2, b.dsoSettings = some s2 ∧ s2.maxChannels = s.maxChannels ∧ s2.voltage = s.voltage := by
  have h6 := h.2.2.2.2.2
  rw [hs] at h6
  cases hb : b.dsoSettings with
  | none =>
    rw [hb] at h6
    exact absurd h6 (by simp)
  | some s2 =>
    rw [hb] at h6
    simp only [Option.map_some', Option.some.injEq, Prod.mk.injEq] at h6
    exact ⟨s2, rfl, h6.1.symm, h6.2.symm⟩

/-- One tick, step by step: the batch is processed from the state after `seek`, then the
tick ends from the state reached, with the device at the end of the content. -/
theorem tick_run {F : Type} (lib : QtLib F) (st : DsoInput F) (file : Option (List Char))
    (s : DsoSettingsScope) (hcap : st.capturing = true) (hwf : st.RegWF)
    (hcur : st.CursorWF) (hs : st.dsoSettings = some s)
    (hv : s.maxChannels ≤ s.voltage.length) (h4 : s.maxChannels ≤ 4) :
    ∃ (st3 : DsoInput F) (m : Int) (st5 : DsoInput F) (pos : Nat),
      processLines lib (tickLines st file) (seekFile (openFile st file), 0) = some (st3, m)
      ∧ st.restartSampling lib file = some st5.published
      ∧ 0 ≤ m ∧ m < 2 ^ 31
      ∧ PairsPost (seekFile (openFile st file)) 0
          ((tickLines st file).flatMap (linePairs lib)) st3 m
      ∧ st3.cacheFilePosition
          = (if tickLines st file = [] then st.cacheFilePosition
              else toInt32 (((seekFile (openFile st file)).filePos
                + (tickLines st file).flatten.length : Nat) : Int))
      ∧ st3.currFileReadable = (st.currFileReadable || file.isSome)
      ∧ st3.capturing = true
      ∧ FinishPost lib s (st3.setPos pos) m st5 := by
  obtain ⟨e1, e2, e3, e4, e5, e6, e7, _, _⟩ := openSeek_spec st file hcur
  have hwf2 : (seekFile (openFile st file)).RegWF := by
    unfold DsoInput.RegWF
    rw [e1, e2]
    exact hwf
  obtain ⟨st3, m, hrun, hconf, _, hcache, hpost⟩ :=
    processLines_spec lib (tickLines st file) (seekFile (openFile st file)) 0 hwf2
  obtain ⟨s2, hs2, hmc, hvolt⟩ := sameConfig_settings hconf s (by rw [e3]; exact hs)
  obtain ⟨c1, _, c3, _, c5, _⟩ := hconf
  have hm0 : 0 ≤ m := hpost.2.2.1
  have hm1 : m < 2 ^ 31 := hpost.2.2.2.1 (by decide)
  obtain ⟨st5, hfin, hfp⟩ := finishTick_spec lib
    (st3.setPos (max (seekFile (openFile st file)).filePos
      (visibleContent (seekFile (openFile st file)) file).length)) m s2 hpost.1 hm0 hm1 hs2
    (by rw [hmc, hvolt]; exact hv)
    (by
      show s2.maxChannels ≤ st3.resultData.length
      rw [hmc, ← c5, e6]
      exact h4)
  refine ⟨st3, m, st5, max (seekFile (openFile st file)).filePos
    (visibleContent (seekFile (openFile st file)) file).length,
    hrun, ?_, hm0, hm1, hpost, ?_, ?_, ?_, ?_⟩
  · rw [restartSampling_eq_tickOnBatch lib st file hwf hcur]
    unfold tickOnBatch
    simp only [hcap, Bool.not_true, Bool.false_eq_true, if_false, hrun]
    exact hfin
  · rw [hcache, e5]
  · rw [← c1, e7]
  · rw [← c3, e4]
    exact hcap
  · unfold FinishPost at hfp ⊢
    rw [hmc, hvolt] at hfp
    exact hfp

/-! ### The claims on a tick -/

theorem valuesOf_length_le {F : Type} (k : QString) (pairs : List (QString × F)) :
    (valuesOf k pairs).length ≤ pairs.length := by
  unfold valuesOf
  rw [List.length_map]
  exact List.length_filter_le _ _

theorem valuesOf_ne_nil {F : Type} (k : QString) (pairs : List (QString × F))
    (h : k ∈ pairs.map Prod.fst) : 0 < (valuesOf k pairs).length := by
  induction pairs with
  | nil => simp at h
  | cons pr rest ih =>
    obtain ⟨n, v⟩ := pr
    by_cases hk : k = n
    · rw [hk, valuesOf_cons_same]
      simp
    · rw [valuesOf_cons_other k n v rest hk]
      apply ih
      simp only [List.map_cons, List.mem_cons] at h
      rcases h with h | h
      · exact absurd h hk
      · exact h

theorem extendBuffer_of_registered {F : Type} (b : Option (List F)) (vs : List F)
    (h : (∃ x, b = some x) ∨ 0 < vs.length) : extendBuffer b vs = some (b.getD [] ++ vs) := by
  cases vs with
  | nil =>
    rcases h with ⟨x, hx⟩ | h
    · rw [hx]
      simp [extendBuffer]
    · simp at h
  | cons v vs => rfl

theorem openSeek_buffer {F : Type} (st : DsoInput F) (file : Option (List Char))
    (hcur : st.CursorWF) (k : QString) :
    (seekFile (openFile st file)).buffer k = st.buffer k := by
  obtain ⟨e1, e2, _⟩ := openSeek_spec st file hcur
  unfold DsoInput.buffer
  rw [e1, e2]

/-- C3 (as amended). One tick returns, and for every channel that is registered when
the padding runs (registered before the tick, or named by a pair of a line of the
batch) the buffer after the tick is the buffer before it, followed by the values of
the channel in the parsed records of the batch in file order, followed by
`max(0, maxSize - 1 - length)` copies of its then-last value (`0` if empty); `maxSize`
is the largest length reached by a channel that received a sample, `0` if there is
none. -/
theorem tick_buffers {F : Type} (lib : QtLib F) (st : DsoInput F) (file : Option (List Char))
    (hcap : st.capturing = true) (hwf : st.RegWF) (hcur : st.CursorWF)
    (hconf : st.Configured)
    (hb : SizeBound st ((tickLines st file).flatMap (linePairs lib))) :
    ∃ (st1 : DsoInput F) (maxSize : Int), st.restartSampling lib file = some st1
      ∧ (∀ k ∈ ((tickLines st file).flatMap (linePairs lib)).map Prod.fst,
          ((st.len k + (valuesOf k ((tickLines st file).flatMap (linePairs lib))).length : Nat)
            : Int) ≤ maxSize)
      ∧ ((tickLines st file).flatMap (linePairs lib) = [] → maxSize = 0)
      ∧ ((tickLines st file).flatMap (linePairs lib) ≠ [] →
          ∃ k ∈ ((tickLines st file).flatMap (linePairs lib)).map Prod.fst,
            ((st.len k + (valuesOf k ((tickLines st file).flatMap (linePairs lib))).length
              : Nat) : Int) = maxSize)
      ∧ (∀ k, (st.sampleDatas.contains k = true
            ∨ k ∈ ((tickLines st file).flatMap (linePairs lib)).map Prod.fst) →
          st1.buffer k = some (padded lib maxSize
            ((st.buffer k).getD []
              ++ valuesOf k ((tickLines st file).flatMap (linePairs lib))))) := by
  obtain ⟨s, hs, hv, h4⟩ := hconf
  obtain ⟨st3, m, st5, pos, _, htick, _, _, hpost, _, _, _, hfin⟩ :=
    tick_run lib st file s hcap hwf hcur hs hv h4
  generalize (tickLines st file).flatMap (linePairs lib) = pairs at hb hpost ⊢
  have hlen2 : ∀ k, (seekFile (openFile st file)).len k = st.len k := by
    intro k
    unfold DsoInput.len
    rw [openSeek_buffer st file hcur k]
  have hb2 : SizeBound (seekFile (openFile st file)) pairs := by
    intro k
    rw [hlen2 k]
    exact hb k
  have hlen3 : ∀ k, st3.len k = st.len k + (valuesOf k pairs).length := by
    intro k
    rw [pairsPost_len hpost k, hlen2 k]
  obtain ⟨_, hbuf, _, _, hmax⟩ := hpost
  obtain ⟨hub, hatt⟩ := hmax hb2
  refine ⟨st5.published, m, htick, ?_, ?_, ?_, ?_⟩
  · intro k hk
    rw [← hlen3 k]
    exact hub k hk
  · intro hnil
    rw [hnil] at hatt
    rcases hatt with h | ⟨k, hk, _⟩
    · exact h
    · simp at hk
  · intro hne
    rcases hatt with h | ⟨k, hk, hkm⟩
    · exfalso
      obtain ⟨pr, rest, hpr⟩ := List.exists_cons_of_ne_nil hne
      have hk : pr.1 ∈ pairs.map Prod.fst := by
        rw [hpr, List.map_cons]
        exact List.mem_cons_self _ _
      have h1 := hub pr.1 hk
      have h2 := valuesOf_ne_nil pr.1 pairs hk
      have h3 := hlen3 pr.1
      omega
    · exact ⟨k, hk, by rw [← hlen3 k]; exact hkm⟩
  · intro k hk
    have hreg : (∃ x, st.buffer k = some x) ∨ 0 < (valuesOf k pairs).length := by
      rcases hk with h | h
      · exact Or.inl ((buffer_some_iff st hwf k).mpr h)
      · exact Or.inr (valuesOf_ne_nil k pairs h)
    have h3 : (st3.setPos pos).buffer k = some ((st.buffer k).getD [] ++ valuesOf k pairs) := by
      show st3.buffer k = _
      rw [hbuf k, openSeek_buffer st file hcur k]
      exact extendBuffer_of_registered _ _ hreg
    exact hfin.2.1 k _ h3

theorem init_wf (F : Type) (settings : Option DsoSettingsScope) :
    (DsoInput.init F settings).RegWF ∧ (DsoInput.init F settings).CursorWF := by
  refine ⟨⟨List.Pairwise.nil, ?_, List.nodup_nil⟩, le_refl _, fun _ => rfl, ?_⟩
  · intro e he
    exact absurd he (List.not_mem_nil e)
  · intro h
    exact absurd h Bool.false_ne_true

theorem init_sizeBound (F : Type) (settings : Option DsoSettingsScope)
    (pairs : List (QString × F)) (h : pairs.length < 2 ^ 31) :
    SizeBound (DsoInput.init F settings) pairs := by
  intro k
  have h1 := valuesOf_length_le k pairs
  have h2 : (DsoInput.init F settings).len k = 0 := rfl
  omega

/-- C3, witness of the amended statement: from the empty registry, the two lines of the
specification leave `A = [1.0]` and `B = [2.0]`. -/
theorem tick_buffers_witness :
    (∃ (st1 : DsoInput Fx) (maxSize : Int),
      (DsoInput.init Fx (some exampleSettings)).restartSampling refLib (some exampleLog)
        = some st1
      ∧ (∀ k ∈ ((tickLines (DsoInput.init Fx (some exampleSettings))
              (some exampleLog)).flatMap (linePairs refLib)).map Prod.fst,
          (((DsoInput.init Fx (some exampleSettings)).len k
            + (valuesOf k ((tickLines (DsoInput.init Fx (some exampleSettings))
                (some exampleLog)).flatMap (linePairs refLib))).length : Nat) : Int) ≤ maxSize)
      ∧ ((tickLines (DsoInput.init Fx (some exampleSettings))
            (some exampleLog)).flatMap (linePairs refLib) = [] → maxSize = 0)
      ∧ ((tickLines (DsoInput.init Fx (some exampleSettings))
            (some exampleLog)).flatMap (linePairs refLib) ≠ [] →
          ∃ k ∈ ((tickLines (DsoInput.init Fx (some exampleSettings))
              (some exampleLog)).flatMap (linePairs refLib)).map Prod.fst,
            (((DsoInput.init Fx (some exampleSettings)).len k
              + (valuesOf k ((tickLines (DsoInput.init Fx (some exampleSettings))
                  (some exampleLog)).flatMap (linePairs refLib))).length : Nat) : Int) = maxSize)
      ∧ (∀ k, ((DsoInput.init Fx (some exampleSettings)).sampleDatas.contains k = true
            ∨ k ∈ ((tickLines (DsoInput.init Fx (some exampleSettings))
                (some exampleLog)).flatMap (linePairs refLib)).map Prod.fst) →
          st1.buffer k = some (padded refLib maxSize
            (((DsoInput.init Fx (some exampleSettings)).buffer k).getD []
              ++ valuesOf k ((tickLines (DsoInput.init Fx (some exampleSettings))
                  (some exampleLog)).flatMap (linePairs refLib))))))
    ∧ ((DsoInput.init Fx (some exampleSettings)).restartSampling refLib (some exampleLog)).map
        (fun st1 => (st1.buffer "A".toList, st1.buffer "B".toList))
      = some (some [⟨1, 1⟩], some [⟨2, 1⟩]) :=
  ⟨tick_buffers refLib (DsoInput.init Fx (some exampleSettings)) (some exampleLog) (by decide)
      (init_wf Fx _).1 (init_wf Fx _).2 ⟨exampleSettings, rfl, by decide, by decide⟩
      (init_sizeBound Fx _ _ (by decide)),
    by decide⟩

/-- C3, counterexample to the claim as stated: with slot 0 selecting `X`, a tick over
two records of `A` leaves `A = [1.0, 2.0]`, so `maxSize = 2`, and registers `X` with
an empty buffer, although prior samples (none), values (none) and `2 - 1 - 0` copies
of `0` would be `[0]`. -/
theorem tick_buffers_counterexample :
    ((DsoInput.init Fx (some snapshotSettings)).restartSampling refLib (some exampleLogA)).map
        (fun st1 => (st1.buffer "A".toList, st1.buffer "X".toList))
      = some (some [⟨1, 1⟩, ⟨2, 1⟩], some [])
    ∧ padded refLib 2 (([] : List Fx) ++ []) = [⟨0, 1⟩]
    ∧ ([] : List Fx) ≠ padded refLib 2 (([] : List Fx) ++ []) := by
  decide

/-! ### The device position does not influence the end of a tick -/

theorem getSampleData_setPos {F : Type} (lib : QtLib F) (st : DsoInput F) (x : Nat)
    (name : QString) :
    (st.setPos x).GetSampleData lib name
      = (st.GetSampleData lib name).map (fun r => (r.1, r.2.setPos x)) := by
  unfold DsoInput.GetSampleData DsoInput.setPos
  simp only
  cases hc : st.sampleDatas.contains name with
  | true =>
    simp only [if_true]
    cases hv : st.sampleDatas.value name with
    | none => rfl
    | some p => rfl
  | false =>
    simp only [Bool.false_eq_true, if_false]
    cases hs : st.dsoSettings with
    | none => rfl
    | some s => rfl

theorem snapshotLoop_setPos {F : Type} (lib : QtLib F) (x : Nat) :
    ∀ (n channel : Nat) (st : DsoInput F),
      snapshotLoop lib n channel (st.setPos x)
        = (snapshotLoop lib n channel st).map (fun r => r.setPos x) := by
  intro n
  induction n with
  | zero =>
    intro channel st
    rfl
  | succ n ih =>
    intro channel st
    rw [snapshotLoop, snapshotLoop]
    have hset : (st.setPos x).dsoSettings = st.dsoSettings := rfl
    rw [hset]
    cases hs : st.dsoSettings with
    | none => rfl
    | some s =>
      simp only
      cases hv : s.voltage[channel]? with
      | none => rfl
      | some v =>
        simp only
        by_cases hu : v.used = true
        · by_cases hne : v.selectedChannelName.isEmpty = true
          · simp only [hu, hne, if_true, Bool.not_true, Bool.false_eq_true, if_false]
            exact ih (channel + 1) st
          · have hne2 : v.selectedChannelName.isEmpty = false := bool_eq_false_of_not hne
            simp only [hu, hne2, if_true, Bool.not_false]
            rw [getSampleData_setPos]
            cases hg : st.GetSampleData lib v.selectedChannelName with
            | none => rfl
            | some r =>
              obtain ⟨p, st1⟩ := r
              simp only [Option.map_some']
              have hlen : (st1.setPos x).resultData.length = st1.resultData.length := rfl
              rw [hlen]
              by_cases hlt : channel < st1.resultData.length
              · simp only [hlt, if_true]
                exact ih (channel + 1) { st1 with resultData := st1.resultData.set channel (some p) }
              · simp only [hlt, if_false]
                rfl
        · have hu2 : v.used = false := bool_eq_false_of_not hu
          simp only [hu2, Bool.false_eq_true, if_false]
          exact ih (channel + 1) st

theorem finishTick_setPos {F : Type} (lib : QtLib F) (st : DsoInput F) (m : Int) (x : Nat) :
    finishTick lib (st.setPos x, m) = (finishTick lib (st, m)).map (fun r => r.setPos x) := by
  obtain ⟨ds, sds, heap, rd, fp, cache, bq, cap, ai, res, em⟩ := st
  unfold finishTick DsoInput.setPos
  simp only
  cases hp : padAll lib m sds.entries heap with
  | none => rfl
  | some heap4 =>
    simp only
    cases ds with
    | none => rfl
    | some s =>
      simp only
      have key := snapshotLoop_setPos lib x s.maxChannels 0
        ⟨some s, sds, heap4, rd, fp, cache, bq, cap, ai, res, em⟩
      unfold DsoInput.setPos at key
      simp only at key
      rw [key]
      cases hl : snapshotLoop lib s.maxChannels 0
          ⟨some s, sds, heap4, rd, fp, cache, bq, cap, ai, res, em⟩ with
      | none => rfl
      | some st5 => rfl

theorem setPos_setPos {F : Type} (st : DsoInput F) (x y : Nat) :
    (st.setPos x).setPos y = st.setPos y := rfl

/-- The batch of a tick does not change when a segment without newline is appended to
the file. -/
theorem tickLines_tail {F : Type} (st : DsoInput F) (content tail : List Char)
    (htail : '\n' ∉ tail) :
    tickLines st (some (content ++ tail)) = tickLines st (some content) := by
  unfold tickLines
  have hopen : openFile st (some (content ++ tail)) = openFile st (some content) := rfl
  rw [hopen]
  generalize seekFile (openFile st (some content)) = st2
  unfold visibleContent
  cases hr : st2.currFileReadable with
  | false => simp
  | true =>
    simp only [if_true, Option.getD_some]
    by_cases hle : st2.filePos ≤ content.length
    · rw [List.drop_append_of_le_length hle]
      exact completeLines_append_no_newline _ _ htail
    · rw [List.drop_eq_nil_of_le (show content.length ≤ st2.filePos by omega),
        List.drop_append_eq_append_drop,
        List.drop_eq_nil_of_le (show content.length ≤ st2.filePos by omega), List.nil_append]
      apply completeLines_no_newline
      intro hm
      exact htail (List.mem_of_mem_drop hm)

theorem completeLines_getLast_aux (n : Nat) :
    ∀ l : List Char, l.length ≤ n → completeLines l ≠ [] →
      (completeLines l).flatten.getLast? = some '\n' := by
  induction n with
  | zero =>
    intro l hl hne
    have hnil : l = [] := List.length_eq_zero.mp (by omega)
    subst hnil
    exact absurd rfl hne
  | succ n ih =>
    intro l hl hne
    rcases split_at_newline l with h | ⟨a, b, hab, ha⟩
    · exact absurd (completeLines_no_newline l h) hne
    · have hlen : b.length ≤ n := by
        rw [hab] at hl
        simp only [List.length_append, List.length_cons] at hl
        omega
      rw [hab, completeLines_newline a b ha, List.flatten_cons]
      by_cases hb : completeLines b = []
      · rw [hb]
        simp
      · have h1 := ih b hlen hb
        have hne2 : (completeLines b).flatten ≠ [] := by
          intro h2
          rw [h2] at h1
          exact absurd h1 (by simp)
        rw [List.getLast?_append_of_ne_nil _ hne2]
        exact h1

/-- The last byte of a non-empty batch of complete lines is a newline. -/
theorem completeLines_getLast (l : List Char) (h : completeLines l ≠ []) :
    (completeLines l).flatten.getLast? = some '\n' :=
  completeLines_getLast_aux l.length l (le_refl _) h

theorem flatten_length_pos_of_getLast {l : List Char} (h : l.getLast? = some '\n') :
    0 < l.length := by
  cases l with
  | nil => simp at h
  | cons c cs => simp

/-- After the complete lines from `off` are consumed, the byte before the new offset is
a newline and no newline follows. -/
theorem offset_after_lines (content : List Char) (off : Nat)
    (h : completeLines (content.drop off) ≠ []) :
    0 < (completeLines (content.drop off)).flatten.length
      ∧ off + (completeLines (content.drop off)).flatten.length ≤ content.length
      ∧ content[off + (completeLines (content.drop off)).flatten.length - 1]? = some '\n'
      ∧ ∀ i, off + (completeLines (content.drop off)).flatten.length ≤ i →
          content[i]? ≠ some '\n' := by
  obtain ⟨r, hr1, hr2, hr3⟩ := completeLines_drop_flatten (content.drop off)
  have hlast := completeLines_getLast _ h
  have hpos := flatten_length_pos_of_getLast hlast
  generalize (completeLines (content.drop off)).flatten = J at hr1 hr3 hlast hpos ⊢
  have hlen : (content.drop off).length = J.length + r.length := by
    rw [hr3, List.length_append]
  rw [List.length_drop] at hlen
  have hoff : off ≤ content.length := by omega
  refine ⟨hpos, by omega, ?_, ?_⟩
  · have h1 : content[off + (J.length - 1)]? = (content.drop off)[J.length - 1]? := by
      rw [List.getElem?_drop]
    have h2 : off + J.length - 1 = off + (J.length - 1) := by omega
    rw [h2, h1, hr3, List.getElem?_append_left (by omega)]
    rw [List.getLast?_eq_getElem?] at hlast
    exact hlast
  · intro i hi hc
    have h1 : content[i]? = r[i - (off + J.length)]? := by
      have h2 : i = off + J.length + (i - (off + J.length)) := by omega
      have h3 : content.drop (off + J.length) = r := by
        rw [← List.drop_drop, hr1]
      rw [← h3, List.getElem?_drop]
      congr 1
    rw [h1] at hc
    exact hr2 (List.getElem?_mem hc)

/-- One capturing tick on a file shorter than `2 ^ 31` bytes: it returns, keeps the
invariants, moves the offset past the batch, registers the selected names, and changes
no buffer when the batch is empty and the selected names are registered. -/
theorem tick_step {F : Type} (lib : QtLib F) (st : DsoInput F) (file : Option (List Char))
    (s : DsoSettingsScope) (hcap : st.capturing = true) (hwf : st.RegWF)
    (hcur : st.CursorWF) (hs : st.dsoSettings = some s)
    (hv : s.maxChannels ≤ s.voltage.length) (h4 : s.maxChannels ≤ 4)
    (hlen : (file.getD []).length < 2 ^ 31) :
    ∃ st1 : DsoInput F, st.restartSampling lib file = some st1
      ∧ st1.capturing = true ∧ st1.RegWF ∧ st1.CursorWF
      ∧ (∃ s1, st1.dsoSettings = some s1 ∧ s1.maxChannels = s.maxChannels
          ∧ s1.voltage = s.voltage)
      ∧ st1.cacheFilePosition
          = st.cacheFilePosition + ((tickLines st file).flatten.length : Nat)
      ∧ st1.currFileReadable = (st.currFileReadable || file.isSome)
      ∧ (∀ k ∈ slotNames (s.voltage.take s.maxChannels), st1.sampleDatas.contains k = true)
      ∧ (tickLines st file = [] →
          (∀ k ∈ slotNames (s.voltage.take s.maxChannels), st.sampleDatas.contains k = true) →
          st1.sampleDatas = st.sampleDatas ∧ st1.heap = st.heap) := by
  obtain ⟨st3, m, st5, pos, hrun, htick, _, _, hpost, hcache, hread, hcap3, hfin⟩ :=
    tick_run lib st file s hcap hwf hcur hs hv h4
  obtain ⟨e1, e2, _, _, _, e6, e7, e8, e9⟩ := openSeek_spec st file hcur
  obtain ⟨q1, _, _, q4, q5, q6, _, q8, q9, q10, q11⟩ := hfin
  have hc0 := hcur.1
  have hcache1 : st3.cacheFilePosition
      = st.cacheFilePosition + ((tickLines st file).flatten.length : Nat) := by
    rw [hcache]
    by_cases hl : tickLines st file = []
    · rw [if_pos hl, hl]
      simp
    · rw [if_neg hl]
      have hreadable : (seekFile (openFile st file)).currFileReadable = true := by
        by_contra hc
        have hvis := e9 (bool_eq_false_of_not hc)
        apply hl
        unfold tickLines
        rw [hvis, List.drop_nil]
        rfl
      have hvis : visibleContent (seekFile (openFile st file)) file = file.getD [] := by
        unfold visibleContent
        rw [hreadable]
        rfl
      have hl2 := hl
      unfold tickLines at hl2
      obtain ⟨_, hle, _, _⟩ := offset_after_lines _ _ hl2
      rw [hvis] at hle
      have hsame : (completeLines ((file.getD []).drop (seekFile (openFile st file)).filePos))
          = tickLines st file := by
        unfold tickLines
        rw [hvis]
      rw [hsame] at hle
      rw [toInt32_of_lt _ (by omega), e8 hreadable]
      push_cast
      rw [Int.toNat_of_nonneg hc0]
  have hres : st3.resultData.length = 4 := by
    have := processLines_spec lib (tickLines st file) (seekFile (openFile st file)) 0 (by
      unfold DsoInput.RegWF
      rw [e1, e2]
      exact hwf)
    obtain ⟨st3', m', hrun', hconf', _⟩ := this
    rw [hrun] at hrun'
    have heq : st3 = st3' := congrArg Prod.fst (Option.some.inj hrun')
    rw [heq, ← hconf'.2.2.2.2.1]
    exact e6
  have hset : ∃ s1, st5.dsoSettings = some s1 ∧ s1.maxChannels = s.maxChannels
      ∧ s1.voltage = s.voltage := by
    cases hd : st5.dsoSettings with
    | none =>
      rw [hd] at q11
      exact absurd q11 (by simp)
    | some s1 =>
      rw [hd] at q11
      simp only [Option.map_some', Option.some.injEq, Prod.mk.injEq] at q11
      exact ⟨s1, rfl, q11.1, q11.2⟩
  refine ⟨st5.published, htick, ?_, q1, ⟨?_, ?_, ?_⟩, hset, ?_, ?_, ?_, ?_⟩
  · show st5.capturing = true
    rw [q9]
    exact hcap3
  · show 0 ≤ st5.cacheFilePosition
    rw [q8]
    show 0 ≤ st3.cacheFilePosition
    rw [hcache1]
    omega
  · intro hr
    have hr5 : st5.currFileReadable = false := hr
    rw [q6] at hr5
    have hr3 : st3.currFileReadable = false := hr5
    rw [hread] at hr3
    have hst : st.currFileReadable = false := by
      cases h : st.currFileReadable
      · rfl
      · rw [h] at hr3
        simp at hr3
    have hfile : file.isSome = false := by
      rw [hst] at hr3
      simpa using hr3
    show st5.cacheFilePosition = 0
    rw [q8]
    show st3.cacheFilePosition = 0
    rw [hcache1, hcur.2.1 hst]
    have hl : tickLines st file = [] := by
      unfold tickLines
      rw [e9 (by rw [e7, hst, hfile]; rfl), List.drop_nil]
      rfl
    rw [hl]
    simp
  · intro _
    show st5.resultData.length = 4
    rw [q10]
    exact hres
  · show st5.cacheFilePosition = _
    rw [q8]
    exact hcache1
  · show st5.currFileReadable = _
    rw [q6]
    exact hread
  · intro k hk
    exact (buffer_some_iff st5 q1 k).mp (q4 k hk)
  · intro hl hall
    rw [hl] at hrun
    have h3 : (seekFile (openFile st file), (0 : Int)) = (st3, m) :=
      Option.some.inj hrun
    have hst3 : st3 = seekFile (openFile st file) := (congrArg Prod.fst h3).symm
    have hm : m = 0 := (congrArg Prod.snd h3).symm
    have := q5 hm (by
      intro k hk
      show ∃ b, st3.buffer k = some b
      rw [hst3, openSeek_buffer st file hcur k]
      exact (buffer_some_iff st hwf k).mpr (hall k hk))
    refine ⟨?_, ?_⟩
    · show st5.sampleDatas = _
      rw [this.1]
      show st3.sampleDatas = _
      rw [hst3, e1]
    · show st5.heap = _
      rw [this.2]
      show st3.heap = _
      rw [hst3, e2]

theorem tickLines_none {F : Type} (st : DsoInput F) : tickLines st none = [] := by
  unfold tickLines visibleContent
  split_ifs
  · simp only [Option.getD_none, List.drop_nil]
    rfl
  · simp only [List.drop_nil]
    rfl

theorem tickLines_readable {F : Type} (st : DsoInput F) (content : List Char)
    (hcur : st.CursorWF) :
    tickLines st (some content) = completeLines (content.drop st.cacheFilePosition.toNat) := by
  obtain ⟨_, _, _, _, _, _, e7, e8, _⟩ := openSeek_spec st (some content) hcur
  have hr : (seekFile (openFile st (some content))).currFileReadable = true := by
    rw [e7]
    simp
  unfold tickLines visibleContent
  rw [hr, e8 hr]
  rfl

/-- A tick on a file with a trailing segment without newline ends in the state of the
tick on the file without it, up to the device position. -/
theorem tick_tail {F : Type} (lib : QtLib F) (st : DsoInput F) (content tail : List Char)
    (hwf : st.RegWF) (hcur : st.CursorWF) (htail : '\n' ∉ tail) (st1 : DsoInput F)
    (h1 : st.restartSampling lib (some content) = some st1) :
    ∃ st1t : DsoInput F, st.restartSampling lib (some (content ++ tail)) = some st1t
      ∧ st1t.setPos 0 = st1.setPos 0 := by
  rw [restartSampling_eq_tickOnBatch lib st _ hwf hcur] at h1 ⊢
  rw [tickLines_tail st content tail htail]
  unfold tickOnBatch at h1 ⊢
  by_cases hcap : st.capturing = true
  · simp only [hcap, Bool.not_true, Bool.false_eq_true, if_false] at h1 ⊢
    have hopen : seekFile (openFile st (some (content ++ tail)))
        = seekFile (openFile st (some content)) := rfl
    rw [hopen]
    cases hp : processLines lib (tickLines st (some content))
        (seekFile (openFile st (some content)), 0) with
    | none =>
      rw [hp] at h1
      exact absurd h1 (by simp)
    | some acc =>
      rw [hp] at h1
      simp only at h1 ⊢
      rw [finishTick_setPos] at h1 ⊢
      cases hf : finishTick lib (acc.1, acc.2) with
      | none =>
        rw [hf] at h1
        exact absurd h1 (by simp)
      | some r =>
        rw [hf] at h1
        simp only [Option.map_some', Option.some.injEq] at h1
        refine ⟨_, rfl, ?_⟩
        rw [← h1]
        rfl
  · have hf : st.capturing = false := bool_eq_false_of_not hcap
    simp only [hf, Bool.not_false, if_true] at h1 ⊢
    exact ⟨st, rfl, by rw [← Option.some.inj h1]⟩

/-- C5. After a tick on a file shorter than `2 ^ 31` bytes the stored offset is not below
its value before; when it advanced, the byte before the new offset is a newline and no
newline occurs at or after the new offset; a trailing segment without newline changes
nothing but the device position: it is not parsed and does not move the offset. A
tick that cannot open the file keeps the offset. -/
theorem cursor_invariant {F : Type} (lib : QtLib F) (st : DsoInput F)
    (content tail : List Char) (hwf : st.RegWF) (hcur : st.CursorWF)
    (hconf : st.Configured) (hlen : content.length < 2 ^ 31) (htail : '\n' ∉ tail) :
    ∃ st1 : DsoInput F, st.restartSampling lib (some content) = some st1
      ∧ st.cacheFilePosition ≤ st1.cacheFilePosition
      ∧ (st.cacheFilePosition < st1.cacheFilePosition →
          content[st1.cacheFilePosition.toNat - 1]? = some '\n'
            ∧ ∀ i, st1.cacheFilePosition.toNat ≤ i → content[i]? ≠ some '\n')
      ∧ (∃ st1t : DsoInput F, st.restartSampling lib (some (content ++ tail)) = some st1t
          ∧ st1t.setPos 0 = st1.setPos 0)
      ∧ (∃ st0 : DsoInput F, st.restartSampling lib none = some st0
          ∧ st0.cacheFilePosition = st.cacheFilePosition) := by
  obtain ⟨s, hs, hv, h4⟩ := hconf
  by_cases hcap : st.capturing = true
  · obtain ⟨st1, htick, _, _, _, _, hcache, _, _, _⟩ :=
      tick_step lib st (some content) s hcap hwf hcur hs hv h4 hlen
    obtain ⟨st0, htick0, _, _, _, _, hcache0, _, _, _⟩ :=
      tick_step lib st none s hcap hwf hcur hs hv h4 (by simp)
    refine ⟨st1, htick, ?_, ?_, tick_tail lib st content tail hwf hcur htail st1 htick,
      st0, htick0, ?_⟩
    · rw [hcache]
      omega
    · intro hadv
      rw [hcache] at hadv ⊢
      rw [tickLines_readable st content hcur] at hadv ⊢
      have hne : completeLines (content.drop st.cacheFilePosition.toNat) ≠ [] := by
        intro h
        rw [h] at hadv
        simp at hadv
      obtain ⟨_, _, h3, h4⟩ := offset_after_lines content st.cacheFilePosition.toNat hne
      have hc0 := hcur.1
      have hnat : (st.cacheFilePosition
          + ((completeLines (content.drop st.cacheFilePosition.toNat)).flatten.length : Nat)).toNat
          = st.cacheFilePosition.toNat
            + (completeLines (content.drop st.cacheFilePosition.toNat)).flatten.length := by
        omega
      rw [hnat]
      exact ⟨h3, h4⟩
    · rw [hcache0, tickLines_none]
      simp
  · have hf : st.capturing = false := bool_eq_false_of_not hcap
    have hst : ∀ file, st.restartSampling lib file = some st := by
      intro file
      unfold DsoInput.restartSampling
      simp only [hf, Bool.not_false, if_true]
    refine ⟨st, hst _, le_refl _, ?_, ⟨st, hst _, rfl⟩, st, hst _, rfl⟩
    intro h
    exact absurd h (lt_irrefl _)

/-! ### Successive ticks -/

theorem completeLines_nil : completeLines [] = [] := rfl

/-- The lines of a grown file from an offset: those of the old file from the offset,
then those of the grown file from the offset reached. -/
theorem completeLines_grow (c g : List Char) (off : Nat) :
    completeLines ((c ++ g).drop off)
      = completeLines (c.drop off)
        ++ completeLines ((c ++ g).drop (off + (completeLines (c.drop off)).flatten.length)) := by
  by_cases hle : off ≤ c.length
  · rw [← List.drop_drop, List.drop_append_of_le_length hle]
    exact completeLines_append (c.drop off) g
  · rw [List.drop_eq_nil_of_le (show c.length ≤ off by omega), completeLines_nil]
    simp

theorem lastContent_grows (c : List Char) (cs : List (List Char)) (h : Growing c cs) :
    ∃ g, lastContent c cs = c ++ g := by
  induction cs generalizing c with
  | nil => exact ⟨[], by simp [lastContent]⟩
  | cons c2 cs ih =>
    obtain ⟨⟨g, hg⟩, hrest⟩ := h
    obtain ⟨g2, hg2⟩ := ih c2 hrest
    refine ⟨g ++ g2, ?_⟩
    rw [lastContent, hg2, hg, List.append_assoc]

/-- Two ticks over an unchanged file: the second one reads no line and changes neither
the offset nor the registry. -/
theorem tick_twice {F : Type} (lib : QtLib F) (st : DsoInput F) (file : Option (List Char))
    (s : DsoSettingsScope) (hcap : st.capturing = true) (hwf : st.RegWF)
    (hcur : st.CursorWF) (hs : st.dsoSettings = some s)
    (hv : s.maxChannels ≤ s.voltage.length) (h4 : s.maxChannels ≤ 4)
    (hlen : (file.getD []).length < 2 ^ 31) :
    ∃ st1 st2 : DsoInput F, st.restartSampling lib file = some st1
      ∧ st1.restartSampling lib file = some st2
      ∧ tickLines st1 file = []
      ∧ st2.cacheFilePosition = st1.cacheFilePosition
      ∧ st2.sampleDatas = st1.sampleDatas ∧ st2.heap = st1.heap := by
  obtain ⟨st1, htick1, hcap1, hwf1, hcur1, ⟨s1, hs1, hmc1, hvolt1⟩, hcache1, _, hsel1, _⟩ :=
    tick_step lib st file s hcap hwf hcur hs hv h4 hlen
  obtain ⟨st2, htick2, _, _, _, _, hcache2, _, _, hsame⟩ :=
    tick_step lib st1 file s1 hcap1 hwf1 hcur1 hs1 (by rw [hmc1, hvolt1]; exact hv)
      (by rw [hmc1]; exact h4) hlen
  have hlines : tickLines st1 file = [] := by
    cases file with
    | none => exact tickLines_none st1
    | some content =>
      rw [tickLines_readable st1 content hcur1, hcache1, tickLines_readable st content hcur]
      have h0 := hcur.1
      have hnat : (st.cacheFilePosition
          + ((completeLines (content.drop st.cacheFilePosition.toNat)).flatten.length : Nat)).toNat
          = st.cacheFilePosition.toNat
            + (completeLines (content.drop st.cacheFilePosition.toNat)).flatten.length := by
        omega
      rw [hnat, ← List.drop_drop]
      exact completeLines_drop_flatten_nil _
  have h2 := hsame hlines (by
    rw [hmc1, hvolt1]
    exact hsel1)
  refine ⟨st1, st2, htick1, htick2, hlines, ?_, h2.1, h2.2⟩
  rw [hcache2, hlines]
  simp

/-- Ticks over a growing file return, each tick is the tick on its batch, and the
batches together are the complete lines of the last content from the first offset. -/
theorem run_growing {F : Type} (lib : QtLib F) :
    ∀ (cs : List (List Char)) (c : List Char) (st : DsoInput F) (s : DsoSettingsScope),
      st.capturing = true → st.RegWF → st.CursorWF → st.dsoSettings = some s →
      s.maxChannels ≤ s.voltage.length → s.maxChannels ≤ 4 → Growing c cs →
      (∀ x ∈ c :: cs, x.length < 2 ^ 31) →
      (∃ stN : DsoInput F, runTicks lib st (c :: cs) = some stN
          ∧ runBatches lib st (c :: cs) = some stN)
        ∧ (tickBatches lib st (c :: cs)).flatten
            = completeLines ((lastContent c cs).drop st.cacheFilePosition.toNat) := by
  intro cs
  induction cs with
  | nil =>
    intro c st s hcap hwf hcur hs hv h4 _ hlens
    obtain ⟨st1, htick1, _⟩ := tick_step lib st (some c) s hcap hwf hcur hs hv h4
      (hlens c (List.mem_cons_self _ _))
    refine ⟨⟨st1, ?_, ?_⟩, ?_⟩
    · rw [runTicks, htick1]
      rfl
    · rw [runBatches, ← restartSampling_eq_tickOnBatch lib st (some c) hwf hcur, htick1]
      rfl
    · rw [tickBatches, htick1]
      simp only [tickBatches, List.flatten_cons, List.flatten_nil, List.append_nil, lastContent]
      exact tickLines_readable st c hcur
  | cons c2 cs ih =>
    intro c st s hcap hwf hcur hs hv h4 hgrow hlens
    obtain ⟨st1, htick1, hcap1, hwf1, hcur1, ⟨s1, hs1, hmc1, hvolt1⟩, hcache1, _, _, _⟩ :=
      tick_step lib st (some c) s hcap hwf hcur hs hv h4 (hlens c (List.mem_cons_self _ _))
    obtain ⟨⟨g, hg⟩, hrest⟩ := hgrow
    obtain ⟨⟨stN, hrun, hbat⟩, hflat⟩ := ih c2 st1 s1 hcap1 hwf1 hcur1 hs1
      (by rw [hmc1, hvolt1]; exact hv) (by rw [hmc1]; exact h4) hrest
      (fun x hx => hlens x (List.mem_cons_of_mem _ hx))
    obtain ⟨g2, hg2⟩ := lastContent_grows c2 cs hrest
    refine ⟨⟨stN, ?_, ?_⟩, ?_⟩
    · rw [runTicks, htick1]
      exact hrun
    · rw [runBatches, ← restartSampling_eq_tickOnBatch lib st (some c) hwf hcur, htick1]
      exact hbat
    · rw [tickBatches, htick1]
      simp only [List.flatten_cons]
      rw [hflat, hcache1, tickLines_readable st c hcur]
      have h0 := hcur.1
      have hnat : (st.cacheFilePosition
          + ((completeLines (c.drop st.cacheFilePosition.toNat)).flatten.length : Nat)).toNat
          = st.cacheFilePosition.toNat
            + (completeLines (c.drop st.cacheFilePosition.toNat)).flatten.length := by
        omega
      rw [hnat]
      show _ = completeLines ((lastContent c2 cs).drop st.cacheFilePosition.toNat)
      rw [hg2, hg, List.append_assoc]
      exact (completeLines_grow c (g ++ g2) st.cacheFilePosition.toNat).symm

/-- C4. On a file shorter than `2 ^ 31` bytes, a second tick over the unchanged file
reads no line and leaves the offset and every channel buffer as the first tick left
them; and over a file that only grows, the ticks return, each tick parses and applies
exactly the lines of its batch, and the batches of all ticks together are the complete
lines of the last content from the initial offset, each line once and in file order. -/
theorem no_reprocessing {F : Type} (lib : QtLib F) (st : DsoInput F)
    (file : Option (List Char)) (c : List Char) (cs : List (List Char))
    (hcap : st.capturing = true) (hwf : st.RegWF) (hcur : st.CursorWF)
    (hconf : st.Configured) (hlen : (file.getD []).length < 2 ^ 31)
    (hgrow : Growing c cs) (hlens : ∀ x ∈ c :: cs, x.length < 2 ^ 31) :
    (∃ st1 st2 : DsoInput F, st.restartSampling lib file = some st1
        ∧ st1.restartSampling lib file = some st2
        ∧ tickLines st1 file = []
        ∧ st2.cacheFilePosition = st1.cacheFilePosition
        ∧ st2.sampleDatas = st1.sampleDatas ∧ st2.heap = st1.heap)
      ∧ (∃ stN : DsoInput F, runTicks lib st (c :: cs) = some stN
          ∧ runBatches lib st (c :: cs) = some stN)
      ∧ (tickBatches lib st (c :: cs)).flatten
          = completeLines ((lastContent c cs).drop st.cacheFilePosition.toNat) := by
  obtain ⟨s, hs, hv, h4⟩ := hconf
  exact ⟨tick_twice lib st file s hcap hwf hcur hs hv h4 hlen,
    run_growing lib cs c st s hcap hwf hcur hs hv h4 hgrow hlens⟩

/-- C5, witness: the first tick over the two lines of `exampleLog`, with and without a
partial third line; the offset moves from `0` to `60`, just behind the second newline. -/
theorem cursor_invariant_witness :
    (∃ st1 : DsoInput Fx,
      (DsoInput.init Fx (some exampleSettings)).restartSampling refLib (some exampleLog)
        = some st1
      ∧ (DsoInput.init Fx (some exampleSettings)).cacheFilePosition ≤ st1.cacheFilePosition
      ∧ ((DsoInput.init Fx (some exampleSettings)).cacheFilePosition < st1.cacheFilePosition →
          exampleLog[st1.cacheFilePosition.toNat - 1]? = some '\n'
            ∧ ∀ i, st1.cacheFilePosition.toNat ≤ i → exampleLog[i]? ≠ some '\n')
      ∧ (∃ st1t : DsoInput Fx,
          (DsoInput.init Fx (some exampleSettings)).restartSampling refLib
            (some (exampleLog ++ examplePartial)) = some st1t
          ∧ st1t.setPos 0 = st1.setPos 0)
      ∧ (∃ st0 : DsoInput Fx,
          (DsoInput.init Fx (some exampleSettings)).restartSampling refLib none = some st0
          ∧ st0.cacheFilePosition
              = (DsoInput.init Fx (some exampleSettings)).cacheFilePosition))
    ∧ ((DsoInput.init Fx (some exampleSettings)).restartSampling refLib
          (some (exampleLog ++ examplePartial))).map (fun st1 => st1.cacheFilePosition)
        = some 60 :=
  ⟨cursor_invariant refLib (DsoInput.init Fx (some exampleSettings)) exampleLog examplePartial
      (init_wf Fx _).1 (init_wf Fx _).2 ⟨exampleSettings, rfl, by decide, by decide⟩
      (by decide) (by decide),
    by decide⟩

/-- C4, witness: a tick over the first line of `exampleLog`, then a tick over both
lines; the two batches are the first and the second line. -/
theorem no_reprocessing_witness :
    ((∃ st1 st2 : DsoInput Fx,
        (DsoInput.init Fx (some exampleSettings)).restartSampling refLib (some exampleLog)
          = some st1
        ∧ st1.restartSampling refLib (some exampleLog) = some st2
        ∧ tickLines st1 (some exampleLog) = []
        ∧ st2.cacheFilePosition = st1.cacheFilePosition
        ∧ st2.sampleDatas = st1.sampleDatas ∧ st2.heap = st1.heap)
      ∧ (∃ stN : DsoInput Fx,
          runTicks refLib (DsoInput.init Fx (some exampleSettings)) [exampleLine1, exampleLog]
            = some stN
          ∧ runBatches refLib (DsoInput.init Fx (some exampleSettings))
              [exampleLine1, exampleLog] = some stN)
      ∧ (tickBatches refLib (DsoInput.init Fx (some exampleSettings))
            [exampleLine1, exampleLog]).flatten
          = completeLines ((lastContent exampleLine1 [exampleLog]).drop
              (DsoInput.init Fx (some exampleSettings)).cacheFilePosition.toNat))
    ∧ tickBatches refLib (DsoInput.init Fx (some exampleSettings)) [exampleLine1, exampleLog]
        = [[exampleLine1], [exampleLine2]] :=
  ⟨no_reprocessing refLib (DsoInput.init Fx (some exampleSettings)) (some exampleLog)
      exampleLine1 [exampleLog] (by decide) (init_wf Fx _).1 (init_wf Fx _).2
      ⟨exampleSettings, rfl, by decide, by decide⟩ (by decide)
      ⟨⟨exampleLine2, by decide⟩, trivial⟩ (by decide),
    by decide⟩

/-! ### Padding twice, and records without a usable time stamp -/

theorem padded_length {F : Type} (lib : QtLib F) (num : Int) (data : List F) :
    ((padded lib num data).length : Int) = max (data.length : Int) (num - 1) := by
  simp only [padded, List.length_append, List.length_replicate]
  omega

theorem padded_padded {F : Type} (lib : QtLib F) (num : Int) (data : List F) :
    padded lib num (padded lib num data) = padded lib num data := by
  have hlen := padded_length lib num data
  have hz : (num - 1 - ((padded lib num data).length : Int)).toNat = 0 := by omega
  conv_lhs => rw [padded]
  rw [hz]
  simp

/-- C11. For a target `0 ≤ L` (an `int`), a second call of `addEmptyData(L)` returns the
buffer the first call produced: it appends nothing. -/
theorem addEmptyData_idempotent {F : Type} (lib : QtLib F) (sd : SampleData F) (L : Int)
    (h0 : 0 ≤ L) (h1 : L < 2 ^ 31) :
    ∃ sd1 : SampleData F, sd.addEmptyData lib L = some sd1
      ∧ sd1.addEmptyData lib L = some sd1 := by
  refine ⟨_, addEmptyData_eq lib sd L h0 h1, ?_⟩
  rw [addEmptyData_eq lib _ L h0 h1]
  simp only [padded_padded]

/-- C11, witness: padding a buffer of two samples to the target 5, twice. -/
theorem addEmptyData_idempotent_witness :
    ∃ sd1 : SampleData Fx,
      (⟨"A".toList, [⟨1, 1⟩, ⟨7, 2⟩], ⟨0, 1⟩⟩ : SampleData Fx).addEmptyData refLib 5 = some sd1
      ∧ sd1.addEmptyData refLib 5 = some sd1 :=
  addEmptyData_idempotent refLib ⟨"A".toList, [⟨1, 1⟩, ⟨7, 2⟩], ⟨0, 1⟩⟩ 5 (by decide)
    (by decide)

/-- C19. A token list with fewer than 3 tokens, or whose token 2 is rejected by
`toFloat`, makes `DataParser` return a record without pairs, whatever the other tokens
are. -/
theorem dataParser_bad_timestamp {F : Type} (lib : QtLib F) (tokens : List QString)
    (h : tokens.length < 3 ∨ ∃ t, tokens[2]? = some t ∧ (lib.toFloat t).2 = false) :
    ∃ r : AnalysedChannelData F, DataParser lib tokens = some r ∧ r.datas = [] := by
  refine ⟨_, dataParser_eq lib tokens, ?_⟩
  unfold parsedRecord
  rcases h with h | ⟨t, ht, hbad⟩
  · have h2 : tokens[2]? = none := List.getElem?_eq_none (by omega)
    simp only [h2]
  · simp only [ht, hbad, Bool.false_eq_true, if_false]

/-- C19, witness: two tokens only, and the tokens of `A: xx, B: 1.0, C: 2.0,` whose
token 2 is `xx`. -/
theorem dataParser_bad_timestamp_witness :
    (∃ r : AnalysedChannelData Fx,
      DataParser refLib ["Time".toList, ":".toList] = some r ∧ r.datas = [])
    ∧ (∃ r : AnalysedChannelData Fx,
      DataParser refLib ["A".toList, ":".toList, "xx".toList, ",".toList, "B".toList,
        ":".toList, "1.0".toList, ",".toList, "C".toList, ":".toList, "2.0".toList,
        ",".toList] = some r ∧ r.datas = []) :=
  ⟨dataParser_bad_timestamp refLib _ (Or.inl (by decide)),
    dataParser_bad_timestamp refLib _ (Or.inr ⟨"xx".toList, by decide, by decide⟩)⟩

/-! ### The record marker -/

/-- C13, the code at the failing input: on a line that begins with two spaces the
marker is found at index 2, the line is trimmed, and the cut at `2 + 11` of the
trimmed line removes `Ti` as well, while the text that follows the marker is
`Time: 0.0, A: 1.0,`. A line without leading whitespace is cut at the marker. -/
theorem isScopeData_leading_whitespace :
    indexOfFrom KeyTemplate "  ScopeData: Time: 0.0, A: 1.0,\n".toList 0 = some 2
    ∧ isScopeData refLib "  ScopeData: Time: 0.0, A: 1.0,\n".toList
        = ("me: 0.0, A: 1.0,".toList, true)
    ∧ isScopeData refLib "[x]ScopeData: Time: 0.0, A: 1.0,\n".toList
        = ("Time: 0.0, A: 1.0,".toList, true)
    ∧ isScopeData refLib "Time: 0.0, A: 1.0,\n".toList
        = ("Time: 0.0, A: 1.0,\n".toList, false) := by
  decide

/-! ### The state only grows -/

theorem heapGrows_refl {F : Type} (h : List (SampleData F)) : HeapGrows h h :=
  fun _ sd hsd => ⟨sd, [], hsd, by simp⟩

theorem heapGrows_trans {F : Type} {h1 h2 h3 : List (SampleData F)} (a : HeapGrows h1 h2)
    (b : HeapGrows h2 h3) : HeapGrows h1 h3 := by
  intro p sd hsd
  obtain ⟨sd2, t, hsd2, hd2⟩ := a p sd hsd
  obtain ⟨sd3, t3, hsd3, hd3⟩ := b p sd2 hsd2
  exact ⟨sd3, t ++ t3, hsd3, by rw [hd3, hd2, List.append_assoc]⟩

theorem heapGrows_append {F : Type} (h : List (SampleData F)) (x : SampleData F) :
    HeapGrows h (h ++ [x]) := by
  intro p sd hsd
  have hlt : p < h.length := by
    by_contra hc
    rw [List.getElem?_eq_none (by omega)] at hsd
    exact absurd hsd (by simp)
  exact ⟨sd, [], by rw [List.getElem?_append_left hlt]; exact hsd, by simp⟩

theorem heapGrows_set {F : Type} (h : List (SampleData F)) (p : Nat) (sd sd2 : SampleData F)
    (t : List F) (hsd : h[p]? = some sd) (hd : sd2.data = sd.data ++ t) :
    HeapGrows h (h.set p sd2) := by
  intro q sdq hq
  by_cases hpq : p = q
  · subst hpq
    have hlt : p < h.length := by
      by_contra hc
      rw [List.getElem?_eq_none (by omega)] at hsd
      exact absurd hsd (by simp)
    rw [hsd] at hq
    refine ⟨sd2, t, List.getElem?_set_self hlt, ?_⟩
    rw [hd, Option.some.inj hq]
  · exact ⟨sdq, [], by rw [List.getElem?_set_ne hpq]; exact hq, by simp⟩

theorem grows_of_parts {F : Type} (a b : DsoInput F)
    (hm : ∀ k p, a.sampleDatas.value k = some p → b.sampleDatas.value k = some p)
    (hh : HeapGrows a.heap b.heap) : a.Grows b :=
  fun k p hk => ⟨hm k p hk, fun sd hsd => hh p sd hsd⟩

theorem grows_refl {F : Type} (a : DsoInput F) : a.Grows a :=
  grows_of_parts a a (fun _ _ h => h) (heapGrows_refl _)

theorem grows_trans {F : Type} {a b c : DsoInput F} (h1 : a.Grows b) (h2 : b.Grows c) :
    a.Grows c := by
  intro k p hk
  obtain ⟨hb, hbh⟩ := h1 k p hk
  obtain ⟨hc, hch⟩ := h2 k p hb
  refine ⟨hc, ?_⟩
  intro sd hsd
  obtain ⟨sd2, t, hsd2, hd2⟩ := hbh sd hsd
  obtain ⟨sd3, t3, hsd3, hd3⟩ := hch sd2 hsd2
  exact ⟨sd3, t ++ t3, hsd3, by rw [hd3, hd2, List.append_assoc]⟩

/-- Resolving a name removes nothing. -/
theorem getSampleData_grows {F : Type} (lib : QtLib F) (st : DsoInput F) (name : QString)
    (r : Nat × DsoInput F) (h : st.GetSampleData lib name = some r) : st.Grows r.2 := by
  by_cases hc : st.sampleDatas.contains name = true
  · obtain ⟨p, _, hget⟩ := getSampleData_of_old lib st name hc
    rw [hget] at h
    rw [← Option.some.inj h]
    exact grows_refl st
  · have hnew : st.sampleDatas.contains name = false := bool_eq_false_of_not hc
    obtain ⟨st1, hget, hheap, hmap, _⟩ := getSampleData_new_shape lib st name hnew
    rw [hget] at h
    rw [← Option.some.inj h]
    apply grows_of_parts
    · intro k p hk
      have hne : k ≠ name := by
        intro e
        rw [e, value_none_of_not_contains _ name hnew] at hk
        exact absurd hk (by simp)
      show st1.sampleDatas.value k = some p
      rw [hmap, insert_value_other st.sampleDatas name k st.heap.length hnew hne]
      exact hk
    · show HeapGrows st.heap st1.heap
      rw [hheap]
      exact heapGrows_append _ _

/-- The loop over the pairs of a record removes nothing. -/
theorem applyPairs_grows {F : Type} (lib : QtLib F) (time : Option F) :
    ∀ (pairs : List (QString × F)) (st : DsoInput F) (m : Int) (r : DsoInput F × Int),
      applyPairs lib time pairs (st, m) = some r → st.Grows r.1 := by
  intro pairs
  induction pairs with
  | nil =>
    intro st m r h
    rw [applyPairs] at h
    rw [← Option.some.inj h]
    exact grows_refl st
  | cons pr rest ih =>
    intro st m r h
    rw [applyPairs] at h
    cases hg : st.GetSampleData lib pr.1 with
    | none =>
      rw [hg] at h
      exact absurd h (by simp)
    | some g =>
      obtain ⟨p, st1⟩ := g
      rw [hg] at h
      simp only at h
      have h1 : st.Grows st1 := getSampleData_grows lib st pr.1 (p, st1) hg
      cases hsd : st1.heap[p]? with
      | none =>
        rw [hsd] at h
        exact absurd h (by simp)
      | some sd =>
        cases time with
        | none =>
          rw [hsd] at h
          exact absurd h (by simp)
        | some t =>
          rw [hsd] at h
          simp only at h
          have h2 : st1.Grows
              { st1 with heap := st1.heap.set p (sd.addData lib t pr.2 (frameRate lib)) } :=
            grows_of_parts _ _ (fun _ _ hk => hk)
              (heapGrows_set st1.heap p sd _ [pr.2] hsd (by rw [addData_eq]))
          exact grows_trans (grows_trans h1 h2) (ih _ _ r h)

theorem addEmptyData_total {F : Type} (lib : QtLib F) (sd : SampleData F) (num : Int) :
    ∃ (sd2 : SampleData F) (t : List F),
      sd.addEmptyData lib num = some sd2 ∧ sd2.data = sd.data ++ t ∧ sd2.name = sd.name := by
  unfold SampleData.addEmptyData
  simp only []
  rw [addEmptyDataLoop_eq _ _ _ _ (by omega)]
  exact ⟨_, _, rfl, rfl, rfl⟩

/-- The padding loop keeps every object and every stored sample. -/
theorem padAll_grows {F : Type} (lib : QtLib F) (m : Int) :
    ∀ (entries : List (QString × Nat)) (heap heap2 : List (SampleData F)),
      padAll lib m entries heap = some heap2 → HeapGrows heap heap2 := by
  intro entries
  induction entries with
  | nil =>
    intro heap heap2 h
    rw [padAll] at h
    rw [← Option.some.inj h]
    exact heapGrows_refl heap
  | cons e rest ih =>
    intro heap heap2 h
    rw [padAll] at h
    cases hsd : heap[e.2]? with
    | none =>
      rw [hsd] at h
      exact absurd h (by simp)
    | some sd =>
      rw [hsd] at h
      simp only at h
      obtain ⟨sd2, t, hpad, hd, _⟩ := addEmptyData_total lib sd m
      rw [hpad] at h
      simp only at h
      exact heapGrows_trans (heapGrows_set heap e.2 sd sd2 t hsd hd) (ih _ _ h)

theorem processLine_grows {F : Type} (lib : QtLib F) (line : List Char)
    (acc r : DsoInput F × Int) (h : processLine lib line acc = some r) : acc.1.Grows r.1 := by
  unfold processLine at h
  simp only at h
  by_cases hm : (isScopeData lib (lib.fromUtf8 line)).2 = true
  · rw [if_pos hm] at h
    cases hl : LexicalParser lib (isScopeData lib (lib.fromUtf8 line)).1 with
    | none =>
      rw [hl] at h
      exact absurd h (by simp)
    | some tokens =>
      rw [hl] at h
      simp only at h
      cases hd : DataParser lib tokens with
      | none =>
        rw [hd] at h
        exact absurd h (by simp)
      | some data =>
        rw [hd] at h
        simp only at h
        obtain ⟨st, m⟩ := acc
        exact applyPairs_grows lib data.sampleTime data.datas st m r h
  · rw [if_neg hm] at h
    rw [← Option.some.inj h]
    exact grows_refl _

theorem readLoop_grows {F : Type} (lib : QtLib F) (content : List Char) :
    ∀ (fuel : Nat) (acc r : DsoInput F × Int),
      readLoop lib content fuel acc = some r → acc.1.Grows r.1 := by
  intro fuel
  induction fuel with
  | zero =>
    intro acc r h
    obtain ⟨st, m⟩ := acc
    rw [readLoop] at h
    by_cases hlt : st.filePos < content.length
    · rw [if_pos hlt] at h
      exact absurd h (by simp)
    · rw [if_neg hlt] at h
      rw [← Option.some.inj h]
      exact grows_refl _
  | succ n ih =>
    intro acc r h
    obtain ⟨st, m⟩ := acc
    rw [readLoop] at h
    by_cases hlt : st.filePos < content.length
    · rw [if_pos hlt] at h
      simp only at h
      by_cases hnl : ((readLine content st.filePos).getLast? != some '\n') = true
      · rw [if_pos hnl] at h
        rw [← Option.some.inj h]
        exact grows_of_parts _ _ (fun _ _ hk => hk) (heapGrows_refl _)
      · rw [if_neg hnl] at h
        cases hp : processLine lib (readLine content st.filePos)
            ({ { st with filePos := st.filePos + (readLine content st.filePos).length } with
                cacheFilePosition := toInt32
                  ({ st with filePos := st.filePos
                      + (readLine content st.filePos).length } : DsoInput F).filePos }, m) with
        | none =>
          rw [hp] at h
          exact absurd h (by simp)
        | some acc2 =>
          rw [hp] at h
          simp only at h
          have h1 := processLine_grows lib _ _ acc2 hp
          have h0 : st.Grows ({ { st with filePos := st.filePos
              + (readLine content st.filePos).length } with
                cacheFilePosition := toInt32
                  ({ st with filePos := st.filePos
                      + (readLine content st.filePos).length } : DsoInput F).filePos }
                : DsoInput F) :=
            grows_of_parts _ _ (fun _ _ hk => hk) (heapGrows_refl _)
          exact grows_trans (grows_trans h0 h1) (ih acc2 r h)
    · rw [if_neg hlt] at h
      rw [← Option.some.inj h]
      exact grows_refl _

theorem snapshotLoop_grows {F : Type} (lib : QtLib F) :
    ∀ (n channel : Nat) (st st2 : DsoInput F),
      snapshotLoop lib n channel st = some st2 → st.Grows st2 := by
  intro n
  induction n with
  | zero =>
    intro channel st st2 h
    rw [snapshotLoop] at h
    rw [← Option.some.inj h]
    exact grows_refl st
  | succ n ih =>
    intro channel st st2 h
    rw [snapshotLoop] at h
    cases hs : st.dsoSettings with
    | none =>
      rw [hs] at h
      exact absurd h (by simp)
    | some s =>
      rw [hs] at h
      simp only at h
      cases hv : s.voltage[channel]? with
      | none =>
        rw [hv] at h
        exact absurd h (by simp)
      | some v =>
        rw [hv] at h
        simp only at h
        by_cases hu : v.used = true
        · rw [if_pos hu] at h
          by_cases hne : (!v.selectedChannelName.isEmpty) = true
          · rw [if_pos hne] at h
            cases hg : st.GetSampleData lib v.selectedChannelName with
            | none =>
              rw [hg] at h
              exact absurd h (by simp)
            | some g =>
              obtain ⟨p, st1⟩ := g
              rw [hg] at h
              simp only at h
              by_cases hlt : channel < st1.resultData.length
              · rw [if_pos hlt] at h
                have h1 : st.Grows st1 :=
                  getSampleData_grows lib st v.selectedChannelName (p, st1) hg
                have h2 : st1.Grows
                    { st1 with resultData := st1.resultData.set channel (some p) } :=
                  grows_of_parts _ _ (fun _ _ hk => hk) (heapGrows_refl _)
                exact grows_trans (grows_trans h1 h2) (ih _ _ _ h)
              · rw [if_neg hlt] at h
                exact absurd h (by simp)
          · rw [if_neg hne] at h
            exact ih _ _ _ h
        · rw [if_neg hu] at h
          exact ih _ _ _ h

theorem finishTick_grows {F : Type} (lib : QtLib F) (acc : DsoInput F × Int)
    (st1 : DsoInput F) (h : finishTick lib acc = some st1) : acc.1.Grows st1 := by
  unfold finishTick at h
  cases hp : padAll lib acc.2 acc.1.sampleDatas.entries acc.1.heap with
  | none =>
    rw [hp] at h
    exact absurd h (by simp)
  | some heap4 =>
    rw [hp] at h
    simp only at h
    have h1 : acc.1.Grows { acc.1 with heap := heap4 } :=
      grows_of_parts _ _ (fun _ _ hk => hk) (padAll_grows lib acc.2 _ _ _ hp)
    generalize ({ acc.1 with heap := heap4 } : DsoInput F) = st4 at h h1
    cases hs : acc.1.dsoSettings with
    | none =>
      rw [hs] at h
      exact absurd h (by simp)
    | some s =>
      rw [hs] at h
      simp only at h
      cases hl : snapshotLoop lib s.maxChannels 0 st4 with
      | none =>
        rw [hl] at h
        exact absurd h (by simp)
      | some st5 =>
        rw [hl] at h
        simp only at h
        rw [← Option.some.inj h]
        have h2 := snapshotLoop_grows lib _ _ _ _ hl
        have h3 : st5.Grows st5.published :=
          grows_of_parts _ _ (fun _ _ hk => hk) (heapGrows_refl _)
        exact grows_trans (grows_trans h1 h2) h3

theorem openSeek_grows {F : Type} (st : DsoInput F) (file : Option (List Char)) :
    st.Grows (seekFile (openFile st file)) := by
  have h1 : st.Grows (openFile st file) := by
    unfold openFile
    split_ifs
    · exact grows_of_parts _ _ (fun _ _ hk => hk) (heapGrows_refl _)
    · exact grows_refl st
  have h2 : (openFile st file).Grows (seekFile (openFile st file)) := by
    unfold seekFile
    split_ifs
    · exact grows_of_parts _ _ (fun _ _ hk => hk) (heapGrows_refl _)
    · exact grows_refl _
  exact grows_trans h1 h2

/-- A tick removes nothing, whatever the state and the file. -/
theorem restartSampling_grows {F : Type} (lib : QtLib F) (st : DsoInput F)
    (file : Option (List Char)) (st1 : DsoInput F)
    (h : st.restartSampling lib file = some st1) : st.Grows st1 := by
  unfold DsoInput.restartSampling at h
  by_cases hc : (!st.capturing) = true
  · rw [if_pos hc] at h
    rw [← Option.some.inj h]
    exact grows_refl st
  · rw [if_neg hc] at h
    simp only at h
    cases hl : readLoop lib (visibleContent (seekFile (openFile st file)) file)
        ((visibleContent (seekFile (openFile st file)) file).length + 1)
        (seekFile (openFile st file), 0) with
    | none =>
      rw [hl] at h
      exact absurd h (by simp)
    | some acc =>
      rw [hl] at h
      simp only at h
      exact grows_trans (grows_trans (openSeek_grows st file)
        (readLoop_grows lib _ _ _ acc hl)) (finishTick_grows lib acc st1 h)

/-- C20. From a state with a well formed registry and cursor and consistent settings,
every operation returns and only grows the state: `GetSampleData`, `addData` and
`addEmptyData` on a stored object, a whole tick and `quitSampling` keep every registered
name with its pointer, and the samples each object held stay the leading part of its
samples. -/
theorem registry_only_grows {F : Type} (lib : QtLib F) (st : DsoInput F)
    (file : Option (List Char)) (hwf : st.RegWF) (hcur : st.CursorWF)
    (hconf : st.Configured) :
    (∀ name, ∃ r, st.GetSampleData lib name = some r ∧ st.Grows r.2)
      ∧ (∀ p sd time value fr, st.heap[p]? = some sd →
          st.Grows { st with heap := st.heap.set p (sd.addData lib time value fr) })
      ∧ (∀ p sd num, st.heap[p]? = some sd →
          ∃ sd2, sd.addEmptyData lib num = some sd2
            ∧ st.Grows { st with heap := st.heap.set p sd2 })
      ∧ (∃ st1, st.restartSampling lib file = some st1 ∧ st.Grows st1)
      ∧ st.Grows st.quitSampling := by
  refine ⟨?_, ?_, ?_, ?_, ?_⟩
  · intro name
    by_cases hc : st.sampleDatas.contains name = true
    · obtain ⟨p, _, hget⟩ := getSampleData_of_old lib st name hc
      exact ⟨_, hget, getSampleData_grows lib st name _ hget⟩
    · obtain ⟨st1, hget, _⟩ := getSampleData_new_shape lib st name (bool_eq_false_of_not hc)
      exact ⟨_, hget, getSampleData_grows lib st name _ hget⟩
  · intro p sd time value fr hsd
    exact grows_of_parts _ _ (fun _ _ hk => hk)
      (heapGrows_set st.heap p sd _ [value] hsd (by rw [addData_eq]))
  · intro p sd num hsd
    obtain ⟨sd2, t, hpad, hd, _⟩ := addEmptyData_total lib sd num
    exact ⟨sd2, hpad, grows_of_parts _ _ (fun _ _ hk => hk)
      (heapGrows_set st.heap p sd sd2 t hsd hd)⟩
  · by_cases hcap : st.capturing = true
    · obtain ⟨s, hs, hv, h4⟩ := hconf
      obtain ⟨_, _, st5, _, _, hrun, _⟩ := tick_run lib st file s hcap hwf hcur hs hv h4
      exact ⟨_, hrun, restartSampling_grows lib st file _ hrun⟩
    · have hrun : st.restartSampling lib file = some st := by
        unfold DsoInput.restartSampling
        simp [hcap]
      exact ⟨st, hrun, grows_refl st⟩
  · exact grows_of_parts _ _ (fun _ _ hk => hk) (heapGrows_refl _)

theorem exampleRegistry_wf : exampleRegistry.RegWF ∧ exampleRegistry.CursorWF := by
  refine ⟨⟨?_, ?_, ?_⟩, le_refl _, fun _ => rfl, ?_⟩
  · exact List.pairwise_singleton _ _
  · intro e he
    rw [show exampleRegistry.sampleDatas.entries = [("abc".toList, 0)] from rfl,
      List.mem_singleton] at he
    rw [he]
    exact Nat.zero_lt_one
  · exact List.nodup_singleton _
  · intro h
    exact absurd h Bool.false_ne_true

/-- C20, witness: the registry holding `abc` with one sample, and a tick over the two
lines of `exampleLog`; `abc` keeps the pointer `0` and its sample stays in front. -/
theorem registry_only_grows_witness :
    ((∀ name, ∃ r, exampleRegistry.GetSampleData refLib name = some r
        ∧ exampleRegistry.Grows r.2)
      ∧ (∀ p sd time value fr, exampleRegistry.heap[p]? = some sd →
          exampleRegistry.Grows
            { exampleRegistry with heap := exampleRegistry.heap.set p (sd.addData refLib time value fr) })
      ∧ (∀ p sd num, exampleRegistry.heap[p]? = some sd →
          ∃ sd2, sd.addEmptyData refLib num = some sd2
            ∧ exampleRegistry.Grows { exampleRegistry with heap := exampleRegistry.heap.set p sd2 })
      ∧ (∃ st1, exampleRegistry.restartSampling refLib (some exampleLog) = some st1
          ∧ exampleRegistry.Grows st1)
      ∧ exampleRegistry.Grows exampleRegistry.quitSampling)
    ∧ (exampleRegistry.restartSampling refLib (some exampleLog)).map
        (fun st1 => (st1.sampleDatas.entries, st1.heap.map (fun sd => sd.data)))
      = some ([("A".toList, 1), ("B".toList, 2), ("abc".toList, 0)],
          [[⟨3, 1⟩], [⟨1, 1⟩], [⟨2, 1⟩]]) :=
  ⟨registry_only_grows refLib exampleRegistry (some exampleLog) exampleRegistry_wf.1
      exampleRegistry_wf.2 ⟨_, rfl, by decide, by decide⟩,
    by decide⟩

/-! ### Alignment of the channels at the end of a tick -/

theorem tick_padded {F : Type} (lib : QtLib F) (st : DsoInput F) (file : Option (List Char))
    (hcap : st.capturing = true) (hwf : st.RegWF) (hcur : st.CursorWF)
    (hconf : st.Configured)
    (hb : SizeBound st ((tickLines st file).flatMap (linePairs lib))) :
    ∃ (st1 : DsoInput F) (m : Int), st.restartSampling lib file = some st1
      ∧ (∀ k ∈ ((tickLines st file).flatMap (linePairs lib)).map Prod.fst,
          ((st.len k + (valuesOf k ((tickLines st file).flatMap (linePairs lib))).length : Nat)
            : Int) ≤ m)
      ∧ ((tickLines st file).flatMap (linePairs lib) = [] → m = 0)
      ∧ ((tickLines st file).flatMap (linePairs lib) ≠ [] →
          ∃ k ∈ ((tickLines st file).flatMap (linePairs lib)).map Prod.fst,
            ((st.len k + (valuesOf k ((tickLines st file).flatMap (linePairs lib))).length
              : Nat) : Int) = m)
      ∧ (∀ k, (st.sampleDatas.contains k = true
            ∨ k ∈ ((tickLines st file).flatMap (linePairs lib)).map Prod.fst) →
          (st1.len k : Int) = max
            ((st.len k + (valuesOf k ((tickLines st file).flatMap (linePairs lib))).length
              : Nat) : Int) (m - 1)) := by
  obtain ⟨s, hs, hv, h4⟩ := hconf
  obtain ⟨st3, m, st5, pos, _, htick, _, _, hpost, _, _, _, hfin⟩ :=
    tick_run lib st file s hcap hwf hcur hs hv h4
  generalize (tickLines st file).flatMap (linePairs lib) = pairs at hb hpost ⊢
  have hlen2 : ∀ k, (seekFile (openFile st file)).len k = st.len k := by
    intro k
    unfold DsoInput.len
    rw [openSeek_buffer st file hcur k]
  have hb2 : SizeBound (seekFile (openFile st file)) pairs := by
    intro k
    rw [hlen2 k]
    exact hb k
  have hlen3 : ∀ k, st3.len k = st.len k + (valuesOf k pairs).length := by
    intro k
    rw [pairsPost_len hpost k, hlen2 k]
  obtain ⟨_, hbuf, _, _, hmax⟩ := hpost
  obtain ⟨hub, hatt⟩ := hmax hb2
  refine ⟨st5.published, m, htick, ?_, ?_, ?_, ?_⟩
  · intro k hk
    rw [← hlen3 k]
    exact hub k hk
  · intro hnil
    rw [hnil] at hatt
    rcases hatt with h | ⟨k, hk, _⟩
    · exact h
    · simp at hk
  · intro hne
    rcases hatt with h | ⟨k, hk, hkm⟩
    · exfalso
      obtain ⟨pr, rest, hpr⟩ := List.exists_cons_of_ne_nil hne
      have hk : pr.1 ∈ pairs.map Prod.fst := by
        rw [hpr, List.map_cons]
        exact List.mem_cons_self _ _
      have h1 := hub pr.1 hk
      have h2 := valuesOf_ne_nil pr.1 pairs hk
      have h3 := hlen3 pr.1
      omega
    · exact ⟨k, hk, by rw [← hlen3 k]; exact hkm⟩
  · intro k hk
    have hreg : (∃ x, st.buffer k = some x) ∨ 0 < (valuesOf k pairs).length := by
      rcases hk with h | h
      · exact Or.inl ((buffer_some_iff st hwf k).mpr h)
      · exact Or.inr (valuesOf_ne_nil k pairs h)
    have h3 : (st3.setPos pos).buffer k = some ((st.buffer k).getD [] ++ valuesOf k pairs) := by
      show st3.buffer k = _
      rw [hbuf k, openSeek_buffer st file hcur k]
      exact extendBuffer_of_registered _ _ hreg
    have h5 : st5.published.buffer k
        = some (padded lib m ((st.buffer k).getD [] ++ valuesOf k pairs)) :=
      hfin.2.1 k _ h3
    have h6 : (st5.published.len k : Int)
        = ((padded lib m ((st.buffer k).getD [] ++ valuesOf k pairs)).length : Int) := by
      unfold DsoInput.len
      rw [h5]
      rfl
    rw [h6, padded_length, List.length_append]
    rfl

/-- C12 (as amended). After a tick that starts in a well formed state, with `maxSize`
the largest length reached by a channel that received a sample in the tick (`0` if there
is none): every channel that received a sample in the tick has `maxSize - 1` or `maxSize`
samples, so any two of them differ in length by at most one, and every channel that was
registered before the tick has at least `maxSize - 1` samples. -/
theorem tick_alignment {F : Type} (lib : QtLib F) (st : DsoInput F)
    (file : Option (List Char)) (hcap : st.capturing = true) (hwf : st.RegWF)
    (hcur : st.CursorWF) (hconf : st.Configured)
    (hb : SizeBound st ((tickLines st file).flatMap (linePairs lib))) :
    ∃ (st1 : DsoInput F) (maxSize : Int), st.restartSampling lib file = some st1
      ∧ ((tickLines st file).flatMap (linePairs lib) = [] → maxSize = 0)
      ∧ ((tickLines st file).flatMap (linePairs lib) ≠ [] →
          ∃ k ∈ ((tickLines st file).flatMap (linePairs lib)).map Prod.fst,
            (st1.len k : Int) = maxSize)
      ∧ (∀ k ∈ ((tickLines st file).flatMap (linePairs lib)).map Prod.fst,
          maxSize - 1 ≤ (st1.len k : Int) ∧ (st1.len k : Int) ≤ maxSize)
      ∧ (∀ k, st.sampleDatas.contains k = true → maxSize - 1 ≤ (st1.len k : Int))
      ∧ (∀ k1 ∈ ((tickLines st file).flatMap (linePairs lib)).map Prod.fst,
          ∀ k2 ∈ ((tickLines st file).flatMap (linePairs lib)).map Prod.fst,
            (st1.len k1 : Int) ≤ (st1.len k2 : Int) + 1) := by
  obtain ⟨st1, m, htick, hub, hnil, hatt, hlen⟩ := tick_padded lib st file hcap hwf hcur hconf hb
  have hin : ∀ k ∈ ((tickLines st file).flatMap (linePairs lib)).map Prod.fst,
      m - 1 ≤ (st1.len k : Int) ∧ (st1.len k : Int) ≤ m := by
    intro k hk
    have h1 := hub k hk
    have h2 := hlen k (Or.inr hk)
    omega
  refine ⟨st1, m, htick, hnil, ?_, hin, ?_, ?_⟩
  · intro hne
    obtain ⟨k, hk, hkm⟩ := hatt hne
    refine ⟨k, hk, ?_⟩
    have h2 := hlen k (Or.inr hk)
    omega
  · intro k hk
    have h2 := hlen k (Or.inl hk)
    omega
  · intro k1 hk1 k2 hk2
    have h1 := hin k1 hk1
    have h2 := hin k2 hk2
    omega

/-- C12, witness of the amended statement: the first tick over the two lines of
`exampleLog` leaves `A` and `B` with one sample each. -/
theorem tick_alignment_witness :
    (∃ (st1 : DsoInput Fx) (maxSize : Int),
      (DsoInput.init Fx (some exampleSettings)).restartSampling refLib (some exampleLog)
        = some st1
      ∧ ((tickLines (DsoInput.init Fx (some exampleSettings)) (some exampleLog)).flatMap
            (linePairs refLib) = [] → maxSize = 0)
      ∧ ((tickLines (DsoInput.init Fx (some exampleSettings)) (some exampleLog)).flatMap
            (linePairs refLib) ≠ [] →
          ∃ k ∈ ((tickLines (DsoInput.init Fx (some exampleSettings)) (some exampleLog)).flatMap
              (linePairs refLib)).map Prod.fst,
            (st1.len k : Int) = maxSize)
      ∧ (∀ k ∈ ((tickLines (DsoInput.init Fx (some exampleSettings)) (some exampleLog)).flatMap
            (linePairs refLib)).map Prod.fst,
          maxSize - 1 ≤ (st1.len k : Int) ∧ (st1.len k : Int) ≤ maxSize)
      ∧ (∀ k, (DsoInput.init Fx (some exampleSettings)).sampleDatas.contains k = true →
          maxSize - 1 ≤ (st1.len k : Int))
      ∧ (∀ k1 ∈ ((tickLines (DsoInput.init Fx (some exampleSettings)) (some exampleLog)).flatMap
            (linePairs refLib)).map Prod.fst,
          ∀ k2 ∈ ((tickLines (DsoInput.init Fx (some exampleSettings)) (some exampleLog)).flatMap
              (linePairs refLib)).map Prod.fst,
            (st1.len k1 : Int) ≤ (st1.len k2 : Int) + 1))
    ∧ ((DsoInput.init Fx (some exampleSettings)).restartSampling refLib (some exampleLog)).map
        (fun st1 => (st1.len "A".toList, st1.len "B".toList))
      = some (1, 1) :=
  ⟨tick_alignment refLib (DsoInput.init Fx (some exampleSettings)) (some exampleLog) (by decide)
      (init_wf Fx _).1 (init_wf Fx _).2 ⟨exampleSettings, rfl, by decide, by decide⟩
      (init_sizeBound Fx _ _ (by decide)),
    by decide⟩

/-- C12, counterexample to the claim as stated: from the empty registry, a first tick
over three records of `A` and a second tick in which the file has grown by one record
of `B` leave `A` with three samples and `B` with one. -/
theorem tick_alignment_counterexample :
    (runTicks refLib (DsoInput.init Fx (some exampleSettings)) [alignmentLog1, alignmentLog2]).map
        (fun st2 => (st2.sampleDatas.keys, st2.len "A".toList, st2.len "B".toList))
      = some (["A".toList, "B".toList], 3, 1)
    ∧ ¬ ((3 : Nat) ≤ 1 + 1) := by
  decide

/-! ### The tokenizer, one character class at a time -/

/-- The token list of a non-empty text, by the class of its first character. -/
theorem lexList_cons {F : Type} (lib : QtLib F) (ch : Char) (rest : List Char) :
    lexList lib (ch :: rest).length (ch :: rest)
      = if lib.isSpace ch then lexList lib rest.length rest
        else if lib.isLetter ch then
          (ch :: rest.takeWhile lib.isLetterOrNumber)
            :: lexList lib (rest.dropWhile lib.isLetterOrNumber).length
                (rest.dropWhile lib.isLetterOrNumber)
        else if lib.isDigit ch || isDot ch || ch == '-' then
          (ch :: numberRun lib (isDot ch) rest)
            :: lexList lib (rest.drop (numberRun lib (isDot ch) rest).length).length
                (rest.drop (numberRun lib (isDot ch) rest).length)
        else if isSep ch then [ch] :: lexList lib rest.length rest
        else lexList lib rest.length rest := by
  have hdr : (rest.drop (numberRun lib (isDot ch) rest).length).length ≤ rest.length := by
    rw [List.length_drop]
    omega
  rw [List.length_cons, lexList,
    lexList_fuel lib rest.length (rest.dropWhile lib.isLetterOrNumber).length
      (rest.dropWhile lib.isLetterOrNumber) (dropWhile_length_le _ _) (le_refl _),
    lexList_fuel lib rest.length (rest.drop (numberRun lib (isDot ch) rest).length).length
      (rest.drop (numberRun lib (isDot ch) rest).length) hdr (le_refl _)]

theorem lexList_nil {F : Type} (lib : QtLib F) : lexList lib ([] : List Char).length [] = [] :=
  rfl

theorem takeWhile_append_breaker {α : Type} (p : α → Bool) (x : α) (rest : List α)
    (hx : p x = false) :
    ∀ pre : List α, (pre ++ x :: rest).takeWhile p = pre.takeWhile p
      ∧ (pre ++ x :: rest).dropWhile p = pre.dropWhile p ++ x :: rest := by
  intro pre
  induction pre with
  | nil => simp [List.takeWhile_cons, List.dropWhile_cons, hx]
  | cons c cs ih =>
    by_cases hc : p c = true
    · simp [List.takeWhile_cons, List.dropWhile_cons, hc, ih.1, ih.2]
    · simp [List.takeWhile_cons, List.dropWhile_cons, hc]

theorem numberRun_append_breaker {F : Type} (lib : QtLib F) (x : Char) (rest : List Char)
    (hx1 : isDot x = false) (hx2 : lib.isDigit x = false) :
    ∀ (pre : List Char) (hasDot : Bool),
      numberRun lib hasDot (pre ++ x :: rest) = numberRun lib hasDot pre := by
  intro pre
  induction pre with
  | nil =>
    intro hasDot
    simp [numberRun, hx1, hx2]
  | cons c cs ih =>
    intro hasDot
    rw [List.cons_append, numberRun, numberRun, ih true, ih hasDot]

/-- A character that no token can contain after its first character cuts the text: the
tokens before it do not depend on what follows. -/
theorem lexList_cut {F : Type} (lib : QtLib F) (x : Char) (rest : List Char)
    (hx0 : lib.isLetterOrNumber x = false) (hx1 : isDot x = false)
    (hx2 : lib.isDigit x = false) :
    ∀ (n : Nat) (pre : List Char), pre.length ≤ n →
      lexList lib (pre ++ x :: rest).length (pre ++ x :: rest)
        = lexList lib pre.length pre ++ lexList lib (x :: rest).length (x :: rest) := by
  intro n
  induction n with
  | zero =>
    intro pre h
    have hl : pre = [] := List.length_eq_zero.mp (by omega)
    subst hl
    rfl
  | succ n ih =>
    intro pre h
    cases pre with
    | nil => rfl
    | cons ch pre =>
      simp only [List.length_cons] at h
      obtain ⟨ht, hd⟩ := takeWhile_append_breaker lib.isLetterOrNumber x rest hx0 pre
      have hrun := numberRun_append_breaker lib x rest hx1 hx2 pre (isDot ch)
      have hlen := numberRun_length_le lib pre (isDot ch)
      have hdw := dropWhile_length_le lib.isLetterOrNumber pre
      rw [List.cons_append, lexList_cons lib ch (pre ++ x :: rest), lexList_cons lib ch pre,
        ht, hd, hrun, List.drop_append_of_le_length hlen,
        ih pre (by omega), ih (pre.dropWhile lib.isLetterOrNumber) (by omega),
        ih (pre.drop (numberRun lib (isDot ch) pre).length)
          (by rw [List.length_drop]; omega)]
      split_ifs <;> simp

/-! ### Lexemes joined by spaces -/

theorem sound_blank {F : Type} (lib : QtLib F) (hs : lib.Sound) :
    lib.isLetter ' ' = false ∧ lib.isDigit ' ' = false ∧ lib.isLetterOrNumber ' ' = false := by
  obtain ⟨_, h2, h3, h4⟩ := hs.ascii ' ' (by decide)
  rw [h2, h3, h4]
  decide

/-- The tokens of a text do not change when a space is appended. -/
theorem lexList_append_blank {F : Type} (lib : QtLib F) (hs : lib.Sound) (w : List Char) :
    lexList lib (w ++ [' ']).length (w ++ [' ']) = lexList lib w.length w := by
  obtain ⟨_, h2, h3⟩ := sound_blank lib hs
  rw [lexList_cut lib ' ' [] h3 (by decide) h2 w.length w (le_refl _), lexList_space lib hs []]
  exact List.append_nil _

/-- A lexeme alone is one token. -/
theorem lexList_lexeme {F : Type} (lib : QtLib F) (hs : lib.Sound) (w : QString)
    (hw : isIdentifier lib w = true ∨ isNumeral lib w = true ∨ w = [':'] ∨ w = [',']) :
    lexList lib w.length w = [w] := by
  obtain ⟨_, h2, h3⟩ := sound_blank lib hs
  have hb : lexList lib ([' '] : List Char).length [' '] = [] := lexList_space lib hs []
  rcases hw with h | h | h | h
  · rw [← lexList_append_blank lib hs w, lexList_identifier lib hs w ' ' [] h h3, hb]
  · rw [← lexList_append_blank lib hs w, lexList_numeral lib hs w ' ' [] h (by decide) h2, hb]
  · rw [h, lexList_colon lib hs []]
    rfl
  · rw [h, lexList_comma lib hs []]
    rfl

theorem lexList_joinSpaces {F : Type} (lib : QtLib F) (hs : lib.Sound) :
    ∀ ws : List QString,
      (∀ w ∈ ws, isIdentifier lib w = true ∨ isNumeral lib w = true ∨ w = [':'] ∨ w = [',']) →
      lexList lib (joinSpaces ws).length (joinSpaces ws) = ws := by
  intro ws
  induction ws with
  | nil =>
    intro _
    rfl
  | cons w ws ih =>
    intro h
    have hw := h w (List.mem_cons_self _ _)
    cases ws with
    | nil => exact lexList_lexeme lib hs w hw
    | cons w2 ws =>
      obtain ⟨_, h2, h3⟩ := sound_blank lib hs
      have hrest := ih (fun v hv => h v (List.mem_cons_of_mem _ hv))
      show lexList lib (w ++ ' ' :: joinSpaces (w2 :: ws)).length
        (w ++ ' ' :: joinSpaces (w2 :: ws)) = w :: w2 :: ws
      rw [lexList_cut lib ' ' _ h3 (by decide) h2 w.length w (le_refl _),
        lexList_lexeme lib hs w hw, lexList_space lib hs, hrest]
      rfl

/-- C14. For every list of lexemes, each an identifier (a letter followed by letters and
digits), a number lexeme (first character a digit, `.` or `-`, then digits, with at most
one `.` in the whole lexeme) or one of the separators `:` and `,`, `LexicalParser`
applied to the lexemes joined by single spaces returns exactly that list. -/
theorem lexicalParser_joinSpaces {F : Type} (lib : QtLib F) (hs : lib.Sound)
    (ws : List QString)
    (h : ∀ w ∈ ws,
      isIdentifier lib w = true ∨ isNumeral lib w = true ∨ w = [':'] ∨ w = [',']) :
    LexicalParser lib (joinSpaces ws) = some ws := by
  rw [lexicalParser_eq, lexList_joinSpaces lib hs ws h]

/-- C14, witness: the eight lexemes of the specification joined by spaces, and the text
`Time: 12.5, CH1: 3.0,` itself. -/
theorem lexicalParser_joinSpaces_witness :
    LexicalParser refLib "Time : 12.5 , CH1 : 3.0 ,".toList
      = some ["Time".toList, ":".toList, "12.5".toList, ",".toList, "CH1".toList,
          ":".toList, "3.0".toList, ",".toList]
    ∧ LexicalParser refLib "Time: 12.5, CH1: 3.0,".toList
      = some ["Time".toList, ":".toList, "12.5".toList, ",".toList, "CH1".toList,
          ":".toList, "3.0".toList, ",".toList] :=
  ⟨lexicalParser_joinSpaces refLib refLib_sound
      ["Time".toList, ":".toList, "12.5".toList, ",".toList, "CH1".toList,
        ":".toList, "3.0".toList, ",".toList] (by decide),
    by decide⟩

/-! ### The minus sign -/

theorem numberRun_stop {F : Type} (lib : QtLib F) (hasDot : Bool) (rest : List Char)
    (h : continuesNumber lib rest = false) : numberRun lib hasDot rest = [] := by
  cases rest with
  | nil => rfl
  | cons x r =>
    unfold continuesNumber at h
    simp only [Bool.or_eq_false_iff] at h
    simp [numberRun, h.1, h.2]

/-- A `-` that the number loop cannot continue is a token of its own. -/
theorem lexList_minus {F : Type} (lib : QtLib F) (hs : lib.Sound) (rest : List Char)
    (h : continuesNumber lib rest = false) :
    lexList lib ('-' :: rest).length ('-' :: rest) = ['-'] :: lexList lib rest.length rest := by
  obtain ⟨h1, h2, _, _⟩ := sound_minus lib hs
  have hd : isDot '-' = false := by decide
  rw [lexList_cons, hd, numberRun_stop lib false rest h]
  simp [h1, h2]

/-- The tokens around a `-` that the number loop cannot continue. -/
theorem lexList_around_minus {F : Type} (lib : QtLib F) (hs : lib.Sound)
    (pre rest : List Char) (h : continuesNumber lib rest = false) :
    lexList lib (pre ++ '-' :: rest).length (pre ++ '-' :: rest)
      = lexList lib pre.length pre ++ ['-'] :: lexList lib rest.length rest := by
  obtain ⟨_, _, h3, h4⟩ := sound_minus lib hs
  rw [lexList_cut lib '-' rest h4 (by decide) h3 pre.length pre (le_refl _),
    lexList_minus lib hs rest h]

/-- The tokens around a space. -/
theorem lexList_around_blank {F : Type} (lib : QtLib F) (hs : lib.Sound)
    (pre rest : List Char) :
    lexList lib (pre ++ ' ' :: rest).length (pre ++ ' ' :: rest)
      = lexList lib pre.length pre ++ lexList lib rest.length rest := by
  obtain ⟨_, h2, h3⟩ := sound_blank lib hs
  rw [lexList_cut lib ' ' rest h3 (by decide) h2 pre.length pre (le_refl _),
    lexList_space lib hs rest]

/-- C15 (as amended). A `-` followed by digits with at most one `.` among them is the
single token made of the `-` and these characters; and a `-` that is followed by the end
of the input or by a character that is neither a digit nor `.` is emitted as the
one-character token `-`, between the tokens of the text before it and those of the text
after it. -/
theorem minus_token {F : Type} (lib : QtLib F) (hs : lib.Sound) :
    (∀ d : List Char, isNumeralTail lib false d = true →
        LexicalParser lib ('-' :: d) = some ['-' :: d])
      ∧ (∀ pre rest : List Char, continuesNumber lib rest = false →
          ∃ t1 t2, LexicalParser lib pre = some t1 ∧ LexicalParser lib rest = some t2
            ∧ LexicalParser lib (pre ++ '-' :: rest) = some (t1 ++ ['-'] :: t2)) := by
  constructor
  · intro d hd
    have hn : isNumeral lib ('-' :: d) = true := by
      have hdot : isDot '-' = false := by decide
      show ((lib.isDigit '-' || isDot '-' || '-' == '-') && isNumeralTail lib (isDot '-') d)
        = true
      rw [hdot, hd]
      simp
    rw [lexicalParser_eq, lexList_lexeme lib hs ('-' :: d) (Or.inr (Or.inl hn))]
  · intro pre rest h
    refine ⟨_, _, lexicalParser_eq lib pre, lexicalParser_eq lib rest, ?_⟩
    rw [lexicalParser_eq, lexList_around_minus lib hs pre rest h]

/-- C15, witness of the amended statement: `-3.2` is one token, and the `-` of `a- b`
is a token of its own. -/
theorem minus_token_witness :
    LexicalParser refLib "-3.2".toList = some ["-3.2".toList]
    ∧ (∃ t1 t2, LexicalParser refLib "a".toList = some t1
        ∧ LexicalParser refLib " b".toList = some t2
        ∧ LexicalParser refLib "a- b".toList = some (t1 ++ ['-'] :: t2))
    ∧ LexicalParser refLib "a- b".toList = some ["a".toList, "-".toList, "b".toList] :=
  ⟨(minus_token refLib refLib_sound).1 "3.2".toList (by decide),
    (minus_token refLib refLib_sound).2 "a".toList " b".toList (by decide),
    by decide⟩

/-- C15, counterexample to the claim as stated: in `-.5` the `-` is followed by `.`,
which is not a digit, and the only token is `-.5`; no token `-` is emitted. -/
theorem minus_token_counterexample :
    refLib.isDigit '.' = false
    ∧ LexicalParser refLib "-.5".toList = some ["-.5".toList]
    ∧ "-".toList ∉ ["-.5".toList] := by
  decide

/-- C18 (as amended). A `-` that is followed by the end of the input or by a character
that is neither a digit nor `.` is not dropped: the token list is the one obtained with
the `-` replaced by a space, with the token `-` inserted between the tokens of the text
before the `-` and those of the text after it. -/
theorem stray_minus_kept {F : Type} (lib : QtLib F) (hs : lib.Sound)
    (pre rest : List Char) (h : continuesNumber lib rest = false) :
    ∃ t1 t2, LexicalParser lib pre = some t1 ∧ LexicalParser lib rest = some t2
      ∧ LexicalParser lib (pre ++ ' ' :: rest) = some (t1 ++ t2)
      ∧ LexicalParser lib (pre ++ '-' :: rest) = some (t1 ++ ['-'] :: t2) := by
  refine ⟨_, _, lexicalParser_eq lib pre, lexicalParser_eq lib rest, ?_, ?_⟩
  · rw [lexicalParser_eq, lexList_around_blank lib hs pre rest]
  · rw [lexicalParser_eq, lexList_around_minus lib hs pre rest h]

/-- C18, witness of the amended statement: `A: -x,` against `A:  x,`. -/
theorem stray_minus_kept_witness :
    (∃ t1 t2, LexicalParser refLib "A: ".toList = some t1
      ∧ LexicalParser refLib "x,".toList = some t2
      ∧ LexicalParser refLib "A:  x,".toList = some (t1 ++ t2)
      ∧ LexicalParser refLib "A: -x,".toList = some (t1 ++ ['-'] :: t2))
    ∧ LexicalParser refLib "A: -x,".toList
      = some ["A".toList, ":".toList, "-".toList, "x".toList, ",".toList] :=
  ⟨stray_minus_kept refLib refLib_sound "A: ".toList "x,".toList (by decide), by decide⟩

/-- C18, counterexample to the claim as stated: in `-x` the `-` is not followed by a
digit, and it is emitted as the token `-`; with a space in its place the only token
is `x`. -/
theorem stray_minus_counterexample :
    refLib.isDigit 'x' = false
    ∧ LexicalParser refLib "-x".toList = some ["-".toList, "x".toList]
    ∧ LexicalParser refLib " x".toList = some ["x".toList]
    ∧ LexicalParser refLib "-x".toList ≠ LexicalParser refLib " x".toList := by
  decide

/-! ### Characters of no class -/

theorem refLib_numbers_apart :
    ∀ c : Char, refLib.isLetterOrNumber c = true → refLib.isSpace c = false := by
  intro c hc
  have hc2 : c.isAlphanum = true := hc
  rcases (char_isAlphanum_iff c).mp hc2 with h | h
  · have hb := (char_isAlpha_iff c).mp h
    exact refSpace_eq_false c (by omega)
  · have hb := (char_isDigit_iff c).mp h
    exact refSpace_eq_false c (by omega)

theorem fractionLib_sound : fractionLib.Sound := by
  refine ⟨?_, ?_, ?_⟩
  · intro c hc
    obtain ⟨h1, h2, h3, _⟩ := refLib_sound.ascii c hc
    refine ⟨h1, h2, h3, ?_⟩
    have hne : (c == oneHalf) = false := by
      apply bool_eq_false_of_not
      intro h
      rw [beq_iff_eq.mp h] at hc
      exact absurd hc (by decide)
    show (c.isAlphanum || c == oneHalf) = c.isAlphanum
    rw [hne, Bool.or_false]
  · intro c hc
    obtain ⟨h1, h2⟩ := refLib_sound.letter c hc
    refine ⟨h1, ?_⟩
    have h3 : c.isAlphanum = true := h2
    show (c.isAlphanum || c == oneHalf) = true
    rw [h3, Bool.true_or]
  · intro c hc
    obtain ⟨h1, h2, h3⟩ := refLib_sound.digit c hc
    refine ⟨h1, h2, ?_⟩
    have h4 : c.isAlphanum = true := h3
    show (c.isAlphanum || c == oneHalf) = true
    rw [h4, Bool.true_or]

theorem fractionLib_numbers_apart :
    ∀ c : Char, fractionLib.isLetterOrNumber c = true → fractionLib.isSpace c = false := by
  intro c hc
  have hc2 : (c.isAlphanum || c == oneHalf) = true := hc
  rcases Bool.or_eq_true_iff.mp hc2 with h | h
  · exact refLib_numbers_apart c h
  · rw [beq_iff_eq.mp h]
    decide

/-- A character of no class is skipped. -/
theorem lexList_other {F : Type} (lib : QtLib F) (x : Char) (rest : List Char)
    (h1 : lib.isSpace x = false) (h2 : lib.isLetter x = false) (h3 : lib.isDigit x = false)
    (h4 : isDot x = false) (h5 : x ≠ '-') (h6 : isSep x = false) :
    lexList lib (x :: rest).length (x :: rest) = lexList lib rest.length rest := by
  have h7 : (x == '-') = false := bool_eq_false_of_not (fun h => h5 (beq_iff_eq.mp h))
  rw [lexList_cons, h1, h2, h3, h4, h6, h7]
  simp

theorem numberRun_mem {F : Type} (lib : QtLib F) :
    ∀ (l : List Char) (hasDot : Bool), ∀ c ∈ numberRun lib hasDot l,
      lib.isDigit c = true ∨ isDot c = true := by
  intro l
  induction l with
  | nil =>
    intro hasDot c hc
    rw [numberRun] at hc
    exact absurd hc (List.not_mem_nil c)
  | cons d ds ih =>
    intro hasDot c hc
    rw [numberRun] at hc
    by_cases hd : isDot d = true
    · rw [if_pos hd] at hc
      cases hasDot with
      | true => exact absurd hc (List.not_mem_nil c)
      | false =>
        simp only [Bool.false_eq_true, if_false, List.mem_cons] at hc
        rcases hc with h | h
        · rw [h]
          exact Or.inr hd
        · exact ih true c h
    · rw [if_neg hd] at hc
      by_cases hg : lib.isDigit d = true
      · simp only [hg, Bool.not_true, Bool.false_eq_true, if_false, List.mem_cons] at hc
        rcases hc with h | h
        · rw [h]
          exact Or.inl hg
        · exact ih hasDot c h
      · simp only [bool_eq_false_of_not hg, Bool.not_false, if_true] at hc
        exact absurd hc (List.not_mem_nil c)

/-- No token holds a whitespace character. -/
theorem lexList_no_space {F : Type} (lib : QtLib F) (hs : lib.Sound)
    (hln : ∀ c : Char, lib.isLetterOrNumber c = true → lib.isSpace c = false) :
    ∀ (n : Nat) (l : List Char), l.length ≤ n →
      ∀ t ∈ lexList lib l.length l, ∀ c ∈ t, lib.isSpace c = false := by
  intro n
  induction n with
  | zero =>
    intro l h t ht
    have hl : l = [] := List.length_eq_zero.mp (by omega)
    subst hl
    exact absurd ht (List.not_mem_nil t)
  | succ n ih =>
    intro l h t ht
    cases l with
    | nil => exact absurd ht (List.not_mem_nil t)
    | cons ch rest =>
      simp only [List.length_cons] at h
      have hdw := dropWhile_length_le lib.isLetterOrNumber rest
      rw [lexList_cons] at ht
      by_cases h1 : lib.isSpace ch = true
      · rw [if_pos h1] at ht
        exact ih rest (by omega) t ht
      · rw [if_neg h1] at ht
        have hch : lib.isSpace ch = false := bool_eq_false_of_not h1
        by_cases h2 : lib.isLetter ch = true
        · rw [if_pos h2, List.mem_cons] at ht
          rcases ht with ht | ht
          · intro c hc
            rw [ht, List.mem_cons] at hc
            rcases hc with hc | hc
            · rw [hc]
              exact hch
            · exact hln c (List.mem_takeWhile_imp hc)
          · exact ih _ (by omega) t ht
        · rw [if_neg h2] at ht
          by_cases h3 : (lib.isDigit ch || isDot ch || ch == '-') = true
          · rw [if_pos h3, List.mem_cons] at ht
            rcases ht with ht | ht
            · intro c hc
              rw [ht, List.mem_cons] at hc
              rcases hc with hc | hc
              · rw [hc]
                exact hch
              · rcases numberRun_mem lib rest (isDot ch) c hc with hd | hd
                · exact (hs.digit c hd).1
                · rw [(isDot_iff c).mp hd]
                  exact (sound_dot lib hs).1
            · exact ih _ (by rw [List.length_drop]; omega) t ht
          · rw [if_neg h3] at ht
            by_cases h4 : isSep ch = true
            · rw [if_pos h4, List.mem_cons] at ht
              rcases ht with ht | ht
              · intro c hc
                rw [ht, List.mem_singleton] at hc
                rw [hc]
                exact hch
              · exact ih rest (by omega) t ht
            · rw [if_neg h4] at ht
              exact ih rest (by omega) t ht

/-- C17 (as amended). A character that is not whitespace, not a letter, not a digit,
not a letter-or-number, and none of `.`, `-`, `:` and `,` is dropped like whitespace:
replacing it by a space does not change the token list. And no token holds a whitespace
character, whitespace and letters-or-numbers being disjoint. -/
theorem unrecognized_dropped {F : Type} (lib : QtLib F) (hs : lib.Sound)
    (hln : ∀ c : Char, lib.isLetterOrNumber c = true → lib.isSpace c = false) :
    (∀ (pre : List Char) (x : Char) (rest : List Char),
        lib.isSpace x = false → lib.isLetter x = false → lib.isDigit x = false →
        lib.isLetterOrNumber x = false → x ≠ '.' → x ≠ '-' → x ≠ ':' → x ≠ ',' →
        ∃ toks, LexicalParser lib (pre ++ x :: rest) = some toks
          ∧ LexicalParser lib (pre ++ ' ' :: rest) = some toks)
      ∧ (∀ (s : QString) (toks : List QString), LexicalParser lib s = some toks →
          ∀ t ∈ toks, ∀ c ∈ t, lib.isSpace c = false) := by
  constructor
  · intro pre x rest h1 h2 h3 h4 h5 h6 h7 h8
    have hdot : isDot x = false := bool_eq_false_of_not (fun h => h5 ((isDot_iff x).mp h))
    have hsep : isSep x = false := by
      apply bool_eq_false_of_not
      intro h
      unfold isSep at h
      simp only [Bool.or_eq_true, beq_iff_eq] at h
      rcases h with h | h
      · exact h7 h
      · exact h8 h
    refine ⟨lexList lib pre.length pre ++ lexList lib rest.length rest, ?_, ?_⟩
    · rw [lexicalParser_eq, lexList_cut lib x rest h4 hdot h3 pre.length pre (le_refl _),
        lexList_other lib x rest h1 h2 h3 hdot h6 hsep]
    · rw [lexicalParser_eq, lexList_around_blank lib hs pre rest]
  · intro s toks h
    rw [lexicalParser_eq] at h
    rw [← Option.some.inj h]
    exact lexList_no_space lib hs hln s.length s (le_refl _)

/-- C17, witness of the amended statement: `#` and `=` in `#A = 1.5` against spaces,
with the library in which `oneHalf` is a letter-or-number as well. -/
theorem unrecognized_dropped_witness :
    (∃ toks, LexicalParser fractionLib "#A = 1.5".toList = some toks
      ∧ LexicalParser fractionLib " A = 1.5".toList = some toks)
    ∧ (∃ toks, LexicalParser refLib "#A = 1.5".toList = some toks
      ∧ LexicalParser refLib "#A   1.5".toList = some toks)
    ∧ LexicalParser refLib "#A = 1.5".toList = some ["A".toList, "1.5".toList]
    ∧ (∀ t ∈ ["A".toList, "1.5".toList], ∀ c ∈ t, refLib.isSpace c = false) :=
  ⟨(unrecognized_dropped fractionLib fractionLib_sound fractionLib_numbers_apart).1 [] '#'
      "A = 1.5".toList
      (by decide) (by decide) (by decide) (by decide) (by decide) (by decide) (by decide)
      (by decide),
    (unrecognized_dropped refLib refLib_sound refLib_numbers_apart).1 "#A ".toList '='
      " 1.5".toList
      (by decide) (by decide) (by decide) (by decide) (by decide) (by decide) (by decide)
      (by decide),
    by decide,
    (unrecognized_dropped refLib refLib_sound refLib_numbers_apart).2 "#A = 1.5".toList _
      (by decide)⟩

/-- C17, counterexample to the claim as stated: `oneHalf` is not whitespace, not a
letter, not a digit and none of `.`, `-`, `:`, `,`, but it is a letter-or-number, so it
continues an identifier: `a½b` is one token, and with a space in its place there are the
two tokens `a` and `b`. -/
theorem unrecognized_dropped_counterexample :
    fractionLib.isSpace oneHalf = false ∧ fractionLib.isLetter oneHalf = false
    ∧ fractionLib.isDigit oneHalf = false
    ∧ oneHalf ≠ '.' ∧ oneHalf ≠ '-' ∧ oneHalf ≠ ':' ∧ oneHalf ≠ ','
    ∧ LexicalParser fractionLib ['a', oneHalf, 'b'] = some [['a', oneHalf, 'b']]
    ∧ LexicalParser fractionLib ['a', ' ', 'b'] = some [['a'], ['b']] := by
  decide

/-! ### The classes of the tokens -/

theorem isNumeralTail_dot_first {F : Type} (lib : QtLib F) (c : Char) (cs : List Char)
    (hc : isDot c = true) :
    isNumeralTail lib false (c :: cs) = isNumeralTail lib true cs := by
  unfold isNumeralTail dotBudget
  simp only [List.all_cons, List.countP_cons, hc, if_true, Bool.or_true, Bool.true_and,
    Bool.false_eq_true, if_false]
  congr 1
  apply decide_eq_decide.mpr
  omega

theorem isNumeralTail_dot_second {F : Type} (lib : QtLib F) (c : Char) (cs : List Char)
    (hc : isDot c = true) : isNumeralTail lib true (c :: cs) = false := by
  unfold isNumeralTail dotBudget
  simp only [List.countP_cons, hc, if_true]
  have h : decide (List.countP isDot cs + 1 ≤ 0) = false := decide_eq_false (by omega)
  rw [h, Bool.and_false]

theorem isNumeralTail_digit {F : Type} (lib : QtLib F) (hasDot : Bool) (c : Char)
    (cs : List Char) (hc : isDot c = false) (hd : lib.isDigit c = true) :
    isNumeralTail lib hasDot (c :: cs) = isNumeralTail lib hasDot cs := by
  unfold isNumeralTail
  simp only [List.all_cons, List.countP_cons, hc, hd, Bool.or_false, Bool.true_and,
    Bool.false_eq_true, if_false, Nat.add_zero]

theorem isNumeralTail_other {F : Type} (lib : QtLib F) (hasDot : Bool) (c : Char)
    (cs : List Char) (hc : isDot c = false) (hd : lib.isDigit c = false) :
    isNumeralTail lib hasDot (c :: cs) = false := by
  unfold isNumeralTail
  simp only [List.all_cons, hc, hd, Bool.or_false, Bool.false_and]

/-- The characters taken by the number loop are digits and dots within the budget. -/
theorem numberRun_tail {F : Type} (lib : QtLib F) :
    ∀ (l : List Char) (hasDot : Bool),
      isNumeralTail lib hasDot (numberRun lib hasDot l) = true := by
  intro l
  induction l with
  | nil =>
    intro hasDot
    rw [numberRun]
    unfold isNumeralTail
    simp
  | cons c cs ih =>
    intro hasDot
    have hnil : isNumeralTail lib hasDot [] = true := by
      unfold isNumeralTail
      simp
    rw [numberRun]
    by_cases hc : isDot c = true
    · rw [if_pos hc]
      cases hasDot with
      | true => exact hnil
      | false =>
        simp only [Bool.false_eq_true, if_false]
        rw [isNumeralTail_dot_first lib c _ hc]
        exact ih true
    · rw [if_neg hc]
      by_cases hd : lib.isDigit c = true
      · simp only [hd, Bool.not_true, Bool.false_eq_true, if_false]
        rw [isNumeralTail_digit lib hasDot c _ (bool_eq_false_of_not hc) hd]
        exact ih hasDot
      · simp only [bool_eq_false_of_not hd, Bool.not_false, if_true]
        exact hnil

/-- The number loop stops at a character that cannot extend the numeral. -/
theorem numberRun_maximal {F : Type} (lib : QtLib F) :
    ∀ (l : List Char) (hasDot : Bool) (x : Char) (r : List Char),
      l.drop (numberRun lib hasDot l).length = x :: r →
      isNumeralTail lib hasDot (numberRun lib hasDot l ++ [x]) = false := by
  intro l
  induction l with
  | nil =>
    intro hasDot x r h
    rw [numberRun] at h
    exact absurd h (by simp)
  | cons c cs ih =>
    intro hasDot x r h
    rw [numberRun] at h ⊢
    by_cases hc : isDot c = true
    · rw [if_pos hc] at h ⊢
      cases hasDot with
      | true =>
        simp only [if_true, List.length_nil, List.drop_zero, List.cons.injEq] at h
        simp only [if_true, List.nil_append]
        rw [← h.1]
        exact isNumeralTail_dot_second lib c [] hc
      | false =>
        simp only [Bool.false_eq_true, if_false, List.length_cons, List.drop_succ_cons] at h
        simp only [Bool.false_eq_true, if_false, List.cons_append]
        rw [isNumeralTail_dot_first lib c _ hc]
        exact ih true x r h
    · rw [if_neg hc] at h ⊢
      by_cases hd : lib.isDigit c = true
      · simp only [hd, Bool.not_true, Bool.false_eq_true, if_false, List.length_cons,
          List.drop_succ_cons] at h
        simp only [hd, Bool.not_true, Bool.false_eq_true, if_false, List.cons_append]
        rw [isNumeralTail_digit lib hasDot c _ (bool_eq_false_of_not hc) hd]
        exact ih hasDot x r h
      · simp only [bool_eq_false_of_not hd, Bool.not_false, if_true, List.length_nil,
          List.drop_zero, List.cons.injEq] at h
        simp only [bool_eq_false_of_not hd, Bool.not_false, if_true, List.nil_append]
        rw [← h.1]
        exact isNumeralTail_other lib hasDot c [] (bool_eq_false_of_not hc)
          (bool_eq_false_of_not hd)

theorem dropWhile_head_not {α : Type} (p : α → Bool) :
    ∀ (l : List α) (x : α) (r : List α), l.dropWhile p = x :: r → p x = false := by
  intro l
  induction l with
  | nil =>
    intro x r h
    exact absurd h (by simp)
  | cons c cs ih =>
    intro x r h
    rw [List.dropWhile_cons] at h
    by_cases hc : p c = true
    · rw [if_pos hc] at h
      exact ih x r h
    · rw [if_neg hc] at h
      rw [← (List.cons.inj h).1]
      exact bool_eq_false_of_not hc

theorem maximalIn_intro (cls : QString → Bool) (t rest : List Char) (h1 : cls t = true)
    (h2 : ∀ x r, rest = x :: r → cls (t ++ [x]) = false) : maximalIn cls t rest = true := by
  unfold maximalIn
  rw [h1]
  cases rest with
  | nil => rfl
  | cons x r => simp [h2 x r rfl]

theorem maximalIn_class (cls : QString → Bool) (t rest : List Char)
    (h : maximalIn cls t rest = true) : cls t = true := by
  unfold maximalIn at h
  exact (Bool.and_eq_true_iff.mp h).1

theorem segmented_skip {F : Type} (lib : QtLib F) (c : Char) (rest : List Char)
    (toks : List QString) (hc : isSkipped lib c = true) (h : Segmented lib rest toks) :
    Segmented lib (c :: rest) toks := by
  cases toks with
  | nil =>
    rw [Segmented] at h ⊢
    intro d hd
    rcases List.mem_cons.mp hd with e | e
    · rw [e]
      exact hc
    · exact h d e
  | cons t ts =>
    rw [Segmented] at h ⊢
    obtain ⟨gap, r, hs, hgap, hcls, hseg⟩ := h
    refine ⟨c :: gap, r, by rw [hs]; rfl, ?_, hcls, hseg⟩
    intro d hd
    rcases List.mem_cons.mp hd with e | e
    · rw [e]
      exact hc
    · exact hgap d e

theorem segmented_token {F : Type} (lib : QtLib F) (t rest : List Char) (toks : List QString)
    (hcls : maximalIn (isWordToken lib) t rest = true ∨ maximalIn (isNumeral lib) t rest = true
      ∨ maximalIn isSepToken t rest = true)
    (h : Segmented lib rest toks) : Segmented lib (t ++ rest) (t :: toks) := by
  rw [Segmented]
  exact ⟨[], rest, rfl, fun c hc => absurd hc (List.not_mem_nil c), hcls, h⟩

/-- The tokens cut the text into maximal tokens of the three classes. -/
theorem lexList_segmented {F : Type} (lib : QtLib F) :
    ∀ (n : Nat) (l : List Char), l.length ≤ n → Segmented lib l (lexList lib l.length l) := by
  intro n
  induction n with
  | zero =>
    intro l h
    have hl : l = [] := List.length_eq_zero.mp (by omega)
    subst hl
    show Segmented lib [] []
    rw [Segmented]
    intro c hc
    exact absurd hc (List.not_mem_nil c)
  | succ n ih =>
    intro l h
    cases l with
    | nil =>
      show Segmented lib [] []
      rw [Segmented]
      intro c hc
      exact absurd hc (List.not_mem_nil c)
    | cons ch rest =>
      simp only [List.length_cons] at h
      have hdw := dropWhile_length_le lib.isLetterOrNumber rest
      rw [lexList_cons]
      by_cases h1 : lib.isSpace ch = true
      · rw [if_pos h1]
        exact segmented_skip lib ch rest _ (by unfold isSkipped; rw [h1]; rfl)
          (ih rest (by omega))
      · rw [if_neg h1]
        by_cases h2 : lib.isLetter ch = true
        · rw [if_pos h2]
          have hsplit : ch :: rest = (ch :: rest.takeWhile lib.isLetterOrNumber)
              ++ rest.dropWhile lib.isLetterOrNumber := by
            rw [List.cons_append, List.takeWhile_append_dropWhile]
          have hword : isWordToken lib (ch :: rest.takeWhile lib.isLetterOrNumber) = true := by
            show (lib.isLetter ch && (rest.takeWhile lib.isLetterOrNumber).all
              lib.isLetterOrNumber) = true
            rw [h2, Bool.true_and, List.all_eq_true]
            intro c hc
            exact List.mem_takeWhile_imp hc
          have hmax : maximalIn (isWordToken lib) (ch :: rest.takeWhile lib.isLetterOrNumber)
              (rest.dropWhile lib.isLetterOrNumber) = true := by
            apply maximalIn_intro _ _ _ hword
            intro x r hx
            have hxn := dropWhile_head_not lib.isLetterOrNumber rest x r hx
            show (lib.isLetter ch && (rest.takeWhile lib.isLetterOrNumber ++ [x]).all
              lib.isLetterOrNumber) = false
            rw [List.all_append]
            simp [hxn]
          conv_lhs => rw [hsplit]
          exact segmented_token lib _ _ _ (Or.inl hmax) (ih _ (by omega))
        · rw [if_neg h2]
          by_cases h3 : (lib.isDigit ch || isDot ch || ch == '-') = true
          · rw [if_pos h3]
            have hsplit : ch :: rest = (ch :: numberRun lib (isDot ch) rest)
                ++ rest.drop (numberRun lib (isDot ch) rest).length := by
              rw [List.cons_append]
              conv_lhs => rw [← List.take_append_drop (numberRun lib (isDot ch) rest).length rest]
              rw [numberRun_take]
            have hnum : isNumeral lib (ch :: numberRun lib (isDot ch) rest) = true := by
              show ((lib.isDigit ch || isDot ch || ch == '-')
                && isNumeralTail lib (isDot ch) (numberRun lib (isDot ch) rest)) = true
              rw [h3, numberRun_tail]
              rfl
            have hmax : maximalIn (isNumeral lib) (ch :: numberRun lib (isDot ch) rest)
                (rest.drop (numberRun lib (isDot ch) rest).length) = true := by
              apply maximalIn_intro _ _ _ hnum
              intro x r hx
              show ((lib.isDigit ch || isDot ch || ch == '-')
                && isNumeralTail lib (isDot ch) (numberRun lib (isDot ch) rest ++ [x])) = false
              rw [numberRun_maximal lib rest (isDot ch) x r hx, Bool.and_false]
            conv_lhs => rw [hsplit]
            exact segmented_token lib _ _ _ (Or.inr (Or.inl hmax))
              (ih _ (by rw [List.length_drop]; omega))
          · rw [if_neg h3]
            by_cases h4 : isSep ch = true
            · rw [if_pos h4]
              have hsep : isSepToken [ch] = true := by
                unfold isSep at h4
                simp only [Bool.or_eq_true, beq_iff_eq] at h4
                rcases h4 with e | e
                · rw [e]
                  rfl
                · rw [e]
                  rfl
              have hmax : maximalIn isSepToken [ch] rest = true := by
                apply maximalIn_intro _ _ _ hsep
                intro x r _
                unfold isSepToken
                simp
              exact segmented_token lib [ch] rest _ (Or.inr (Or.inr hmax)) (ih rest (by omega))
            · rw [if_neg h4]
              have hskip : isSkipped lib ch = true := by
                unfold isSkipped
                simp only [bool_eq_false_of_not h1, bool_eq_false_of_not h2, Bool.false_or,
                  bool_eq_false_of_not h3, bool_eq_false_of_not h4, Bool.not_false]
              exact segmented_skip lib ch rest _ hskip (ih rest (by omega))

theorem segmented_nonempty {F : Type} (lib : QtLib F) :
    ∀ (toks : List QString) (s : List Char), Segmented lib s toks → ∀ t ∈ toks, t ≠ [] := by
  intro toks
  induction toks with
  | nil =>
    intro s _ t ht
    exact absurd ht (List.not_mem_nil t)
  | cons t0 ts ih =>
    intro s h t ht
    rw [Segmented] at h
    obtain ⟨gap, r, _, _, hcls, hseg⟩ := h
    rcases List.mem_cons.mp ht with e | e
    · intro hnil
      rw [e] at hnil
      rw [hnil] at hcls
      rcases hcls with h1 | h1 | h1
      · exact absurd (maximalIn_class _ _ _ h1) (by simp [isWordToken])
      · exact absurd (maximalIn_class _ _ _ h1) (by simp [isNumeral])
      · exact absurd (maximalIn_class _ _ _ h1) (by decide)
    · exact ih r hseg t e

/-- The three classes of tokens exclude one another. -/
theorem token_classes_apart {F : Type} (lib : QtLib F) (hs : lib.Sound) (t : QString) :
    (isWordToken lib t = true → isNumeral lib t = false ∧ isSepToken t = false)
      ∧ (isNumeral lib t = true → isSepToken t = false) := by
  cases t with
  | nil =>
    constructor
    · intro h
      exact absurd h (by simp [isWordToken])
    · intro h
      exact absurd h (by simp [isNumeral])
  | cons c cs =>
    have hsepc : isSepToken (c :: cs) = true → c = ':' ∨ c = ',' := by
      intro h
      unfold isSepToken at h
      simp only [Bool.or_eq_true, beq_iff_eq, List.cons.injEq] at h
      rcases h with h | h
      · exact Or.inl h.1
      · exact Or.inr h.1
    constructor
    · intro h
      have hl : lib.isLetter c = true := by
        have h2 : (lib.isLetter c && cs.all lib.isLetterOrNumber) = true := h
        exact (Bool.and_eq_true_iff.mp h2).1
      constructor
      · apply bool_eq_false_of_not
        intro hn
        have h2 : ((lib.isDigit c || isDot c || c == '-')
          && isNumeralTail lib (isDot c) cs) = true := hn
        have h3 := (Bool.and_eq_true_iff.mp h2).1
        simp only [Bool.or_eq_true, beq_iff_eq] at h3
        rcases h3 with (h3 | h3) | h3
        · rw [(hs.digit c h3).2.1] at hl
          exact absurd hl Bool.false_ne_true
        · rw [(isDot_iff c).mp h3, (sound_dot lib hs).2.1] at hl
          exact absurd hl Bool.false_ne_true
        · rw [h3, (sound_minus lib hs).2.1] at hl
          exact absurd hl Bool.false_ne_true
      · apply bool_eq_false_of_not
        intro hn
        rcases hsepc hn with e | e
        · rw [e, (sound_colon lib hs).2.1] at hl
          exact absurd hl Bool.false_ne_true
        · rw [e, (sound_comma lib hs).2.1] at hl
          exact absurd hl Bool.false_ne_true
    · intro h
      have h2 : ((lib.isDigit c || isDot c || c == '-')
        && isNumeralTail lib (isDot c) cs) = true := h
      have h3 := (Bool.and_eq_true_iff.mp h2).1
      apply bool_eq_false_of_not
      intro hn
      rcases hsepc hn with e | e
      · rw [e, (sound_colon lib hs).2.2.1] at h3
        exact absurd h3 (by decide)
      · rw [e, (sound_comma lib hs).2.2.1] at h3
        exact absurd h3 (by decide)

/-- C16 (as amended). For every input, `LexicalParser` returns, every token is non-empty,
and the tokens cut the input in order: each token is preceded by dropped characters
only and is, maximally (the character that follows it in the input, if any, appended to
it would leave the class), one of (i) a letter followed by letters-or-numbers, (ii) a
first character digit, `.` or `-` followed by digits and `.`, with at most one `.` in
the whole token, (iii) the single character `:` or `,`. With the Qt classes the three
classes exclude one another. -/
theorem tokens_classified {F : Type} (lib : QtLib F) (s : QString) :
    ∃ toks, LexicalParser lib s = some toks ∧ (∀ t ∈ toks, t ≠ []) ∧ Segmented lib s toks
      ∧ (lib.Sound → ∀ t : QString,
          (isWordToken lib t = true → isNumeral lib t = false ∧ isSepToken t = false)
            ∧ (isNumeral lib t = true → isSepToken t = false)) := by
  have hseg := lexList_segmented lib s.length s (le_refl _)
  exact ⟨_, lexicalParser_eq lib s, segmented_nonempty lib _ s hseg, hseg,
    fun hs t => token_classes_apart lib hs t⟩

/-- C16, witness of the amended statement: `1.2.3` yields `1.2` and `.3`; the first
token cannot take the second dot. -/
theorem tokens_classified_witness :
    (∃ toks, LexicalParser refLib "1.2.3".toList = some toks ∧ (∀ t ∈ toks, t ≠ [])
      ∧ Segmented refLib "1.2.3".toList toks
      ∧ ∀ t : QString,
          (isWordToken refLib t = true → isNumeral refLib t = false ∧ isSepToken t = false)
            ∧ (isNumeral refLib t = true → isSepToken t = false))
    ∧ LexicalParser refLib "1.2.3".toList = some ["1.2".toList, ".3".toList]
    ∧ maximalIn (isNumeral refLib) "1.2".toList ".3".toList = true
    ∧ isNumeral refLib "1.2.".toList = false :=
  ⟨(tokens_classified refLib "1.2.3".toList).elim
      (fun toks h => ⟨toks, h.1, h.2.1, h.2.2.1, h.2.2.2 refLib_sound⟩),
    by decide, by decide, by decide⟩

/-- C16, counterexample to the claim as stated: `oneHalf` is a letter-or-number that
is neither a letter nor a digit, and `a½` is one token; its second character being no
letter and no digit, the token is in none of the three classes of the claim. -/
theorem tokens_classified_counterexample :
    LexicalParser fractionLib ['a', oneHalf] = some [['a', oneHalf]]
    ∧ fractionLib.isLetter oneHalf = false ∧ fractionLib.isDigit oneHalf = false
    ∧ isIdentifier fractionLib ['a', oneHalf] = false
    ∧ isNumeral fractionLib ['a', oneHalf] = false
    ∧ isSepToken ['a', oneHalf] = false := by
  decide

/-! ### The stop request -/

theorem restartSampling_stopped {F : Type} (lib : QtLib F) (st : DsoInput F)
    (file : Option (List Char)) (h : st.capturing = false) :
    st.restartSampling lib file = some st := by
  unfold DsoInput.restartSampling
  simp [h]

theorem runOps_stopped {F : Type} (lib : QtLib F) :
    ∀ (ops : List TailerOp) (st : DsoInput F), st.capturing = false → st.bQuit = true →
      runOps lib st ops = some st := by
  intro ops
  induction ops with
  | nil =>
    intro st _ _
    rfl
  | cons op ops ih =>
    intro st h1 h2
    cases op with
    | tick file =>
      rw [runOps, restartSampling_stopped lib st file h1]
      exact ih st h1 h2
    | quit =>
      have hq : st.quitSampling = st := by
        unfold DsoInput.quitSampling
        rw [← h1, ← h2]
      rw [runOps, hq]
      exact ih st h1 h2

/-- C23. The function `quitSampling` sets `bQuit` and clears `capturing` and changes no
other member: the offset, the device, the registry, the buffers, the snapshot and the
signals stay. After it, whatever ticks and stop requests follow, the state stays the
same, and a tick returns the state unchanged: nothing is read, no signal is emitted and
no tick is requested. -/
theorem quitSampling_stops {F : Type} (lib : QtLib F) (st : DsoInput F) :
    (st.quitSampling.bQuit = true ∧ st.quitSampling.capturing = false)
      ∧ (st.quitSampling.cacheFilePosition = st.cacheFilePosition
        ∧ st.quitSampling.filePos = st.filePos
        ∧ st.quitSampling.currFileReadable = st.currFileReadable
        ∧ st.quitSampling.sampleDatas = st.sampleDatas ∧ st.quitSampling.heap = st.heap
        ∧ st.quitSampling.dsoSettings = st.dsoSettings
        ∧ st.quitSampling.resultData = st.resultData
        ∧ st.quitSampling.acquireInterval = st.acquireInterval
        ∧ st.quitSampling.emitted = st.emitted)
      ∧ (∀ k, st.quitSampling.buffer k = st.buffer k)
      ∧ (∀ (ops : List TailerOp) (st2 : DsoInput F),
          runOps lib st.quitSampling ops = some st2 →
            st2 = st.quitSampling
              ∧ ∀ file, st2.restartSampling lib file = some st2)
      ∧ (∀ ops : List TailerOp, runOps lib st.quitSampling ops = some st.quitSampling) := by
  refine ⟨⟨rfl, rfl⟩, ⟨rfl, rfl, rfl, rfl, rfl, rfl, rfl, rfl, rfl⟩, fun _ => rfl, ?_, ?_⟩
  · intro ops st2 h
    rw [runOps_stopped lib ops st.quitSampling rfl rfl] at h
    rw [← Option.some.inj h]
    exact ⟨rfl, fun file => restartSampling_stopped lib _ file rfl⟩
  · intro ops
    exact runOps_stopped lib ops st.quitSampling rfl rfl

/-! ### Termination of the tokenizer -/

/-- The outer loop of `LexicalParser` is the iteration of `lexStep`. -/
theorem lexLoop_step {F : Type} (lib : QtLib F) (s : QString) (maxLen fuel startPos : Nat)
    (tokens : List QString) :
    lexLoop lib s maxLen (fuel + 1) startPos tokens
      = if startPos < maxLen then
          match lexStep lib s maxLen startPos tokens with
          | none => none
          | some r => lexLoop lib s maxLen fuel r.1 r.2
        else some tokens := by
  rw [lexLoop]
  by_cases h : startPos < maxLen
  · rw [if_pos h, if_pos h]
    unfold lexStep
    cases s[startPos]? with
    | none => rfl
    | some ch =>
      simp only []
      by_cases h1 : lib.isSpace ch = true
      · simp only [h1, if_true]
      · simp only [h1, if_false]
        by_cases h2 : lib.isLetter ch = true
        · simp only [h2, if_true]
          cases scanLetterOrNumber lib s maxLen (maxLen + 1) (startPos + 1) with
          | none => rfl
          | some p =>
            simp only []
            cases midChecked s startPos (p - startPos) with
            | none => rfl
            | some tok => rfl
        · simp only [h2, if_false]
          by_cases h3 : (lib.isDigit ch || isDot ch || ch == '-') = true
          · simp only [h3, if_true]
            cases scanNumber lib s maxLen (maxLen + 1) (isDot ch) (startPos + 1) with
            | none => rfl
            | some p =>
              simp only []
              cases midChecked s startPos (p - startPos) with
              | none => rfl
              | some tok => rfl
          · simp only [h3, if_false]
            by_cases h4 : isSep ch = true
            · simp only [h4, if_true]
              rfl
            · simp only [h4, if_false]
              rfl
  · rw [if_neg h, if_neg h]

/-- Both inner loops and the calls of `mid` stay inside the string. -/
theorem scans_in_range {F : Type} (lib : QtLib F) (s : QString) (startPos : Nat)
    (h : startPos < s.length) :
    (∃ ch, s[startPos]? = some ch)
      ∧ (∃ p tok, scanLetterOrNumber lib s s.length (s.length + 1) (startPos + 1) = some p
          ∧ startPos + 1 ≤ p ∧ p ≤ s.length
          ∧ midChecked s startPos (p - startPos) = some tok)
      ∧ (∀ hasDot, ∃ p tok,
          scanNumber lib s s.length (s.length + 1) hasDot (startPos + 1) = some p
          ∧ startPos + 1 ≤ p ∧ p ≤ s.length
          ∧ midChecked s startPos (p - startPos) = some tok) := by
  have hmid : ∀ p, startPos + 1 ≤ p → p ≤ s.length →
      ∃ tok, midChecked s startPos (p - startPos) = some tok := by
    intro p h1 h2
    unfold midChecked
    rw [if_pos (by omega)]
    exact ⟨_, rfl⟩
  refine ⟨⟨s[startPos], List.getElem?_eq_getElem h⟩, ?_, ?_⟩
  · have hle := takeWhile_length_le lib.isLetterOrNumber (s.drop (startPos + 1))
    rw [List.length_drop] at hle
    obtain ⟨tok, htok⟩ := hmid
      (startPos + 1 + ((s.drop (startPos + 1)).takeWhile lib.isLetterOrNumber).length)
      (by omega) (by omega)
    exact ⟨_, tok, scanLetterOrNumber_eq lib s (s.length + 1) (startPos + 1) (by omega),
      by omega, by omega, htok⟩
  · intro hasDot
    have hle := numberRun_length_le lib (s.drop (startPos + 1)) hasDot
    rw [List.length_drop] at hle
    obtain ⟨tok, htok⟩ := hmid
      (startPos + 1 + (numberRun lib hasDot (s.drop (startPos + 1))).length)
      (by omega) (by omega)
    exact ⟨_, tok, scanNumber_eq lib s (s.length + 1) hasDot (startPos + 1) (by omega),
      by omega, by omega, htok⟩

/-- One iteration returns and advances `startPos` by at least one character, without
leaving the string, and adds at most one token. -/
theorem lexStep_advances {F : Type} (lib : QtLib F) (s : QString) (startPos : Nat)
    (tokens : List QString) (h : startPos < s.length) :
    ∃ p t, lexStep lib s s.length startPos tokens = some (p, t)
      ∧ startPos < p ∧ p ≤ s.length ∧ tokens.length ≤ t.length
      ∧ t.length ≤ tokens.length + 1 := by
  obtain ⟨⟨ch, hch⟩, ⟨p1, tok1, hs1, ha1, hb1, hm1⟩, hnum⟩ := scans_in_range lib s startPos h
  unfold lexStep
  rw [hch]
  simp only []
  by_cases h1 : lib.isSpace ch = true
  · simp only [h1, if_true]
    exact ⟨_, _, rfl, by omega, by omega, le_refl _, by omega⟩
  · simp only [h1, if_false]
    by_cases h2 : lib.isLetter ch = true
    · simp only [h2, if_true, hs1, hm1]
      exact ⟨_, _, rfl, by omega, by omega, by simp, by simp⟩
    · simp only [h2, if_false]
      by_cases h3 : (lib.isDigit ch || isDot ch || ch == '-') = true
      · obtain ⟨p2, tok2, hs2, ha2, hb2, hm2⟩ := hnum (isDot ch)
        simp only [h3, if_true, hs2, hm2]
        exact ⟨_, _, rfl, by omega, by omega, by simp, by simp⟩
      · simp only [h3, if_false]
        by_cases h4 : isSep ch = true
        · simp only [h4, if_true]
          exact ⟨_, _, rfl, by omega, by omega, by simp, by simp⟩
        · simp only [h4, if_false]
          exact ⟨_, _, rfl, by omega, by omega, le_refl _, by omega⟩

theorem lexList_length_le {F : Type} (lib : QtLib F) :
    ∀ (n : Nat) (l : List Char), (lexList lib n l).length ≤ l.length := by
  intro n
  induction n with
  | zero =>
    intro l
    rw [lexList]
    exact Nat.zero_le _
  | succ n ih =>
    intro l
    cases l with
    | nil =>
      rw [lexList]
      exact Nat.zero_le _
    | cons ch rest =>
      have h1 := ih rest
      have h2 := ih (rest.dropWhile lib.isLetterOrNumber)
      have h3 := ih (rest.drop (numberRun lib (isDot ch) rest).length)
      have h4 := dropWhile_length_le lib.isLetterOrNumber rest
      rw [List.length_drop] at h3
      rw [lexList]
      split_ifs <;> simp only [List.length_cons] <;> omega

/-- C25. For every string of length `n`, `LexicalParser` returns, with `n` iterations
allowed, at most `n` tokens; its outer loop is the iteration of `lexStep`, and every
iteration at a position inside the string returns and moves the position forward by at
least one character, not beyond the end of the string, adding at most one token. -/
theorem lexicalParser_terminates {F : Type} (lib : QtLib F) (s : QString) :
    (∃ toks, LexicalParser lib s = some toks ∧ toks.length ≤ s.length)
      ∧ LexicalParser lib s = lexLoop lib s s.length s.length 0 []
      ∧ (∀ (fuel startPos : Nat) (tokens : List QString),
          lexLoop lib s s.length (fuel + 1) startPos tokens
            = if startPos < s.length then
                match lexStep lib s s.length startPos tokens with
                | none => none
                | some r => lexLoop lib s s.length fuel r.1 r.2
              else some tokens)
      ∧ (∀ (startPos : Nat) (tokens : List QString), startPos < s.length →
          ∃ p t, lexStep lib s s.length startPos tokens = some (p, t)
            ∧ startPos < p ∧ p ≤ s.length ∧ tokens.length ≤ t.length
            ∧ t.length ≤ tokens.length + 1) :=
  ⟨⟨_, lexicalParser_eq lib s, lexList_length_le lib s.length s⟩, rfl,
    fun fuel startPos tokens => lexLoop_step lib s s.length fuel startPos tokens,
    fun startPos tokens h => lexStep_advances lib s startPos tokens h⟩

/-! ### Neither stage fails -/

/-- C24. For every string, every index access of `LexicalParser` is inside the string:
both inner loops return a position between the start of the token and the end of the
string, `mid` is asked for a range inside the string, and `LexicalParser` returns; for
every token list `DataParser` returns. The accesses are modelled with checked
indexing, whose failure would make the functions return nothing. -/
theorem parsers_total {F : Type} (lib : QtLib F) :
    (∀ s : QString, ∃ toks, LexicalParser lib s = some toks)
      ∧ (∀ (s : QString) (startPos : Nat), startPos < s.length →
          (∃ ch, s[startPos]? = some ch)
            ∧ (∃ p tok, scanLetterOrNumber lib s s.length (s.length + 1) (startPos + 1) = some p
                ∧ startPos + 1 ≤ p ∧ p ≤ s.length
                ∧ midChecked s startPos (p - startPos) = some tok)
            ∧ (∀ hasDot, ∃ p tok,
                scanNumber lib s s.length (s.length + 1) hasDot (startPos + 1) = some p
                ∧ startPos + 1 ≤ p ∧ p ≤ s.length
                ∧ midChecked s startPos (p - startPos) = some tok))
      ∧ (∀ tokens : List QString, ∃ r, DataParser lib tokens = some r) := by
  exact ⟨fun s => ⟨_, lexicalParser_eq lib s⟩, fun s startPos h => scans_in_range lib s startPos h,
    fun tokens => ⟨_, dataParser_eq lib tokens⟩⟩

/-! ### The padding loop in the driver -/

theorem addEmptyDataLoop_none {F : Type} (v : F) (target : Nat) :
    ∀ (fuel : Nat) (data : List F), fuel + (data.length + 1) < target →
      addEmptyDataLoop v target fuel data = none := by
  intro fuel
  induction fuel with
  | zero =>
    intro data h
    rw [addEmptyDataLoop, if_pos (by omega)]
  | succ n ih =>
    intro data h
    rw [addEmptyDataLoop, if_pos (by omega)]
    exact ih (data ++ [v]) (by simp; omega)

/-- The read loop of a tick returns, with a maximum that is an `int` not below `0`. -/
theorem readLoop_target {F : Type} (lib : QtLib F) (st : DsoInput F)
    (file : Option (List Char)) (hwf : st.RegWF) (hcur : st.CursorWF) :
    ∃ acc : DsoInput F × Int,
      readLoop lib (visibleContent (seekFile (openFile st file)) file)
          ((visibleContent (seekFile (openFile st file)) file).length + 1)
          (seekFile (openFile st file), 0) = some acc
        ∧ 0 ≤ acc.2 ∧ acc.2 < 2 ^ 31 := by
  obtain ⟨e1, e2, _⟩ := openSeek_spec st file hcur
  have hwf2 : (seekFile (openFile st file)).RegWF := by
    unfold DsoInput.RegWF
    rw [e1, e2]
    exact hwf
  obtain ⟨st3, m, hloop, hlines⟩ := readLoop_spec lib
    (visibleContent (seekFile (openFile st file)) file)
    ((visibleContent (seekFile (openFile st file)) file).length + 1)
    (seekFile (openFile st file)) 0 hwf2 (by omega)
  obtain ⟨st4, m4, hrun, _, _, _, hpost⟩ := processLines_spec lib
    (completeLines ((visibleContent (seekFile (openFile st file)) file).drop
      (seekFile (openFile st file)).filePos)) (seekFile (openFile st file)) 0 hwf2
  rw [hlines] at hrun
  have hm : m = m4 := (Prod.mk.inj (Option.some.inj hrun)).2
  exact ⟨_, hloop, by rw [hm]; exact hpost.2.2.1, by rw [hm]; exact hpost.2.2.2.1 (by decide)⟩

/-- C30. In a tick the read loop returns a maximum `maxSize` that is not negative, and
the tick goes on with `finishTick`, which passes it to the padding. For an `int` target `0 ≤ num` the conversion
to `size_t` keeps the value, and the loop of `addEmptyData` on a buffer of length `n`
makes exactly `max(0, num - 1 - n)` iterations: it returns with that many iterations
allowed, appending one sample in each, and with fewer it has not returned. -/
theorem padding_terminates {F : Type} (lib : QtLib F) (st : DsoInput F)
    (file : Option (List Char)) (hwf : st.RegWF) (hcur : st.CursorWF)
    (hcap : st.capturing = true) :
    (∃ acc : DsoInput F × Int,
        readLoop lib (visibleContent (seekFile (openFile st file)) file)
          ((visibleContent (seekFile (openFile st file)) file).length + 1)
          (seekFile (openFile st file), 0) = some acc
        ∧ 0 ≤ acc.2 ∧ acc.2 < 2 ^ 31
        ∧ st.restartSampling lib file = finishTick lib acc)
      ∧ (∀ (v : F) (num : Int) (data : List F), 0 ≤ num → num < 2 ^ 31 →
          ((sizeCast num : Nat) : Int) = num
            ∧ ∀ fuel : Nat, addEmptyDataLoop v (sizeCast num) fuel data
              = if (num - 1 - (data.length : Int)).toNat ≤ fuel then
                  some (data ++ List.replicate (num - 1 - (data.length : Int)).toNat v)
                else none) := by
  constructor
  · obtain ⟨acc, hloop, h0, h1⟩ := readLoop_target lib st file hwf hcur
    refine ⟨acc, hloop, h0, h1, ?_⟩
    unfold DsoInput.restartSampling
    simp only [hcap, Bool.not_true, Bool.false_eq_true, if_false]
    rw [hloop]
  · intro v num data h0 h1
    have hc := sizeCast_of_nonneg num h0 h1
    refine ⟨by rw [hc]; omega, ?_⟩
    intro fuel
    have hk : (num - 1 - (data.length : Int)).toNat = num.toNat - 1 - data.length := by omega
    rw [hc, hk]
    by_cases hf : num.toNat - 1 - data.length ≤ fuel
    · rw [if_pos hf]
      exact addEmptyDataLoop_eq v num.toNat fuel data (by omega)
    · rw [if_neg hf]
      exact addEmptyDataLoop_none v num.toNat fuel data (by omega)

/-- C30, witness: the first tick over the two lines of `exampleLog` reaches the padding
with `maxSize = 1`; padding a buffer of two samples to `5` takes two iterations. -/
theorem padding_terminates_witness :
    ((∃ acc : DsoInput Fx × Int,
        readLoop refLib
          (visibleContent (seekFile (openFile (DsoInput.init Fx (some exampleSettings))
            (some exampleLog))) (some exampleLog))
          ((visibleContent (seekFile (openFile (DsoInput.init Fx (some exampleSettings))
            (some exampleLog))) (some exampleLog)).length + 1)
          (seekFile (openFile (DsoInput.init Fx (some exampleSettings)) (some exampleLog)), 0)
          = some acc
        ∧ 0 ≤ acc.2 ∧ acc.2 < 2 ^ 31
        ∧ (DsoInput.init Fx (some exampleSettings)).restartSampling refLib (some exampleLog)
          = finishTick refLib acc)
      ∧ (∀ (v : Fx) (num : Int) (data : List Fx), 0 ≤ num → num < 2 ^ 31 →
          ((sizeCast num : Nat) : Int) = num
            ∧ ∀ fuel : Nat, addEmptyDataLoop v (sizeCast num) fuel data
              = if (num - 1 - (data.length : Int)).toNat ≤ fuel then
                  some (data ++ List.replicate (num - 1 - (data.length : Int)).toNat v)
                else none))
    ∧ (readLoop refLib exampleLog (exampleLog.length + 1)
        (seekFile (openFile (DsoInput.init Fx (some exampleSettings)) (some exampleLog)), 0)).map
        Prod.snd = some 1
    ∧ addEmptyDataLoop (⟨7, 1⟩ : Fx) (sizeCast 5) 2 [⟨1, 1⟩, ⟨7, 1⟩]
        = some [⟨1, 1⟩, ⟨7, 1⟩, ⟨7, 1⟩, ⟨7, 1⟩]
    ∧ addEmptyDataLoop (⟨7, 1⟩ : Fx) (sizeCast 5) 1 [⟨1, 1⟩, ⟨7, 1⟩] = none :=
  ⟨padding_terminates refLib (DsoInput.init Fx (some exampleSettings)) (some exampleLog)
      (init_wf Fx _).1 (init_wf Fx _).2 (by decide),
    by decide, by decide, by decide⟩

/-! ### The positions `DataParser` reads -/

/-- The groups of two token lists of the same length that agree at the even indices,
where the names and the values stand. -/
theorem tokenGroups_congr :
    ∀ (n : Nat) (a b : List QString), a.length ≤ n → a.length = b.length →
      (∀ i, i % 2 = 0 → a[i]? = b[i]?) → tokenGroups a = tokenGroups b := by
  intro n
  induction n using Nat.strong_induction_on with
  | _ n ih =>
    intro a b hn hlen hag
    match a, b, hlen with
    | [], [], _ => rfl
    | [_], [_], _ => rfl
    | [_, _], [_, _], _ => rfl
    | [a0, _, a2], [b0, _, b2], _ =>
      have h0 := hag 0 rfl
      have h2 := hag 2 rfl
      simp only [List.getElem?_cons_zero, List.getElem?_cons_succ, Option.some.injEq] at h0 h2
      rw [tokenGroups, tokenGroups, h0, h2]
    | a0 :: a1 :: a2 :: a3 :: ra, b0 :: b1 :: b2 :: b3 :: rb, hl =>
      have h0 := hag 0 rfl
      have h2 := hag 2 rfl
      simp only [List.getElem?_cons_zero, List.getElem?_cons_succ, Option.some.injEq] at h0 h2
      simp only [List.length_cons] at hn hl
      have hrest : tokenGroups ra = tokenGroups rb := by
        apply ih ra.length (by omega) ra rb (le_refl _) (by omega)
        intro i hi
        have h4 := hag (i + 4) (by omega)
        simp only [List.getElem?_cons_succ] at h4
        exact h4
      rw [tokenGroups, tokenGroups, h0, h2, hrest]

/-- C28. Two token lists of the same length that agree at index 2 and at the indices
`4 + 4k` and `6 + 4k` (the even indices from 4 on) give the same result of `DataParser`:
the tokens at the indices 0, 1, 3 and at the odd indices have no influence. And a final
group made of a name, any token and a value, with no token behind it, contributes its
pair. -/
theorem dataParser_reads_names_and_values {F : Type} (lib : QtLib F) :
    (∀ a b : List QString, a.length = b.length → a[2]? = b[2]? →
        (∀ i, 4 ≤ i → i % 2 = 0 → a[i]? = b[i]?) →
        ∃ r, DataParser lib a = some r ∧ DataParser lib b = some r)
      ∧ (∀ (pre : List QString) (n c v : QString) (x : F), pre.length = 4 →
          lib.toFloat v = (x, true) → (∀ t, pre[2]? = some t → (lib.toFloat t).2 = true) →
          ∃ r, DataParser lib (pre ++ [n, c, v]) = some r ∧ r.datas = [(n, x)]) := by
  constructor
  · intro a b hlen h2 hag
    refine ⟨parsedRecord lib a, dataParser_eq lib a, ?_⟩
    rw [dataParser_eq]
    have hg : tokenGroups (a.drop 4) = tokenGroups (b.drop 4) := by
      apply tokenGroups_congr (a.drop 4).length _ _ (le_refl _)
      · rw [List.length_drop, List.length_drop, hlen]
      · intro i hi
        rw [List.getElem?_drop, List.getElem?_drop]
        exact hag (4 + i) (by omega) (by omega)
    unfold parsedRecord
    rw [h2, hg]
  · intro pre n c v x hpre hv ht
    refine ⟨parsedRecord lib (pre ++ [n, c, v]), dataParser_eq lib _, ?_⟩
    match pre, hpre with
    | [p0, p1, p2, p3], _ =>
      have ht2 := ht p2 rfl
      show (parsedRecord lib [p0, p1, p2, p3, n, c, v]).datas = [(n, x)]
      unfold parsedRecord
      simp only [List.getElem?_cons_zero, List.getElem?_cons_succ, ht2, if_true]
      show leadingPairs lib (tokenGroups [n, c, v]) = [(n, x)]
      rw [tokenGroups]
      unfold leadingPairs
      simp [hv]

/-- C28, witness: the labels and separators of `Time: 1.0, A: 2.0,` replaced by other
tokens, and the group `A: 2.0` without its final separator. -/
theorem dataParser_reads_names_and_values_witness :
    (∃ r, DataParser refLib ["Time".toList, ":".toList, "1.0".toList, ",".toList, "A".toList,
          ":".toList, "2.0".toList, ",".toList] = some r
      ∧ DataParser refLib ["x".toList, "y".toList, "1.0".toList, "z".toList, "A".toList,
          "=".toList, "2.0".toList, ";".toList] = some r)
    ∧ (∃ r, DataParser refLib (["Time".toList, ":".toList, "1.0".toList, ",".toList]
          ++ ["A".toList, ":".toList, "2.0".toList]) = some r
      ∧ r.datas = [("A".toList, ⟨2, 1⟩)]) :=
  ⟨(dataParser_reads_names_and_values refLib).1 _ _ (by decide) (by decide) (by
      intro i h4 h2
      match i, h4, h2 with
      | 4, _, _ => rfl
      | 6, _, _ => rfl
      | i + 8, _, _ => rfl),
    (dataParser_reads_names_and_values refLib).2 _ "A".toList ":".toList "2.0".toList ⟨2, 1⟩
      (by decide) (by decide) (by decide)⟩

/-! ### The characters of the tokens -/

/-- The tokens, one after the other, are a subsequence of the text. -/
theorem lexList_flatten_sublist {F : Type} (lib : QtLib F) :
    ∀ (n : Nat) (l : List Char), l.length ≤ n →
      (lexList lib l.length l).flatten.Sublist l := by
  intro n
  induction n with
  | zero =>
    intro l h
    have hl : l = [] := List.length_eq_zero.mp (by omega)
    subst hl
    exact List.Sublist.refl _
  | succ n ih =>
    intro l h
    cases l with
    | nil => exact List.Sublist.refl _
    | cons ch rest =>
      simp only [List.length_cons] at h
      have hdw := dropWhile_length_le lib.isLetterOrNumber rest
      have h1 := ih rest (by omega)
      have h2 := ih (rest.dropWhile lib.isLetterOrNumber) (by omega)
      have h3 := ih (rest.drop (numberRun lib (isDot ch) rest).length)
        (by rw [List.length_drop]; omega)
      rw [lexList_cons]
      split_ifs
      · exact List.Sublist.cons _ h1
      · rw [List.flatten_cons, List.cons_append]
        apply List.Sublist.cons₂
        conv_rhs => rw [← List.takeWhile_append_dropWhile lib.isLetterOrNumber rest]
        exact List.Sublist.append (List.Sublist.refl _) h2
      · rw [List.flatten_cons, List.cons_append]
        apply List.Sublist.cons₂
        conv_rhs => rw [← List.take_append_drop (numberRun lib (isDot ch) rest).length rest]
        rw [numberRun_take]
        exact List.Sublist.append (List.Sublist.refl _) h3
      · rw [List.flatten_cons, List.singleton_append]
        exact List.Sublist.cons₂ _ h1
      · exact List.Sublist.cons _ h1

theorem filter_of_all {α : Type} (p : α → Bool) (l : List α) (h : ∀ c ∈ l, p c = true) :
    l.filter p = l :=
  List.filter_eq_self.mpr h

/-- On ASCII text the tokens, one after the other, are the characters of the classes
that tokens are made of. -/
theorem lexList_flatten_ascii {F : Type} (lib : QtLib F) (hs : lib.Sound) :
    ∀ (n : Nat) (l : List Char), l.length ≤ n → (∀ c ∈ l, c.toNat < 128) →
      (lexList lib l.length l).flatten = l.filter (isTokenChar lib) := by
  intro n
  induction n with
  | zero =>
    intro l h _
    have hl : l = [] := List.length_eq_zero.mp (by omega)
    subst hl
    rfl
  | succ n ih =>
    intro l h hascii
    cases l with
    | nil => rfl
    | cons ch rest =>
      simp only [List.length_cons] at h
      have hdw := dropWhile_length_le lib.isLetterOrNumber rest
      have har : ∀ c ∈ rest, c.toNat < 128 := fun c hc => hascii c (List.mem_cons_of_mem _ hc)
      have h1 := ih rest (by omega) har
      have h2 := ih (rest.dropWhile lib.isLetterOrNumber) (by omega)
        (fun c hc => har c ((List.dropWhile_sublist _).mem hc))
      have h3 := ih (rest.drop (numberRun lib (isDot ch) rest).length)
        (by rw [List.length_drop]; omega) (fun c hc => har c (List.mem_of_mem_drop hc))
      rw [lexList_cons]
      by_cases c1 : lib.isSpace ch = true
      · rw [if_pos c1, h1]
        have hno : isTokenChar lib ch = false := by
          apply bool_eq_false_of_not
          intro ht
          unfold isTokenChar isSep at ht
          simp only [Bool.or_eq_true, beq_iff_eq] at ht
          rcases ht with (((ht | ht) | ht) | ht) | (ht | ht)
          · rw [(hs.letter ch ht).1] at c1
            exact absurd c1 Bool.false_ne_true
          · rw [(hs.digit ch ht).1] at c1
            exact absurd c1 Bool.false_ne_true
          · rw [(isDot_iff ch).mp ht, (sound_dot lib hs).1] at c1
            exact absurd c1 Bool.false_ne_true
          · rw [ht, (sound_minus lib hs).1] at c1
            exact absurd c1 Bool.false_ne_true
          · rw [ht, (sound_colon lib hs).1] at c1
            exact absurd c1 Bool.false_ne_true
          · rw [ht, (sound_comma lib hs).1] at c1
            exact absurd c1 Bool.false_ne_true
        rw [List.filter_cons, hno]
        rfl
      · rw [if_neg c1]
        by_cases c2 : lib.isLetter ch = true
        · rw [if_pos c2, List.flatten_cons, h2, List.cons_append]
          have hyes : isTokenChar lib ch = true := by
            unfold isTokenChar
            rw [c2]
            rfl
          have htw : (rest.takeWhile lib.isLetterOrNumber).filter (isTokenChar lib)
              = rest.takeWhile lib.isLetterOrNumber := by
            apply filter_of_all
            intro c hc
            have hlon : lib.isLetterOrNumber c = true := List.mem_takeWhile_imp hc
            obtain ⟨_, e2, e3, e4⟩ := hs.ascii c (har c ((List.takeWhile_sublist _).mem hc))
            rw [e4] at hlon
            unfold isTokenChar
            rw [e2, e3]
            rcases (char_isAlphanum_iff c).mp hlon with ha | ha
            · rw [ha]
              rfl
            · rw [ha]
              simp
          rw [List.filter_cons, hyes, if_pos rfl]
          conv_rhs => rw [← List.takeWhile_append_dropWhile lib.isLetterOrNumber rest]
          rw [List.filter_append, htw]
        · rw [if_neg c2]
          by_cases c3 : (lib.isDigit ch || isDot ch || ch == '-') = true
          · rw [if_pos c3, List.flatten_cons, h3, List.cons_append]
            have hyes : isTokenChar lib ch = true := by
              unfold isTokenChar
              rw [bool_eq_false_of_not c2, Bool.false_or, c3]
              rfl
            have hrun : (numberRun lib (isDot ch) rest).filter (isTokenChar lib)
                = numberRun lib (isDot ch) rest := by
              apply filter_of_all
              intro c hc
              unfold isTokenChar
              rcases numberRun_mem lib rest (isDot ch) c hc with hd | hd
              · rw [hd]
                simp
              · rw [hd]
                simp
            rw [List.filter_cons, hyes, if_pos rfl]
            conv_rhs => rw [← List.take_append_drop (numberRun lib (isDot ch) rest).length rest]
            rw [numberRun_take, List.filter_append, hrun]
          · rw [if_neg c3]
            by_cases c4 : isSep ch = true
            · rw [if_pos c4, List.flatten_cons, h1, List.singleton_append]
              have hyes : isTokenChar lib ch = true := by
                unfold isTokenChar
                rw [c4]
                simp
              rw [List.filter_cons, hyes, if_pos rfl]
            · rw [if_neg c4, h1]
              have hno : isTokenChar lib ch = false := by
                unfold isTokenChar
                simp only [bool_eq_false_of_not c2, Bool.false_or, bool_eq_false_of_not c3,
                  bool_eq_false_of_not c4]
              rw [List.filter_cons, hno]
              rfl

/-- C27. For every string the tokens returned by `LexicalParser`, one after the other,
are a subsequence of the string; and for a string of ASCII characters they are the
string with every character deleted that is not a letter, a digit, `.`, `-`, `:` or
`,`. -/
theorem tokens_subsequence {F : Type} (lib : QtLib F) (hs : lib.Sound) (s : QString) :
    ∃ toks, LexicalParser lib s = some toks ∧ toks.flatten.Sublist s
      ∧ ((∀ c ∈ s, c.toNat < 128) → toks.flatten = s.filter (isTokenChar lib)) :=
  ⟨_, lexicalParser_eq lib s, lexList_flatten_sublist lib s.length s (le_refl _),
    fun h => lexList_flatten_ascii lib hs s.length s (le_refl _) h⟩

/-- C27, witness: the text `#A = -1.5, b_2` keeps the characters `A-1.5,b2`. -/
theorem tokens_subsequence_witness :
    (∃ toks, LexicalParser refLib "#A = -1.5, b_2".toList = some toks
      ∧ toks.flatten.Sublist "#A = -1.5, b_2".toList
      ∧ toks.flatten = "#A = -1.5, b_2".toList.filter (isTokenChar refLib))
    ∧ LexicalParser refLib "#A = -1.5, b_2".toList
      = some ["A".toList, "-1.5".toList, ",".toList, "b".toList, "2".toList]
    ∧ "#A = -1.5, b_2".toList.filter (isTokenChar refLib) = "A-1.5,b2".toList :=
  ⟨(tokens_subsequence refLib refLib_sound "#A = -1.5, b_2".toList).elim
      (fun toks h => ⟨toks, h.1, h.2.1, h.2.2 (by decide)⟩),
    by decide, by decide⟩

/-! ### The snapshot slots and the origin of the registered names -/

/-- What `GetSampleData` leaves behind: the name resolves to the returned pointer, the
members outside the registry are kept, and no other name is registered. -/
theorem getSampleData_facts {F : Type} (lib : QtLib F) (st : DsoInput F) (name : QString)
    (r : Nat × DsoInput F) (h : st.GetSampleData lib name = some r) :
    r.2.sampleDatas.value name = some r.1 ∧ st.SameFrame r.2
      ∧ (∀ k, r.2.sampleDatas.contains k = true →
          k = name ∨ st.sampleDatas.contains k = true) := by
  by_cases hc : st.sampleDatas.contains name = true
  · obtain ⟨p, hp, hget⟩ := getSampleData_of_old lib st name hc
    rw [hget] at h
    rw [← Option.some.inj h]
    exact ⟨hp, sameFrame_refl st, fun k hk => Or.inr hk⟩
  · have hnew : st.sampleDatas.contains name = false := bool_eq_false_of_not hc
    obtain ⟨st1, hget, _, hmap, hframe⟩ := getSampleData_new_shape lib st name hnew
    rw [hget] at h
    rw [← Option.some.inj h]
    refine ⟨?_, hframe, ?_⟩
    · show st1.sampleDatas.value name = some st.heap.length
      rw [hmap]
      exact insert_value_self _ _ _ hnew
    · intro k hk
      have hk2 : st1.sampleDatas.contains k = true := hk
      rw [hmap] at hk2
      exact (insert_contains _ _ _ _ hnew).mp hk2

/-- The loop over the configured channels, slot by slot: a slot in use with a name gets
the pointer of that name, every other slot keeps its content, and the names registered
by the loop are selected names of slots in use. -/
theorem snapshotLoop_slots {F : Type} (lib : QtLib F) (mc : Nat)
    (vs : List DsoSettingsScopeVoltage) :
    ∀ (n channel : Nat) (st st2 : DsoInput F),
      st.dsoSettings.map (fun s => (s.maxChannels, s.voltage)) = some (mc, vs) →
      snapshotLoop lib n channel st = some st2 →
      (∀ c, (c < channel ∨ channel + n ≤ c
            ∨ ∃ v, vs[c]? = some v ∧ (v.used && !v.selectedChannelName.isEmpty) = false) →
          st2.resultData[c]? = st.resultData[c]?)
        ∧ (∀ c v, channel ≤ c → c < channel + n → vs[c]? = some v →
            (v.used && !v.selectedChannelName.isEmpty) = true →
            ∃ p, st2.sampleDatas.value v.selectedChannelName = some p
              ∧ st2.resultData[c]? = some (some p))
        ∧ (∀ k, st2.sampleDatas.contains k = true →
            st.sampleDatas.contains k = true ∨ k ∈ slotNames ((vs.drop channel).take n)) := by
  intro n
  induction n with
  | zero =>
    intro channel st st2 _ h
    rw [snapshotLoop] at h
    rw [← Option.some.inj h]
    refine ⟨fun _ _ => rfl, ?_, fun k hk => Or.inl hk⟩
    intro c v h1 h2
    omega
  | succ n ih =>
    intro channel st st2 hs h
    rw [snapshotLoop] at h
    cases hset : st.dsoSettings with
    | none =>
      rw [hset] at hs
      exact absurd hs (by simp)
    | some s =>
      have hvs : s.voltage = vs := by
        rw [hset] at hs
        simp only [Option.map_some', Option.some.injEq, Prod.mk.injEq] at hs
        exact hs.2
      rw [hset] at h
      simp only at h
      cases hv : s.voltage[channel]? with
      | none =>
        rw [hv] at h
        exact absurd h (by simp)
      | some v =>
        rw [hv] at h
        simp only at h
        have hvc : vs[channel]? = some v := by
          rw [← hvs]
          exact hv
        have hch : channel < vs.length := by
          by_contra hc
          rw [List.getElem?_eq_none (by omega)] at hvc
          exact absurd hvc (by simp)
        have hvget : vs[channel] = v := by
          rw [List.getElem?_eq_getElem hch] at hvc
          exact Option.some.inj hvc
        have hskip : (v.used && !v.selectedChannelName.isEmpty) = false →
            snapshotLoop lib n (channel + 1) st = some st2 →
            (∀ c, (c < channel ∨ channel + (n + 1) ≤ c
                  ∨ ∃ v, vs[c]? = some v ∧ (v.used && !v.selectedChannelName.isEmpty) = false) →
                st2.resultData[c]? = st.resultData[c]?)
              ∧ (∀ c v, channel ≤ c → c < channel + (n + 1) → vs[c]? = some v →
                  (v.used && !v.selectedChannelName.isEmpty) = true →
                  ∃ p, st2.sampleDatas.value v.selectedChannelName = some p
                    ∧ st2.resultData[c]? = some (some p))
              ∧ (∀ k, st2.sampleDatas.contains k = true →
                  st.sampleDatas.contains k = true
                    ∨ k ∈ slotNames ((vs.drop channel).take (n + 1))) := by
          intro hoff hrun
          obtain ⟨b1, a1, o1⟩ := ih (channel + 1) st st2 hs hrun
          refine ⟨?_, ?_, ?_⟩
          · intro c hc
            apply b1
            by_cases hcc : c = channel
            · exact Or.inl (by omega)
            · rcases hc with hc | hc | hc
              · exact Or.inl (by omega)
              · exact Or.inr (Or.inl (by omega))
              · exact Or.inr (Or.inr hc)
          · intro c w h1 h2 hw hon
            by_cases hcc : c = channel
            · rw [hcc, hvc] at hw
              rw [← Option.some.inj hw, hoff] at hon
              exact absurd hon Bool.false_ne_true
            · exact a1 c w (by omega) (by omega) hw hon
          · intro k hk
            rw [drop_take_succ vs channel n hch, hvget, slotNames_cons_skip _ _ hoff]
            exact o1 k hk
        by_cases hu : v.used = true
        · rw [if_pos hu] at h
          by_cases hne : (!v.selectedChannelName.isEmpty) = true
          · rw [if_pos hne] at h
            have hon : (v.used && !v.selectedChannelName.isEmpty) = true := by
              rw [hu, hne]
              rfl
            have hne2 : v.selectedChannelName.isEmpty = false := by
              cases hx : v.selectedChannelName.isEmpty
              · rfl
              · rw [hx] at hne
                exact absurd hne (by decide)
            cases hg : st.GetSampleData lib v.selectedChannelName with
            | none =>
              rw [hg] at h
              exact absurd h (by simp)
            | some g =>
              obtain ⟨p, st1⟩ := g
              rw [hg] at h
              simp only at h
              by_cases hlt : channel < st1.resultData.length
              · rw [if_pos hlt] at h
                obtain ⟨hval, hframe, horg⟩ :=
                  getSampleData_facts lib st v.selectedChannelName (p, st1) hg
                obtain ⟨_, _, _, _, _, _, f7, f8⟩ := hframe
                have hval1 : st1.sampleDatas.value v.selectedChannelName = some p := hval
                have hs1 : ({ st1 with resultData := st1.resultData.set channel (some p) }
                    : DsoInput F).dsoSettings.map (fun s => (s.maxChannels, s.voltage))
                    = some (mc, vs) := by
                  show st1.dsoSettings.map (fun s => (s.maxChannels, s.voltage)) = some (mc, vs)
                  rw [← f8]
                  exact hs
                obtain ⟨b1, a1, o1⟩ := ih (channel + 1) _ st2 hs1 h
                have hgrow := snapshotLoop_grows lib n (channel + 1) _ st2 h
                refine ⟨?_, ?_, ?_⟩
                · intro c hc
                  have hcc : c ≠ channel := by
                    intro e
                    rcases hc with hc | hc | ⟨w, hw, hoff⟩
                    · omega
                    · omega
                    · rw [e, hvc] at hw
                      rw [← Option.some.inj hw, hon] at hoff
                      exact absurd hoff (by decide)
                  have hc2 : c < channel + 1 ∨ channel + 1 + n ≤ c
                      ∨ ∃ v, vs[c]? = some v
                        ∧ (v.used && !v.selectedChannelName.isEmpty) = false := by
                    rcases hc with hc | hc | hc
                    · exact Or.inl (by omega)
                    · exact Or.inr (Or.inl (by omega))
                    · exact Or.inr (Or.inr hc)
                  rw [b1 c hc2]
                  show (st1.resultData.set channel (some p))[c]? = st.resultData[c]?
                  rw [List.getElem?_set_ne (fun e => hcc e.symm), f7]
                · intro c w h1 h2 hw hwon
                  by_cases hcc : c = channel
                  · rw [hcc, hvc] at hw
                    rw [← Option.some.inj hw]
                    refine ⟨p, (hgrow v.selectedChannelName p hval1).1, ?_⟩
                    rw [hcc, b1 channel (Or.inl (by omega))]
                    show (st1.resultData.set channel (some p))[channel]? = some (some p)
                    exact List.getElem?_set_self hlt
                  · exact a1 c w (by omega) (by omega) hw hwon
                · intro k hk
                  rw [drop_take_succ vs channel n hch, hvget, slotNames_cons_used _ _ hu hne2]
                  rcases o1 k hk with hk1 | hk1
                  · rcases horg k hk1 with e | e
                    · exact Or.inr (by rw [e]; exact List.mem_cons_self _ _)
                    · exact Or.inl e
                  · exact Or.inr (List.mem_cons_of_mem _ hk1)
              · rw [if_neg hlt] at h
                exact absurd h (by simp)
          · rw [if_neg hne] at h
            exact hskip (by rw [bool_eq_false_of_not hne, Bool.and_false]) h
        · rw [if_neg hu] at h
          exact hskip (by rw [bool_eq_false_of_not hu, Bool.false_and]) h

theorem seekFile_resultData {F : Type} (st : DsoInput F) :
    (seekFile st).resultData = st.resultData := by
  unfold seekFile
  split_ifs <;> rfl

/-- The end of a tick, slot by slot, and the names it registers. -/
theorem finishTick_slots {F : Type} (lib : QtLib F) (acc : DsoInput F × Int)
    (s : DsoSettingsScope) (st1 : DsoInput F) (hs : acc.1.dsoSettings = some s)
    (h : finishTick lib acc = some st1) :
    (∀ c, (s.maxChannels ≤ c
          ∨ ∃ v, s.voltage[c]? = some v ∧ (v.used && !v.selectedChannelName.isEmpty) = false) →
        st1.resultData[c]? = acc.1.resultData[c]?)
      ∧ (∀ c v, c < s.maxChannels → s.voltage[c]? = some v →
          (v.used && !v.selectedChannelName.isEmpty) = true →
          ∃ p, st1.sampleDatas.value v.selectedChannelName = some p
            ∧ st1.resultData[c]? = some (some p))
      ∧ (∀ k, st1.sampleDatas.contains k = true →
          acc.1.sampleDatas.contains k = true
            ∨ k ∈ slotNames (s.voltage.take s.maxChannels))
      ∧ (∃ pre, st1.emitted = pre
          ++ [Signal.samplesAvailable st1.resultData, Signal.singleShot st1.acquireInterval]) := by
  unfold finishTick at h
  cases hp : padAll lib acc.2 acc.1.sampleDatas.entries acc.1.heap with
  | none =>
    rw [hp] at h
    exact absurd h (by simp)
  | some heap4 =>
    rw [hp] at h
    simp only at h
    have e1 : ({ acc.1 with heap := heap4 } : DsoInput F).dsoSettings.map
        (fun s => (s.maxChannels, s.voltage)) = some (s.maxChannels, s.voltage) := by
      show acc.1.dsoSettings.map (fun s => (s.maxChannels, s.voltage)) = _
      rw [hs]
      rfl
    have e2 : ({ acc.1 with heap := heap4 } : DsoInput F).resultData = acc.1.resultData := rfl
    have e3 : ({ acc.1 with heap := heap4 } : DsoInput F).sampleDatas = acc.1.sampleDatas := rfl
    generalize ({ acc.1 with heap := heap4 } : DsoInput F) = st4 at h e1 e2 e3
    rw [hs] at h
    simp only at h
    cases hl : snapshotLoop lib s.maxChannels 0 st4 with
    | none =>
      rw [hl] at h
      exact absurd h (by simp)
    | some st5 =>
      rw [hl] at h
      simp only at h
      rw [← Option.some.inj h]
      obtain ⟨b1, a1, o1⟩ := snapshotLoop_slots lib s.maxChannels s.voltage s.maxChannels 0
        st4 st5 e1 hl
      refine ⟨?_, ?_, ?_, ⟨st5.emitted, rfl⟩⟩
      · intro c hc
        show st5.resultData[c]? = acc.1.resultData[c]?
        rw [← e2]
        apply b1
        rcases hc with hc | hc
        · exact Or.inr (Or.inl (by omega))
        · exact Or.inr (Or.inr hc)
      · intro c v hc hv hon
        exact a1 c v (Nat.zero_le _) (by omega) hv hon
      · intro k hk
        rcases o1 k hk with h1 | h1
        · rw [e3] at h1
          exact Or.inl h1
        · rw [List.drop_zero] at h1
          exact Or.inr h1

/-- A tick is its read loop followed by `finishTick`; the read loop keeps `result.data`
and the slots of the settings, and registers names of pairs of the batch only. -/
theorem tick_shape {F : Type} (lib : QtLib F) (st : DsoInput F) (file : Option (List Char))
    (s : DsoSettingsScope) (hcap : st.capturing = true) (hwf : st.RegWF)
    (hcur : st.CursorWF) (hs : st.dsoSettings = some s) :
    ∃ acc : DsoInput F × Int, st.restartSampling lib file = finishTick lib acc
      ∧ acc.1.resultData = (openFile st file).resultData
      ∧ (∃ s3, acc.1.dsoSettings = some s3 ∧ s3.maxChannels = s.maxChannels
          ∧ s3.voltage = s.voltage)
      ∧ (∀ k, acc.1.sampleDatas.contains k = true →
          st.sampleDatas.contains k = true
            ∨ k ∈ ((tickLines st file).flatMap (linePairs lib)).map Prod.fst) := by
  obtain ⟨e1, e2, e3, _⟩ := openSeek_spec st file hcur
  have hwf2 : (seekFile (openFile st file)).RegWF := by
    unfold DsoInput.RegWF
    rw [e1, e2]
    exact hwf
  obtain ⟨st3, m, hloop, hlines⟩ := readLoop_spec lib
    (visibleContent (seekFile (openFile st file)) file)
    ((visibleContent (seekFile (openFile st file)) file).length + 1)
    (seekFile (openFile st file)) 0 hwf2 (by omega)
  obtain ⟨st4, m4, hrun, hconf, _, _, hpost⟩ := processLines_spec lib
    (tickLines st file) (seekFile (openFile st file)) 0 hwf2
  have hrun2 : processLines lib (tickLines st file) (seekFile (openFile st file), 0)
      = some (st3, m) := hlines
  rw [hrun2] at hrun
  have h34 : st3 = st4 := (Prod.mk.inj (Option.some.inj hrun)).1
  rw [← h34] at hconf hpost
  obtain ⟨s3, hs3, hmc, hvolt⟩ := sameConfig_settings hconf s (by rw [e3]; exact hs)
  obtain ⟨_, _, _, _, c5, _⟩ := hconf
  obtain ⟨hwf3, hbuf, _⟩ := hpost
  refine ⟨(st3.setPos (max (seekFile (openFile st file)).filePos
    (visibleContent (seekFile (openFile st file)) file).length), m), ?_, ?_,
    ⟨s3, hs3, hmc, hvolt⟩, ?_⟩
  · unfold DsoInput.restartSampling
    simp only [hcap, Bool.not_true, Bool.false_eq_true, if_false]
    rw [hloop]
    rfl
  · show st3.resultData = (openFile st file).resultData
    rw [← c5, seekFile_resultData]
  · intro k hk
    have hk3 : st3.sampleDatas.contains k = true := hk
    by_cases hmem : k ∈ ((tickLines st file).flatMap (linePairs lib)).map Prod.fst
    · exact Or.inr hmem
    · left
      obtain ⟨b, hb⟩ := (buffer_some_iff st3 hwf3 k).mpr hk3
      rw [hbuf k, valuesOf_of_not_mem k _ hmem, extendBuffer_nil,
        openSeek_buffer st file hcur k] at hb
      exact (buffer_some_iff st hwf k).mp ⟨b, hb⟩

/-- C21 (as amended). A tick publishes `result.data` with the signal `samplesAvailable`.
For every channel below the configured count that is in use with a non-empty selected
name, the slot refers to the buffer registered under that name. The slot of a channel
that is not in use, or has an empty selected name, is not written: it keeps what it
held before the tick, a null pointer when `result.data` was resized at the opening of
the file and the slot was never filled, and the buffer of an earlier tick otherwise. -/
theorem snapshot_slots {F : Type} (lib : QtLib F) (st : DsoInput F)
    (file : Option (List Char)) (s : DsoSettingsScope) (hcap : st.capturing = true)
    (hwf : st.RegWF) (hcur : st.CursorWF) (hs : st.dsoSettings = some s)
    (hv : s.maxChannels ≤ s.voltage.length) (h4 : s.maxChannels ≤ 4) :
    ∃ st1 : DsoInput F, st.restartSampling lib file = some st1
      ∧ (∃ pre, st1.emitted = pre
          ++ [Signal.samplesAvailable st1.resultData, Signal.singleShot st1.acquireInterval])
      ∧ (∀ c v, c < s.maxChannels → s.voltage[c]? = some v →
          (v.used && !v.selectedChannelName.isEmpty) = true →
          ∃ p, st1.sampleDatas.value v.selectedChannelName = some p
            ∧ st1.resultData[c]? = some (some p))
      ∧ (∀ (c : Nat) (v : DsoSettingsScopeVoltage), s.voltage[c]? = some v →
          (v.used && !v.selectedChannelName.isEmpty) = false →
          st1.resultData[c]? = (openFile st file).resultData[c]?)
      ∧ (openFile st file).resultData
          = (if st.currFileReadable then st.resultData else resizeResult st.resultData 4) := by
  obtain ⟨_, _, st5, _, _, htick, _⟩ := tick_run lib st file s hcap hwf hcur hs hv h4
  obtain ⟨acc, hfin, hres, ⟨s3, hs3, hmc, hvolt⟩, _⟩ := tick_shape lib st file s hcap hwf hcur hs
  rw [htick] at hfin
  obtain ⟨b1, a1, _, e1⟩ := finishTick_slots lib acc s3 st5.published hs3 hfin.symm
  rw [hmc, hvolt] at a1
  rw [hvolt] at b1
  refine ⟨st5.published, htick, e1, a1, ?_, ?_⟩
  · intro c v hcv hoff
    rw [b1 c (Or.inr ⟨v, hcv, hoff⟩), hres]
  · unfold openFile
    cases st.currFileReadable <;> rfl

/-- C21, witness of the amended statement: the first tick over `exampleLog` with slot 0
in use for `A` and slot 1 not in use. -/
theorem snapshot_slots_witness :
    (∃ st1 : DsoInput Fx,
      (DsoInput.init Fx (some exampleSettings)).restartSampling refLib (some exampleLog)
        = some st1
      ∧ (∃ pre, st1.emitted = pre
          ++ [Signal.samplesAvailable st1.resultData, Signal.singleShot st1.acquireInterval])
      ∧ (∀ c v, c < exampleSettings.maxChannels → exampleSettings.voltage[c]? = some v →
          (v.used && !v.selectedChannelName.isEmpty) = true →
          ∃ p, st1.sampleDatas.value v.selectedChannelName = some p
            ∧ st1.resultData[c]? = some (some p))
      ∧ (∀ (c : Nat) (v : DsoSettingsScopeVoltage), exampleSettings.voltage[c]? = some v →
          (v.used && !v.selectedChannelName.isEmpty) = false →
          st1.resultData[c]?
            = (openFile (DsoInput.init Fx (some exampleSettings)) (some exampleLog)).resultData[c]?)
      ∧ (openFile (DsoInput.init Fx (some exampleSettings)) (some exampleLog)).resultData
          = (if (DsoInput.init Fx (some exampleSettings)).currFileReadable then
              (DsoInput.init Fx (some exampleSettings)).resultData
            else resizeResult (DsoInput.init Fx (some exampleSettings)).resultData 4))
    ∧ ((DsoInput.init Fx (some exampleSettings)).restartSampling refLib (some exampleLog)).map
        (fun st1 => (st1.resultData, st1.sampleDatas.value "A".toList))
      = some ([some 0, none, none, none], some 0) :=
  ⟨snapshot_slots refLib (DsoInput.init Fx (some exampleSettings)) (some exampleLog)
      exampleSettings (by decide) (init_wf Fx _).1 (init_wf Fx _).2 rfl (by decide) (by decide),
    by decide⟩

/-- C21, counterexample to the claim as stated: after a first tick with slot 0 in use
for `A`, the check box of channel 0 is cleared; after the next tick channel 0 is not in
use and slot 0 still refers to the buffer of `A`. -/
theorem snapshot_slots_counterexample :
    (((DsoInput.init Fx (some exampleSettings)).restartSampling refLib (some exampleLog)).bind
        (fun st1 => (st1.usedToggled 0 false).restartSampling refLib (some exampleLog))).map
      (fun st2 => (st2.dsoSettings.map (fun s => s.voltage.map (fun v => v.used)),
        st2.resultData, st2.sampleDatas.value "A".toList))
      = some (some [false, false], [some 0, none, none, none], some 0) := by
  decide

/-! ### A tick without new samples -/

/-- A tick whose batch holds no pair pads nothing: every registered buffer is kept. -/
theorem tick_without_samples {F : Type} (lib : QtLib F) (st : DsoInput F)
    (file : Option (List Char)) (s : DsoSettingsScope) (hcap : st.capturing = true)
    (hwf : st.RegWF) (hcur : st.CursorWF) (hs : st.dsoSettings = some s)
    (hv : s.maxChannels ≤ s.voltage.length) (h4 : s.maxChannels ≤ 4)
    (hb : tickLines st file = []
      ∨ SizeBound st ((tickLines st file).flatMap (linePairs lib)))
    (hnil : (tickLines st file).flatMap (linePairs lib) = []) :
    ∃ st1 : DsoInput F, st.restartSampling lib file = some st1
      ∧ (∀ k b, st.buffer k = some b → st1.buffer k = some b)
      ∧ (∀ k, st.buffer k = none → st1.buffer k = none ∨ st1.buffer k = some [])
      ∧ (∃ pre, st1.emitted = pre
          ++ [Signal.samplesAvailable st1.resultData, Signal.singleShot st1.acquireInterval])
      ∧ st1.currFileReadable = (st.currFileReadable || file.isSome)
      ∧ (tickLines st file = [] → st1.cacheFilePosition = st.cacheFilePosition) := by
  obtain ⟨st3, m, st5, pos, hproc, htick, _, _, hpost, hcache, hread, _, hfin⟩ :=
    tick_run lib st file s hcap hwf hcur hs hv h4
  rw [hnil] at hpost
  obtain ⟨_, hbuf, _, _, hmax⟩ := hpost
  have hm : m = 0 := by
    rcases hb with hl | hb
    · rw [hl, processLines] at hproc
      exact (Prod.mk.inj (Option.some.inj hproc)).2.symm
    · have hb2 : SizeBound (seekFile (openFile st file)) ([] : List (QString × F)) := by
        intro k
        have h1 := hb k
        rw [hnil] at h1
        unfold DsoInput.len at h1 ⊢
        rw [openSeek_buffer st file hcur k]
        exact h1
      rcases (hmax hb2).2 with h | ⟨k, hk, _⟩
      · exact h
      · simp at hk
  have hbuf3 : ∀ k, (st3.setPos pos).buffer k = st.buffer k := by
    intro k
    show st3.buffer k = st.buffer k
    rw [hbuf k, openSeek_buffer st file hcur k]
    rfl
  rw [hm] at hfin
  obtain ⟨_, f2, f3, _, _, f6, _, f8, _⟩ := hfin
  refine ⟨st5.published, htick, ?_, ?_, ⟨st5.emitted, rfl⟩, ?_, ?_⟩
  · intro k b hk
    show st5.buffer k = some b
    rw [f2 k b (by rw [hbuf3 k]; exact hk), padded_zero]
  · intro k hk
    exact f3 k (by rw [hbuf3 k]; exact hk)
  · show st5.currFileReadable = _
    rw [f6]
    exact hread
  · intro hl
    show st5.cacheFilePosition = _
    rw [f8]
    show st3.cacheFilePosition = _
    rw [hcache, if_pos hl]

/-- C22 (as amended). A tick with capture enabled while the log file is not open and
cannot be opened reads nothing: every registered buffer, the offset and the closed state
of the file are kept. The tick still runs the snapshot step, which may register a
selected name with an empty buffer, emits `samplesAvailable` with `result.data` and
requests the next tick. -/
theorem unavailable_file_tick {F : Type} (lib : QtLib F) (st : DsoInput F)
    (s : DsoSettingsScope) (hcap : st.capturing = true) (hwf : st.RegWF)
    (hcur : st.CursorWF) (hs : st.dsoSettings = some s)
    (hv : s.maxChannels ≤ s.voltage.length) (h4 : s.maxChannels ≤ 4)
    (hclosed : st.currFileReadable = false) :
    ∃ st1 : DsoInput F, st.restartSampling lib none = some st1
      ∧ (∀ k b, st.buffer k = some b → st1.buffer k = some b)
      ∧ (∀ k, st.buffer k = none → st1.buffer k = none ∨ st1.buffer k = some [])
      ∧ st1.cacheFilePosition = st.cacheFilePosition ∧ st1.currFileReadable = false
      ∧ (∃ pre, st1.emitted = pre
          ++ [Signal.samplesAvailable st1.resultData, Signal.singleShot st1.acquireInterval]) := by
  have hl : tickLines st none = [] := tickLines_none st
  have hnil : (tickLines st none).flatMap (linePairs lib) = [] := by
    rw [hl]
    rfl
  obtain ⟨st1, htick, b1, b2, e1, r1, c1⟩ :=
    tick_without_samples lib st none s hcap hwf hcur hs hv h4 (Or.inl hl) hnil
  refine ⟨st1, htick, b1, b2, c1 hl, ?_, e1⟩
  rw [r1, hclosed]
  rfl

/-- C22, witness of the amended statement: the first tick with no file to open. -/
theorem unavailable_file_tick_witness :
    (∃ st1 : DsoInput Fx,
      (DsoInput.init Fx (some exampleSettings)).restartSampling refLib none = some st1
      ∧ (∀ k b, (DsoInput.init Fx (some exampleSettings)).buffer k = some b →
          st1.buffer k = some b)
      ∧ (∀ k, (DsoInput.init Fx (some exampleSettings)).buffer k = none →
          st1.buffer k = none ∨ st1.buffer k = some [])
      ∧ st1.cacheFilePosition = (DsoInput.init Fx (some exampleSettings)).cacheFilePosition
      ∧ st1.currFileReadable = false
      ∧ (∃ pre, st1.emitted = pre
          ++ [Signal.samplesAvailable st1.resultData, Signal.singleShot st1.acquireInterval]))
    ∧ ((DsoInput.init Fx (some exampleSettings)).restartSampling refLib none).map
        (fun st1 => (st1.cacheFilePosition, st1.currFileReadable, st1.buffer "A".toList))
      = some (0, false, some []) :=
  ⟨unavailable_file_tick refLib (DsoInput.init Fx (some exampleSettings)) exampleSettings
      (by decide) (init_wf Fx _).1 (init_wf Fx _).2 rfl (by decide) (by decide) rfl,
    by decide⟩

/-- C22, counterexample to the claim as stated: the first tick with no file to open
emits `samplesAvailable` (after registering the selected name `A` of slot 0) and
requests the next tick. -/
theorem unavailable_file_counterexample :
    ((DsoInput.init Fx (some exampleSettings)).restartSampling refLib none).map
        (fun st1 => (st1.currFileReadable, st1.emitted))
      = some (false, [Signal.newChannelData ["A".toList],
          Signal.samplesAvailable [some 0, none, none, none], Signal.singleShot 3]) := by
  decide

theorem exampleRegistry_sizeBound (pairs : List (QString × Fx)) (h : pairs.length < 2 ^ 30) :
    SizeBound exampleRegistry pairs := by
  intro k
  have h1 := valuesOf_length_le k pairs
  have h3 : exampleRegistry.len k ≤ 1 := by
    unfold DsoInput.len DsoInput.buffer
    cases exampleRegistry.sampleDatas.value k with
    | none => exact Nat.zero_le _
    | some p =>
      match p with
      | 0 => exact le_refl _
      | p + 1 => exact Nat.zero_le _
  omega

/-- C26. After a tick from a well formed state, with `maxSize` the largest length
reached in the tick by a channel that received a sample (`0` if there is none): every
channel registered when the padding runs (registered before the tick or named by a pair
of the batch) has at least `maxSize - 1` samples, every channel that received a sample
has at most `maxSize`, and after a tick in which no sample was appended `maxSize` is `0`
and every registered buffer is what it was: nothing is padded. -/
theorem post_tick_bounds {F : Type} (lib : QtLib F) (st : DsoInput F)
    (file : Option (List Char)) (hcap : st.capturing = true) (hwf : st.RegWF)
    (hcur : st.CursorWF) (hconf : st.Configured)
    (hb : SizeBound st ((tickLines st file).flatMap (linePairs lib))) :
    ∃ (st1 : DsoInput F) (maxSize : Int), st.restartSampling lib file = some st1
      ∧ (∀ k ∈ ((tickLines st file).flatMap (linePairs lib)).map Prod.fst,
          ((st.len k + (valuesOf k ((tickLines st file).flatMap (linePairs lib))).length : Nat)
            : Int) ≤ maxSize)
      ∧ ((tickLines st file).flatMap (linePairs lib) ≠ [] →
          (∃ k ∈ ((tickLines st file).flatMap (linePairs lib)).map Prod.fst,
            ((st.len k + (valuesOf k ((tickLines st file).flatMap (linePairs lib))).length
              : Nat) : Int) = maxSize)
          ∧ (∀ k, (st.sampleDatas.contains k = true
                ∨ k ∈ ((tickLines st file).flatMap (linePairs lib)).map Prod.fst) →
              maxSize - 1 ≤ (st1.len k : Int))
          ∧ (∀ k ∈ ((tickLines st file).flatMap (linePairs lib)).map Prod.fst,
              (st1.len k : Int) ≤ maxSize))
      ∧ ((tickLines st file).flatMap (linePairs lib) = [] →
          maxSize = 0 ∧ ∀ k b, st.buffer k = some b → st1.buffer k = some b) := by
  obtain ⟨st1, m, htick, hub, hnil, hatt, hlen⟩ := tick_padded lib st file hcap hwf hcur hconf hb
  refine ⟨st1, m, htick, hub, ?_, ?_⟩
  · intro hne
    refine ⟨hatt hne, ?_, ?_⟩
    · intro k hk
      have h2 := hlen k hk
      omega
    · intro k hk
      have h1 := hub k hk
      have h2 := hlen k (Or.inr hk)
      omega
  · intro he
    refine ⟨hnil he, ?_⟩
    obtain ⟨s, hs, hv, h4⟩ := hconf
    obtain ⟨st1b, htick2, b1, _⟩ :=
      tick_without_samples lib st file s hcap hwf hcur hs hv h4 (Or.inr hb) he
    rw [htick] at htick2
    rw [Option.some.inj htick2]
    exact b1

/-- C26, witness: the first tick over the two lines of `exampleLog`, with `maxSize = 1`,
and a tick over a text without record. -/
theorem post_tick_bounds_witness :
    (∃ (st1 : DsoInput Fx) (maxSize : Int),
      exampleRegistry.restartSampling refLib (some exampleLog) = some st1
      ∧ (∀ k ∈ ((tickLines exampleRegistry (some exampleLog)).flatMap
            (linePairs refLib)).map Prod.fst,
          ((exampleRegistry.len k + (valuesOf k ((tickLines exampleRegistry
            (some exampleLog)).flatMap (linePairs refLib))).length : Nat) : Int) ≤ maxSize)
      ∧ ((tickLines exampleRegistry (some exampleLog)).flatMap (linePairs refLib) ≠ [] →
          (∃ k ∈ ((tickLines exampleRegistry (some exampleLog)).flatMap
              (linePairs refLib)).map Prod.fst,
            ((exampleRegistry.len k + (valuesOf k ((tickLines exampleRegistry
              (some exampleLog)).flatMap (linePairs refLib))).length : Nat) : Int) = maxSize)
          ∧ (∀ k, (exampleRegistry.sampleDatas.contains k = true
                ∨ k ∈ ((tickLines exampleRegistry (some exampleLog)).flatMap
                    (linePairs refLib)).map Prod.fst) →
              maxSize - 1 ≤ (st1.len k : Int))
          ∧ (∀ k ∈ ((tickLines exampleRegistry (some exampleLog)).flatMap
                (linePairs refLib)).map Prod.fst,
              (st1.len k : Int) ≤ maxSize))
      ∧ ((tickLines exampleRegistry (some exampleLog)).flatMap (linePairs refLib) = [] →
          maxSize = 0 ∧ ∀ k b, exampleRegistry.buffer k = some b → st1.buffer k = some b))
    ∧ (exampleRegistry.restartSampling refLib (some exampleLog)).map
        (fun st1 => (st1.len "A".toList, st1.len "B".toList, st1.len "abc".toList))
      = some (1, 1, 1)
    ∧ (exampleRegistry.restartSampling refLib (some "no record\n".toList)).map
        (fun st1 => st1.buffer "abc".toList)
      = some (exampleRegistry.buffer "abc".toList) :=
  ⟨post_tick_bounds refLib exampleRegistry (some exampleLog) (by decide)
      exampleRegistry_wf.1 exampleRegistry_wf.2 ⟨_, rfl, by decide, by decide⟩
      (exampleRegistry_sizeBound _ (by decide)),
    by decide, by decide⟩

/-! ### The origin of the registered names -/

/-- The names registered by one tick are names of pairs of its batch or selected names
of slots in use. -/
theorem tick_origin {F : Type} (lib : QtLib F) (st : DsoInput F) (file : Option (List Char))
    (s : DsoSettingsScope) (hcap : st.capturing = true) (hwf : st.RegWF)
    (hcur : st.CursorWF) (hs : st.dsoSettings = some s) (st1 : DsoInput F)
    (h : st.restartSampling lib file = some st1) :
    ∀ k, st1.sampleDatas.contains k = true →
      st.sampleDatas.contains k = true
        ∨ (∃ line ∈ tickLines st file, k ∈ (linePairs lib line).map Prod.fst)
        ∨ k ∈ slotNames (s.voltage.take s.maxChannels) := by
  obtain ⟨acc, hfin, _, ⟨s3, hs3, hmc, hvolt⟩, horg⟩ := tick_shape lib st file s hcap hwf hcur hs
  rw [h] at hfin
  obtain ⟨_, _, o1, _⟩ := finishTick_slots lib acc s3 st1 hs3 hfin.symm
  rw [hmc, hvolt] at o1
  intro k hk
  rcases o1 k hk with h1 | h1
  · rcases horg k h1 with h2 | h2
    · exact Or.inl h2
    · right
      left
      obtain ⟨pr, hpr, hk2⟩ := List.mem_map.mp h2
      obtain ⟨line, hline, hin⟩ := List.mem_flatMap.mp hpr
      exact ⟨line, hline, List.mem_map.mpr ⟨pr, hin, hk2⟩⟩
  · exact Or.inr (Or.inr h1)

/-- Every sequence of operations returns, and every name registered at its end was
registered at its start, or is the name of a pair of a processed line, or the selected
name of a slot in use. -/
theorem runOps_origin {F : Type} (lib : QtLib F) (mc : Nat) (vs : List DsoSettingsScopeVoltage)
    (hv : mc ≤ vs.length) (h4 : mc ≤ 4) :
    ∀ (ops : List TailerOp) (st : DsoInput F), st.RegWF → st.CursorWF →
      (∃ s, st.dsoSettings = some s ∧ s.maxChannels = mc ∧ s.voltage = vs) →
      (∀ op ∈ ops, op.fileLength < 2 ^ 31) →
      ∃ stN : DsoInput F, runOps lib st ops = some stN
        ∧ ∀ k, stN.sampleDatas.contains k = true →
            st.sampleDatas.contains k = true
              ∨ (∃ line ∈ opsLines lib st ops, k ∈ (linePairs lib line).map Prod.fst)
              ∨ k ∈ slotNames (vs.take mc) := by
  intro ops
  induction ops with
  | nil =>
    intro st _ _ _ _
    exact ⟨st, rfl, fun k hk => Or.inl hk⟩
  | cons op ops ih =>
    intro st hwf hcur hset hlen
    have hlen2 : ∀ o ∈ ops, o.fileLength < 2 ^ 31 :=
      fun o ho => hlen o (List.mem_cons_of_mem _ ho)
    cases op with
    | quit =>
      obtain ⟨stN, hrun, horg⟩ := ih st.quitSampling hwf hcur hset hlen2
      exact ⟨stN, hrun, horg⟩
    | tick file =>
      by_cases hcap : st.capturing = true
      · obtain ⟨s, hs, hmc, hvolt⟩ := hset
        have hfl : (file.getD []).length < 2 ^ 31 :=
          hlen (TailerOp.tick file) (List.mem_cons_self _ _)
        obtain ⟨st1, htick, _, hwf1, hcur1, hset1, _⟩ := tick_step lib st file s hcap hwf hcur hs
          (by rw [hmc, hvolt]; exact hv) (by rw [hmc]; exact h4) hfl
        have hset1b : ∃ s1, st1.dsoSettings = some s1 ∧ s1.maxChannels = mc ∧ s1.voltage = vs := by
          obtain ⟨s1, e1, e2, e3⟩ := hset1
          exact ⟨s1, e1, e2.trans hmc, e3.trans hvolt⟩
        obtain ⟨stN, hrun, horg⟩ := ih st1 hwf1 hcur1 hset1b hlen2
        have h1 := tick_origin lib st file s hcap hwf hcur hs st1 htick
        rw [hmc, hvolt] at h1
        refine ⟨stN, ?_, ?_⟩
        · rw [runOps, htick]
          exact hrun
        · intro k hk
          rw [opsLines, htick, if_pos hcap]
          rcases horg k hk with h2 | ⟨line, hline, hin⟩ | h2
          · rcases h1 k h2 with h3 | ⟨line, hline, hin⟩ | h3
            · exact Or.inl h3
            · exact Or.inr (Or.inl ⟨line, List.mem_append_left _ hline, hin⟩)
            · exact Or.inr (Or.inr h3)
          · exact Or.inr (Or.inl ⟨line, List.mem_append_right _ hline, hin⟩)
          · exact Or.inr (Or.inr h2)
      · have hoff : st.capturing = false := bool_eq_false_of_not hcap
        have htick := restartSampling_stopped lib st file hoff
        obtain ⟨stN, hrun, horg⟩ := ih st hwf hcur hset hlen2
        refine ⟨stN, ?_, ?_⟩
        · rw [runOps, htick]
          exact hrun
        · intro k hk
          rw [opsLines, htick, hoff]
          exact horg k hk

/-- C29. From the empty registry, every sequence of ticks and stop requests (on files
below `2 ^ 31` bytes) returns, and every name registered in the state reached is the
name of a pair that `DataParser` returned for a processed line, or the non-empty
selected name of a slot in use among the configured channels. -/
theorem registry_origin {F : Type} (lib : QtLib F) (s : DsoSettingsScope)
    (ops : List TailerOp) (hv : s.maxChannels ≤ s.voltage.length) (h4 : s.maxChannels ≤ 4)
    (hlen : ∀ op ∈ ops, op.fileLength < 2 ^ 31) :
    ∃ stN : DsoInput F, runOps lib (DsoInput.init F (some s)) ops = some stN
      ∧ ∀ k, stN.sampleDatas.contains k = true →
          (∃ line ∈ opsLines lib (DsoInput.init F (some s)) ops, ∃ toks r,
              (isScopeData lib (lib.fromUtf8 line)).2 = true
              ∧ LexicalParser lib (isScopeData lib (lib.fromUtf8 line)).1 = some toks
              ∧ DataParser lib toks = some r ∧ k ∈ r.datas.map Prod.fst)
            ∨ (∃ v ∈ s.voltage.take s.maxChannels,
                v.used = true ∧ v.selectedChannelName ≠ [] ∧ k = v.selectedChannelName) := by
  obtain ⟨stN, hrun, horg⟩ := runOps_origin lib s.maxChannels s.voltage hv h4 ops
    (DsoInput.init F (some s)) (init_wf F _).1 (init_wf F _).2 ⟨s, rfl, rfl, rfl⟩ hlen
  refine ⟨stN, hrun, ?_⟩
  intro k hk
  rcases horg k hk with h1 | ⟨line, hline, hin⟩ | h1
  · have h0 : (DsoInput.init F (some s)).sampleDatas.contains k = false := rfl
    rw [h0] at h1
    exact absurd h1 Bool.false_ne_true
  · left
    refine ⟨line, hline, ?_⟩
    unfold linePairs at hin
    by_cases hm : (isScopeData lib (lib.fromUtf8 line)).2 = true
    · rw [if_pos hm] at hin
      exact ⟨_, _, hm, lexicalParser_eq lib _, dataParser_eq lib _, hin⟩
    · rw [if_neg hm] at hin
      simp at hin
  · right
    unfold slotNames at h1
    obtain ⟨v, hvm, hkv⟩ := List.mem_map.mp h1
    obtain ⟨hvin, hact⟩ := List.mem_filter.mp hvm
    simp only [Bool.and_eq_true, Bool.not_eq_true', List.isEmpty_eq_false] at hact
    exact ⟨v, hvin, hact.1, hact.2, hkv.symm⟩

/-- C29, witness: a tick over two records of `A` with slot 0 selecting `X`, a stop
request and another tick; `A` comes from the log and `X`, with an empty buffer, from
the snapshot step. -/
theorem registry_origin_witness :
    (∃ stN : DsoInput Fx,
      runOps refLib (DsoInput.init Fx (some snapshotSettings))
        [TailerOp.tick (some exampleLogA), TailerOp.quit, TailerOp.tick none] = some stN
      ∧ ∀ k, stN.sampleDatas.contains k = true →
          (∃ line ∈ opsLines refLib (DsoInput.init Fx (some snapshotSettings))
              [TailerOp.tick (some exampleLogA), TailerOp.quit, TailerOp.tick none],
            ∃ toks r, (isScopeData refLib (refLib.fromUtf8 line)).2 = true
              ∧ LexicalParser refLib (isScopeData refLib (refLib.fromUtf8 line)).1 = some toks
              ∧ DataParser refLib toks = some r ∧ k ∈ r.datas.map Prod.fst)
            ∨ (∃ v ∈ snapshotSettings.voltage.take snapshotSettings.maxChannels,
                v.used = true ∧ v.selectedChannelName ≠ [] ∧ k = v.selectedChannelName))
    ∧ (runOps refLib (DsoInput.init Fx (some snapshotSettings))
        [TailerOp.tick (some exampleLogA), TailerOp.quit, TailerOp.tick none]).map
        (fun st => (st.sampleDatas.keys, st.buffer "A".toList, st.buffer "X".toList))
      = some (["A".toList, "X".toList], some [⟨1, 1⟩, ⟨2, 1⟩], some [])
    ∧ opsLines refLib (DsoInput.init Fx (some snapshotSettings))
        [TailerOp.tick (some exampleLogA), TailerOp.quit, TailerOp.tick none]
      = ["ScopeData: Time: 0.0, A: 1.0,\n".toList, "ScopeData: Time: 1.0, A: 2.0,\n".toList] :=
  ⟨registry_origin refLib snapshotSettings
      [TailerOp.tick (some exampleLogA), TailerOp.quit, TailerOp.tick none]
      (by decide) (by decide) (by decide),
    by decide, by decide⟩

end OpenHantek
